import Mathlib

/-! # Verification of `Opcodes/pvsops.cpp` (Csound): `tvconv` and `pvstrace`

A shallow embedding of `struct TVConv` (time-varying convolution) and proofs of
properties of its setup (`rpow2`, `init`), its direct convolver (`dconv`) and
its partitioned convolver (`pconv`); and of `struct PVTrace` (`kperf`, the
spectral peak tracer).

Conventions of the embedding

* `uint32_t` values are `Nat`s below `2 ^ 32`; every operation that can wrap is
  written with an explicit `% 2 ^ 32`.
* `MYFLT` samples are elements of an arbitrary linearly ordered commutative ring
  `R` (exact arithmetic); concrete runs use `Int`.
* An `AuxMem<MYFLT>` buffer is a `List R`; an iterator into it is the `Nat`
  offset from `begin()`.
* The host's real FFT (`csound->rfft`) is a pair of unspecified functions on
  windows, carried in `Transforms`.
* A load or store outside a buffer is undefined in the source; here such a load
  reads `0` and such a store is dropped.
* A counted loop is a fold over its pass numbers; the loop of `rpow2`, which
  need not end, carries fuel.
* The `float` amplitudes of `PVTrace` are elements of the same kind of ring `R`,
  compared in its linear order (no NaN); `std::nth_element` is taken by its
  contract.
-/

namespace PvsOps

/-! ## Machine arithmetic -/

/-- The modulus of `uint32_t` arithmetic. -/
def U32 : Nat := 2 ^ 32

/-- `v << 1` on `uint32_t`. -/
def shl1 (v : Nat) : Nat := (v * 2) % U32

/-- `v >> 1` on `uint32_t`. -/
def shr1 (v : Nat) : Nat := v / 2

/-- `a - b` on `uint32_t` (wraps below zero). -/
def sub32 (a b : Nat) : Nat := (a + U32 - b % U32) % U32

/-- `a * 2` on `uint32_t` (wraps). -/
def mul2 (a : Nat) : Nat := (a * 2) % U32

/-! ## `TVConv::rpow2` -/

/-- The loop `while (v <= n) v <<= 1;` of `rpow2`, run for at most `fuel` tests
of the condition.  `none` means the loop has not been left yet. -/
def rpow2Loop : Nat → Nat → Nat → Option Nat
  | 0, _, _ => none
  | fuel + 1, n, v => if v ≤ n then rpow2Loop fuel n (shl1 v) else some v

/-- `TVConv::rpow2`.  The loop variable is a 32-bit value that starts at `2`
and doubles, so after 32 tests it is `0` and stays `0`: 32 tests decide whether
the loop is ever left (`rpow2Loop_diverges`, `rpow2_value`). -/
def rpow2 (n : Nat) : Option Nat :=
  (rpow2Loop 32 n 2).map fun v =>
    if sub32 n (shr1 v) < sub32 v n then shr1 v else v

/-! ## The state of a `TVConv` instance -/

/-- Modelled from the spec: `csnd::AuxMem<T>::allocate` is declared in
`plugin.h`, which is not part of this file.  The spec sizes every buffer
"deterministically" at setup and the rings start out holding no history, so the
model is a buffer of `n` zeros. -/
def allocate {R : Type} [Zero R] (n : Nat) : List R := List.replicate n 0

/-- The data members of `struct TVConv`.  `itn` and `itr` are the offsets of the
two iterators from `insp.begin()` and `irsp.begin()`. -/
structure TVConv (R : Type) where
  insp : List R
  irsp : List R
  out : List R
  saved : List R
  itn : Nat
  itr : Nat
  n : Nat
  fils : Nat
  pars : Nat
  ffts : Nat
deriving DecidableEq

/-- The host's transform primitive `csound->rfft`, with the two handles made by
`fft_setup(ffts, FFT_FWD)` and `fft_setup(ffts, FFT_INV)`: each maps a window of
`ffts` values to its in-place result. -/
structure Transforms (R : Type) where
  fwd : List R → List R
  inv : List R → List R

/-- The values one pass of the sample loop reads: `*inp`, `*irp`, `*frz1`,
`*frz2`. -/
structure Tick (R : Type) where
  inp : R
  irp : R
  frz1 : R
  frz2 : R
deriving DecidableEq

/-- The arguments of one `aperf` call: two audio vectors of `nsmps` samples and
two freeze controls, each with its step `inc` (`csound->is_asig`: 1 for an audio
vector, 0 for a held scalar). -/
structure Block (R : Type) where
  nsmps : Nat
  insig : List R
  irsig : List R
  frz1 : List R
  inc1 : Nat
  frz2 : List R
  inc2 : Nat

/-! ## `TVConv::init` -/

/-- `TVConv::init` on the two setup values `inargs[4]`, `inargs[5]` (already
converted to `uint32_t`).  The members the direct branch leaves untouched
(`out`, `saved`, `n`, `ffts`) have the value of a fresh instance.  `none` means
that `rpow2` does not return. -/
def init {R : Type} [Zero R] (a b : Nat) : Option (TVConv R) :=
  let pars := a
  let fils := b
  let sw := if pars > fils then (fils, pars) else (pars, fils)
  let pars := sw.1
  let fils := sw.2
  if pars > 1 then
    (rpow2 pars).bind fun p =>
      (rpow2 fils).map fun f =>
        let fils := mul2 f
        let ffts := mul2 p
        { insp := allocate fils, irsp := allocate fils, out := allocate ffts,
          saved := allocate p, itn := 0, itr := 0, n := 0,
          fils := fils, pars := p, ffts := ffts }
  else
    some { insp := allocate fils, irsp := allocate fils, out := [], saved := [],
           itn := 0, itr := 0, n := 0, fils := fils, pars := pars, ffts := 0 }

/-! ## `TVConv::dconv` -/

/-- The inner loop of `dconv` (source lines 191-197): `in` starts at `itn`, `ir`
at `irsp.end() - 1` and runs down to `irsp.begin()`; the loop state is
`(in, s)`. -/
def dconvInner {R : Type} [LinearOrderedCommRing R]
    (insp irsp : List R) (itn : Nat) : R :=
  ((List.range irsp.length).foldl
    (fun (st : Nat × R) j =>
      let i := if st.1 = insp.length then 0 else st.1
      let ir := irsp.length - 1 - j
      (i + 1, st.2 + insp.getD i 0 * irsp.getD ir 0))
    (itn, 0)).2

/-- One pass of the sample loop of `dconv` (source lines 187-197): the new state
and the output sample `s`. -/
def dconvStep {R : Type} [LinearOrderedCommRing R]
    (s : TVConv R) (k : Tick R) : TVConv R × R :=
  let insp := if 0 < k.frz1 then s.insp.set s.itn k.inp else s.insp
  let itn := if 0 < k.frz1 then s.itn + 1 else s.itn
  let irsp := if 0 < k.frz2 then s.irsp.set s.itr k.irp else s.irsp
  let itr := if 0 < k.frz2 then s.itr + 1 else s.itr
  let itn := if itn = insp.length then 0 else itn
  let itr := if itr = irsp.length then 0 else itr
  ({ s with insp := insp, irsp := irsp, itn := itn, itr := itr },
   dconvInner insp irsp itn)

/-! ## `TVConv::pconv` -/

/-- `std::fill(buf + lo, buf + hi, v)`. -/
def fill {R : Type} (buf : List R) (lo hi : Nat) (v : R) : List R :=
  (List.range (hi - lo)).foldl (fun b j => b.set (lo + j) v) buf

/-- `csound->rfft(handle, buf + off)` with a handle of size `len`: the window
`[off, off + len)` is replaced by its transform. -/
def rfftAt {R : Type} [Zero R] (f : List R → List R) (buf : List R)
    (off len : Nat) : List R :=
  let w := f ((buf.drop off).take len)
  (List.range len).foldl (fun b j => b.set (off + j) (w.getD j 0)) buf

/-- Element `i` of `to_cmplx(buf + off)`: the pair `(re, im)`. -/
def cget {R : Type} [Zero R] (buf : List R) (off i : Nat) : R × R :=
  (buf.getD (off + 2 * i) 0, buf.getD (off + 2 * i + 1) 0)

/-- `ous[i] += z` on `ous = to_cmplx(out.data())`. -/
def cadd {R : Type} [LinearOrderedCommRing R] (out : List R) (i : Nat)
    (z : R × R) : List R :=
  (out.set (2 * i) (out.getD (2 * i) 0 + z.1)).set (2 * i + 1)
    (out.getD (2 * i + 1) 0 + z.2)

/-- The product of `std::complex`. -/
def cmul {R : Type} [LinearOrderedCommRing R] (a b : R × R) : R × R :=
  (a.1 * b.1 - a.2 * b.2, a.1 * b.2 + a.2 * b.1)

/-- `TVConv::real_prod`. -/
def real_prod {R : Type} [LinearOrderedCommRing R] (a b : R × R) : R × R :=
  (a.1 * b.1, a.2 * b.2)

/-- The spectral product of one pair of blocks (source lines 156-161), added
into `out`: bins `1 .. pars - 1`, then bin `0`. -/
def specProd {R : Type} [LinearOrderedCommRing R] (pars : Nat)
    (insp irsp : List R) (i ir : Nat) (out : List R) : List R :=
  let out := (List.range (pars - 1)).foldl
    (fun o j => cadd o (j + 1) (cmul (cget insp i (j + 1)) (cget irsp ir (j + 1))))
    out
  cadd out 0 (real_prod (cget insp i 0) (cget irsp ir 0))

/-- The spectral delay line (source lines 152-162): `in` starts at `itn`, `ir`
at `irsp.end() - ffts` and steps down by `ffts` while `ir >= irsp.begin()`, which
is `irsp.length / ffts` passes when `0 < ffts` (with `ffts = 0` the source loop
does not end; no state set up without 32-bit overflow has `ffts = 0`).  The loop
state is `(in, out)`. -/
def delayLine {R : Type} [LinearOrderedCommRing R] (pars ffts : Nat)
    (insp irsp : List R) (itn : Nat) (out : List R) : List R :=
  ((List.range (irsp.length / ffts)).foldl
    (fun (st : Nat × List R) j =>
      let i := if st.1 = insp.length then 0 else st.1
      let ir := irsp.length - ffts - j * ffts
      (i + ffts, specProd pars insp irsp i ir st.2))
    (itn, out)).2

/-- The two conditional stores that open the sample loop of `pconv` (source
lines 134-135). -/
def pconvWrite {R : Type} [LinearOrderedCommRing R]
    (s : TVConv R) (k : Tick R) : TVConv R :=
  { s with
    insp := if 0 < k.frz1 then s.insp.set (s.itn + s.n) k.inp else s.insp
    irsp := if 0 < k.frz2 then s.irsp.set (s.itr + s.n) k.irp else s.irsp }

/-- The block update of `pconv` (source lines 140-165), run when the sample
counter reaches `pars`. -/
def blockUpdate {R : Type} [LinearOrderedCommRing R] (T : Transforms R)
    (s : TVConv R) : TVConv R :=
  let insp := fill s.insp (s.itn + s.pars) (s.itn + s.ffts) 0
  let irsp := fill s.irsp (s.itr + s.pars) (s.itr + s.ffts) 0
  let out := fill s.out 0 s.out.length 0
  let insp := rfftAt T.fwd insp s.itn s.ffts
  let irsp := rfftAt T.fwd irsp s.itr s.ffts
  let itn := s.itn + s.ffts
  let itr := s.itr + s.ffts
  let itn := if itn = insp.length then 0 else itn
  let itr := if itr = irsp.length then 0 else itr
  let out := delayLine s.pars s.ffts insp irsp itn out
  let out := rfftAt T.inv out 0 s.ffts
  { s with insp := insp, irsp := irsp, out := out, itn := itn, itr := itr, n := 0 }

/-- One pass of the sample loop of `pconv` (source lines 134-166): the new state
and the output sample `s`. -/
def pconvStep {R : Type} [LinearOrderedCommRing R] (T : Transforms R)
    (s : TVConv R) (k : Tick R) : TVConv R × R :=
  let s1 := pconvWrite s k
  let o := s1.out.getD s1.n 0 + s1.saved.getD s1.n 0
  let s2 := { s1 with
    saved := s1.saved.set s1.n (s1.out.getD ((s1.n + s1.pars) % U32) 0) }
  let n := (s2.n + 1) % U32
  if n = s2.pars then (blockUpdate T { s2 with n := n }, o)
  else ({ s2 with n := n }, o)

/-! ## The sample loop and `TVConv::aperf` -/

/-- The values read by pass `i` of the sample loop over a block. -/
def Block.tick {R : Type} [Zero R] (b : Block R) (i : Nat) : Tick R :=
  { inp := b.insig.getD i 0, irp := b.irsig.getD i 0,
    frz1 := b.frz1.getD (i * b.inc1) 0, frz2 := b.frz2.getD (i * b.inc2) 0 }

/-- The passes of the sample loop over a block, in order. -/
def Block.ticks {R : Type} [Zero R] (b : Block R) : List (Tick R) :=
  (List.range b.nsmps).map b.tick

/-- A sample loop `for (auto &s : outsig)`: the state after the last pass and
the output samples in order. -/
def runTicks {R : Type} (step : TVConv R → Tick R → TVConv R × R) :
    TVConv R → List (Tick R) → TVConv R × List R
  | s, [] => (s, [])
  | s, k :: ks =>
    let r := step s k
    let r2 := runTicks step r.1 ks
    (r2.1, r.2 :: r2.2)

/-- `TVConv::pconv`. -/
def pconv {R : Type} [LinearOrderedCommRing R] (T : Transforms R)
    (s : TVConv R) (b : Block R) : TVConv R × List R :=
  runTicks (pconvStep T) s b.ticks

/-- `TVConv::dconv`. -/
def dconv {R : Type} [LinearOrderedCommRing R]
    (s : TVConv R) (b : Block R) : TVConv R × List R :=
  runTicks dconvStep s b.ticks

/-- `TVConv::aperf`. -/
def aperf {R : Type} [LinearOrderedCommRing R] (T : Transforms R)
    (s : TVConv R) (b : Block R) : TVConv R × List R :=
  if s.pars > 1 then pconv T s b else dconv s b

/-- The state after a sequence of `aperf` calls. -/
def aperfs {R : Type} [LinearOrderedCommRing R] (T : Transforms R) :
    TVConv R → List (Block R) → TVConv R
  | s, [] => s
  | s, b :: bs => aperfs T (aperf T s b).1 bs

/-! ## Streams -/

/-- The first `t` passes over four sample streams. -/
def ticksOf {R : Type} (x h f1 f2 : Nat → R) (t : Nat) : List (Tick R) :=
  (List.range t).map fun i => { inp := x i, irp := h i, frz1 := f1 i, frz2 := f2 i }

/-- Time-domain convolution truncated to the first `m` taps:
`sum over a < m of x[t - a] * h[a]`. -/
def convAt {R : Type} [LinearOrderedCommRing R] (x h : Nat → R) (m t : Nat) : R :=
  ((List.range m).map fun a => x (t - a) * h a).sum

/-! ## The sizing rule as the data-model section of the spec words it -/

/-- The spec's "smallest power of two >= requested length": `r` is a power of
two, `r >= p`, and no power of two in between. -/
def IsCeilPow2 (p r : Nat) : Prop :=
  (∃ k, r = 2 ^ k) ∧ p ≤ r ∧ ∀ k, p ≤ 2 ^ k → r ≤ 2 ^ k

/-! ## Reachable states of the partitioned convolver -/

/-- The states a partitioned instance can be in: the state `init` returns for
setup values with `min a b > 1` and no 32-bit overflow, and every state a pass
of the sample loop of `pconv` leads to from there. -/
inductive PReach {R : Type} [LinearOrderedCommRing R] (T : Transforms R) :
    TVConv R → Prop
  | init (a b : Nat) (s : TVConv R) : 1 < min a b → max a b < 3 * 2 ^ 29 →
      PvsOps.init a b = some s → PReach T s
  | step (s : TVConv R) (k : Tick R) : PReach T s → PReach T (pconvStep T s k).1

/-! ## Auxiliary definitions for the proofs -/

/-- The value of the read iterator `in` of a ring walk (`dconv` lines 192-197)
on entry to pass `m`, before its wrap test: it starts at `itn` and is one past
the slot read by the previous pass. -/
def loopCursor (L itn : Nat) : Nat → Nat
  | 0 => itn
  | m + 1 => (itn + m) % L + 1

/-- The rings of a direct convolver of span `L` after `t` passes that stored
every input sample `x` and stored the impulse sample `h` on passes `0 .. N - 1`
only: the last `L` inputs sit at their index modulo `L`, the impulse ring holds
`h 0 .. h (min t N - 1)` followed by zeros. -/
def DirectInv {R : Type} [LinearOrderedCommRing R] (L : Nat) (x h : Nat → R)
    (N t : Nat) (s : TVConv R) : Prop :=
  s.insp.length = L ∧ s.irsp.length = L ∧ s.itn = t % L ∧ s.itr = (min t N) % L ∧
  (∀ d, d < t → t ≤ d + L → s.insp.getD (d % L) 0 = x d) ∧
  (∀ a, a < L → s.irsp.getD a 0 = if a < min t N then h a else 0)

/-- Three direct convolvers fed the inputs `A`, `B` and `A + c * B` with the same
impulse and control streams: same cursors, same impulse ring, and the third
input ring is the first plus `c` times the second, slot by slot. -/
def LinRel {R : Type} [LinearOrderedCommRing R] (c : R) (s1 s2 s3 : TVConv R) : Prop :=
  s1.insp.length = s3.insp.length ∧ s2.insp.length = s3.insp.length ∧
  s1.irsp = s3.irsp ∧ s2.irsp = s3.irsp ∧
  s1.itn = s3.itn ∧ s2.itn = s3.itn ∧ s1.itr = s3.itr ∧ s2.itr = s3.itr ∧
  ∀ i, s3.insp.getD i 0 = s1.insp.getD i 0 + c * s2.insp.getD i 0

/-! ## Auxiliary definitions for the partitioned convolver -/

/-- The state of a pass of `pconv` after its two stores, its output sample, the
update of the carry and the increment of the counter (source lines 134-139):
the state the block update starts from when the counter has reached `pars`. -/
def preUpdate {R : Type} [LinearOrderedCommRing R] (s : TVConv R) (k : Tick R) :
    TVConv R :=
  { pconvWrite s k with
    saved := s.saved.set s.n (s.out.getD ((s.n + s.pars) % U32) 0)
    n := (s.n + 1) % U32 }

/-- The sizes and cursors of a partitioned instance set up without 32-bit
overflow. -/
def PInv {R : Type} (s : TVConv R) : Prop :=
  2 ≤ s.pars ∧ s.pars ≤ 2 ^ 30 ∧ s.ffts = 2 * s.pars ∧ s.ffts ∣ s.fils ∧ 0 < s.fils ∧
  s.insp.length = s.fils ∧ s.irsp.length = s.fils ∧ s.out.length = s.ffts ∧
  s.saved.length = s.pars ∧ s.n < s.pars ∧ s.itr = s.itn ∧ s.ffts ∣ s.itn ∧
  s.itn < s.fils

/-- The pairs `(in, ir)` of block offsets the spectral delay line visits, in the
order of its passes: the loop head of `delayLine` (source lines 152-155) with the
loop body replaced by a record of the two iterators. -/
def delayWalk (ffts inspLen irspLen itn : Nat) : List (Nat × Nat) :=
  ((List.range (irspLen / ffts)).foldl
    (fun (st : Nat × List (Nat × Nat)) j =>
      let i := if st.1 = inspLen then 0 else st.1
      let ir := irspLen - ffts - j * ffts
      (i + ffts, st.2 ++ [(i, ir)]))
    (itn, [])).2

/-- The value of the iterator `in` of the delay line walk on entry to pass `m`,
before its wrap test, in a ring of `P` blocks of `ffts` values walked from
block `c`. -/
def walkCursor (P ffts c : Nat) : Nat → Nat
  | 0 => c * ffts
  | m + 1 => ((c + m) % P) * ffts + ffts

/-- The product accumulated for bin `b` (source lines 159-161): `real_prod` on
bin 0, the complex product on every other bin. -/
def binProd {R : Type} [LinearOrderedCommRing R] (b : Nat) (x y : R × R) : R × R :=
  if b = 0 then real_prod x y else cmul x y

/-- The accumulator `out` of the block update just before the inverse transform
(source lines 141-162 without line 164). -/
def blockAccum {R : Type} [LinearOrderedCommRing R] (T : Transforms R)
    (s : TVConv R) : List R :=
  let insp := fill s.insp (s.itn + s.pars) (s.itn + s.ffts) 0
  let irsp := fill s.irsp (s.itr + s.pars) (s.itr + s.ffts) 0
  let out := fill s.out 0 s.out.length 0
  let insp := rfftAt T.fwd insp s.itn s.ffts
  let irsp := rfftAt T.fwd irsp s.itr s.ffts
  let itn := s.itn + s.ffts
  let itn := if itn = insp.length then 0 else itn
  delayLine s.pars s.ffts insp irsp itn out

/-- The age of ring block `m` at a block update that has just transformed block
`cur`, in a ring of `P` blocks whose write cursor moves on by one block, in a
cycle, at every block update: the number of block updates since the cursor stood
on `m` (0 for `m = cur`). -/
def blockAge (P cur m : Nat) : Nat := (cur + P - m) % P

/-- Every load and store of one pass of `pconv` from the state `s` lies inside
its buffer; the ranges of the block update are those it has when the pass runs
it. -/
def PassInBounds {R : Type} (s : TVConv R) : Prop :=
  -- lines 134-135: `itn[n]`, `itr[n]`
  s.itn + s.n < s.insp.length ∧ s.itr + s.n < s.irsp.length ∧
  -- lines 137-138: `out[n]`, `saved[n]`, `out[n + pars]`
  s.n < s.out.length ∧ s.n < s.saved.length ∧ (s.n + s.pars) % U32 < s.out.length ∧
  -- lines 141-142: the zero-fill of `[itn + pars, itn + ffts)`, same for `itr`
  s.itn + s.pars ≤ s.itn + s.ffts ∧ s.itn + s.ffts ≤ s.insp.length ∧
  s.itr + s.pars ≤ s.itr + s.ffts ∧ s.itr + s.ffts ≤ s.irsp.length ∧
  -- lines 143, 145-146, 164: the windows of `ffts` values at `itn`, `itr`, `out`
  s.ffts ≤ s.out.length ∧
  -- lines 152-154: `ir` stays at or above `irsp.begin()` while the walk runs
  (∀ j, j < s.irsp.length / s.ffts → s.ffts + j * s.ffts ≤ s.irsp.length) ∧
  -- lines 156-161: bins `0 .. pars - 1` of each visited block and of `out`
  (∀ p, p ∈ delayWalk s.ffts s.insp.length s.irsp.length
        (if s.itn + s.ffts = s.insp.length then 0 else s.itn + s.ffts) →
      p.1 + 2 * s.pars ≤ s.insp.length ∧ p.2 + 2 * s.pars ≤ s.irsp.length) ∧
  2 * s.pars ≤ s.out.length

/-! ## `PVTrace` -/

/-- Modelled from the spec: `csnd::pv_bin` is declared in `plugin.h`, which is
not part of this file.  The spec's frame-spectral interface is a "sequence of
(amplitude, frequency) bin pairs". -/
structure pv_bin (R : Type) where
  amp : R
  freq : R
deriving DecidableEq

/-- Modelled from the spec: the default-constructed `csnd::pv_bin()`, the spec's
"null bin value" with "both amplitude and frequency/phase" zeroed. -/
def pv_bin.null {R : Type} [Zero R] : pv_bin R := { amp := 0, freq := 0 }

/-- Modelled from the spec: `csnd::pv_frame` is declared in `plugin.h`.  The spec
gives a frame as its bins "plus a monotonically increasing frame counter"; `len`
is the number of bins. -/
structure pv_frame (R : Type) where
  bins : List (pv_bin R)
  count : Nat
deriving DecidableEq

/-- The number of bins `fin.len()` of a frame. -/
def pv_frame.len {R : Type} (f : pv_frame R) : Nat := f.bins.length

/-- The members of `struct PVTrace` that outlive a call of `kperf`: the counter
of the last frame processed and the output frame (`amps` is scratch space
refilled by every call). -/
structure PVTrace (R : Type) where
  framecount : Nat
  fout : pv_frame R
deriving DecidableEq

/-- The call `std::nth_element(amps.begin(), amps.begin() + n, amps.end())`
followed by the load `amps[n]` (source lines 54-55).  By the contract of the
standard algorithm the element at position `n` is then the one an ascending sort
would put there.  `none` stands for an `n` that is not an index of `amps`, where
the source is undefined. -/
def nthElement {R : Type} [LinearOrderedCommRing R] (amps : List R) (n : Int) :
    Option R :=
  if 0 ≤ n ∧ n < amps.length then (amps.insertionSort (· ≤ ·))[n.toNat]? else none

/-- The body of the `if` of `PVTrace::kperf` on the bins of the input frame
(source lines 50-59), with `k` the value of `(int)inargs[1]`: the bins of the
output frame. -/
def traceFrame {R : Type} [LinearOrderedCommRing R] (bins : List (pv_bin R)) (k : Int) :
    Option (List (pv_bin R)) :=
  let n : Int := (bins.length : Int) - k
  let amps := bins.map fun f => f.amp
  (nthElement amps n).map fun thrsh =>
    bins.map fun f => if f.amp ≥ thrsh then f else pv_bin.null

/-- `PVTrace::kperf`: a frame whose counter is above `framecount` is new and is
thresholded; otherwise nothing changes. -/
def PVTrace.kperf {R : Type} [LinearOrderedCommRing R] (p : PVTrace R)
    (fin : pv_frame R) (k : Int) : Option (PVTrace R) :=
  if p.framecount < fin.count then
    (traceFrame fin.bins k).map fun bins =>
      { framecount := fin.count, fout := { bins := bins, count := fin.count } }
  else some p

/-! ## Facts about `rpow2` -/

theorem shl1_pow (k : Nat) (hk : k < 31) : shl1 (2 ^ k) = 2 ^ (k + 1) := by
  unfold shl1 U32
  rw [← pow_succ]
  apply Nat.mod_eq_of_lt
  exact Nat.pow_lt_pow_right (by norm_num) (by omega)

/-- From `v = 2 ^ k` with `2 ^ (k - 1) <= n < 2 ^ 31` the loop of `rpow2` is left
after at most `32 - k` tests, at the first power of two above `n`. -/
theorem rpow2Loop_exit (n : Nat) (hn : n < 2 ^ 31) :
    ∀ fuel k, 1 ≤ k → k ≤ 31 → 2 ^ (k - 1) ≤ n → 31 - k < fuel →
      ∃ j, k ≤ j ∧ j ≤ 31 ∧ 2 ^ (j - 1) ≤ n ∧ n < 2 ^ j ∧
        rpow2Loop fuel n (2 ^ k) = some (2 ^ j) := by
  intro fuel
  induction fuel with
  | zero => intro k _ _ _ h; omega
  | succ fuel ih =>
    intro k h1 h31 hlo hf
    by_cases hv : 2 ^ k ≤ n
    · have hk : k < 31 := by
        by_contra hc
        have : k = 31 := by omega
        subst this
        omega
      obtain ⟨j, hj1, hj2, hj3, hj4, hj5⟩ :=
        ih (k + 1) (by omega) (by omega) (by simpa using hv) (by omega)
      refine ⟨j, by omega, hj2, hj3, hj4, ?_⟩
      simp only [rpow2Loop, hv, if_true, shl1_pow k hk]
      exact hj5
    · refine ⟨k, le_refl _, h31, hlo, by omega, ?_⟩
      simp only [rpow2Loop, hv, if_false]

/-- The loop variable of `rpow2` after its first 31 doublings is `0`, which is
never above `n`: from there the loop is not left. -/
theorem rpow2Loop_zero (n : Nat) : ∀ fuel, rpow2Loop fuel n 0 = none := by
  intro fuel
  induction fuel with
  | zero => rfl
  | succ fuel ih => simp [rpow2Loop, shl1, ih]

/-- For `n >= 2 ^ 31` (as a 32-bit value) the loop of `rpow2` is never left,
whatever the number of tests allowed. -/
theorem rpow2Loop_diverges (n : Nat) (hn : 2 ^ 31 ≤ n) :
    ∀ fuel, rpow2Loop fuel n 2 = none := by
  have key : ∀ fuel k, 1 ≤ k → k ≤ 32 → rpow2Loop fuel n (2 ^ k % U32) = none := by
    intro fuel
    induction fuel with
    | zero => intros; rfl
    | succ fuel ih =>
      intro k h1 h32
      by_cases hk : k = 32
      · subst hk
        have : (2 : Nat) ^ 32 % U32 = 0 := by unfold U32; norm_num
        rw [this]
        exact rpow2Loop_zero n _
      · have hk31 : k ≤ 31 := by omega
        have hlt : (2 : Nat) ^ k < 2 ^ 32 := Nat.pow_lt_pow_right (by norm_num) (by omega)
        have hle : (2 : Nat) ^ k ≤ 2 ^ 31 := Nat.pow_le_pow_right (by norm_num) hk31
        have hmod : (2 : Nat) ^ k % U32 = 2 ^ k := Nat.mod_eq_of_lt (by unfold U32; exact hlt)
        rw [hmod]
        have hv : 2 ^ k ≤ n := le_trans hle hn
        simp only [rpow2Loop, hv, if_true]
        have : shl1 (2 ^ k) = 2 ^ (k + 1) % U32 := by
          unfold shl1; rw [pow_succ]
        rw [this]
        exact ih (k + 1) (by omega) (by omega)
  intro fuel
  have := key fuel 1 (le_refl _) (by norm_num)
  simpa [U32] using this

/-- The value `rpow2` returns: with `lo = 2 ^ k` the largest power of two not
above `n`, the nearer of `lo` and `2 * lo`, the larger on a tie. -/
theorem rpow2_value (n : Nat) (h2 : 2 ≤ n) (hn : n < 2 ^ 31) :
    ∃ k, 1 ≤ k ∧ k ≤ 30 ∧ 2 ^ k ≤ n ∧ n < 2 ^ (k + 1) ∧
      (∀ fuel, 31 ≤ fuel → rpow2Loop fuel n 2 = some (2 ^ (k + 1))) ∧
      rpow2 n = some (if n - 2 ^ k < 2 ^ (k + 1) - n then 2 ^ k else 2 ^ (k + 1)) := by
  obtain ⟨j, hj1, hj2, hj3, hj4, -⟩ :=
    rpow2Loop_exit n hn 31 1 (le_refl _) (by norm_num) (by simpa using by omega) (by norm_num)
  have hj : 2 ≤ j := by
    by_contra hc
    have : j = 1 := by omega
    subst this
    norm_num at hj4
    omega
  have hloop : ∀ fuel, 31 ≤ fuel → rpow2Loop fuel n 2 = some (2 ^ j) := by
    intro fuel hf
    obtain ⟨j', _, _, hj3', hj4', hj5'⟩ :=
      rpow2Loop_exit n hn fuel 1 (le_refl _) (by norm_num) (by simpa using by omega) (by omega)
    have : j' = j := by
      rcases Nat.lt_trichotomy j' j with h | h | h
      · exfalso
        have : (2 : Nat) ^ j' ≤ 2 ^ (j - 1) := Nat.pow_le_pow_right (by norm_num) (by omega)
        omega
      · exact h
      · exfalso
        have : (2 : Nat) ^ j ≤ 2 ^ (j' - 1) := Nat.pow_le_pow_right (by norm_num) (by omega)
        omega
    subst this
    simpa using hj5'
  refine ⟨j - 1, by omega, by omega, hj3, ?_, ?_, ?_⟩
  · rw [Nat.sub_add_cancel (by omega)]; exact hj4
  · rw [Nat.sub_add_cancel (by omega)]; exact hloop
  · rw [Nat.sub_add_cancel (by omega)]
    have hpow : (2 : Nat) ^ j = 2 * 2 ^ (j - 1) := by
      conv_lhs => rw [show j = (j - 1) + 1 by omega]
      rw [pow_succ]; ring
    have hj32 : (2 : Nat) ^ j ≤ 2 ^ 31 := Nat.pow_le_pow_right (by norm_num) hj2
    unfold rpow2
    rw [hloop 32 (by norm_num)]
    simp only [Option.map_some', shr1, sub32, U32]
    have hhalf : (2 : Nat) ^ j / 2 = 2 ^ (j - 1) := by omega
    rw [hhalf]
    have e1 : (n + 2 ^ 32 - 2 ^ (j - 1) % 2 ^ 32) % 2 ^ 32 = n - 2 ^ (j - 1) := by
      rw [Nat.mod_eq_of_lt (by omega : 2 ^ (j - 1) < 2 ^ 32)]
      rw [show n + 2 ^ 32 - 2 ^ (j - 1) = (n - 2 ^ (j - 1)) + 2 ^ 32 by omega]
      rw [Nat.add_mod_right]
      exact Nat.mod_eq_of_lt (by omega)
    have e2 : (2 ^ j + 2 ^ 32 - n % 2 ^ 32) % 2 ^ 32 = 2 ^ j - n := by
      rw [Nat.mod_eq_of_lt (by omega : n < 2 ^ 32)]
      rw [show 2 ^ j + 2 ^ 32 - n = (2 ^ j - n) + 2 ^ 32 by omega]
      rw [Nat.add_mod_right]
      exact Nat.mod_eq_of_lt (by omega)
    rw [e1, e2]

/-- On `2 <= n < 2 ^ 31` the value of `rpow2` is the power of two `r` with
`3 r / 4 <= n < 3 r / 2`. -/
theorem rpow2_bracket (n : Nat) (h2 : 2 ≤ n) (hn : n < 2 ^ 31) :
    ∃ j, 1 ≤ j ∧ j ≤ 31 ∧ rpow2 n = some (2 ^ j) ∧ 3 * 2 ^ j ≤ 4 * n ∧ 2 * n < 3 * 2 ^ j := by
  obtain ⟨k, hk1, hk30, hlo, hhi, -, hr⟩ := rpow2_value n h2 hn
  have hp : (2 : Nat) ^ (k + 1) = 2 * 2 ^ k := by rw [pow_succ]; ring
  by_cases hc : n - 2 ^ k < 2 ^ (k + 1) - n
  · refine ⟨k, hk1, by omega, ?_, by omega, by omega⟩
    rw [hr, if_pos hc]
  · refine ⟨k + 1, by omega, by omega, ?_, by omega, by omega⟩
    rw [hr, if_neg hc]

/-- `rpow2` is monotone where it returns. -/
theorem rpow2_mono (m n r q : Nat) (h2 : 2 ≤ m) (hmn : m ≤ n) (hn : n < 2 ^ 31)
    (hm : rpow2 m = some r) (hq : rpow2 n = some q) : r ≤ q := by
  obtain ⟨i, -, -, hi, hi1, hi2⟩ := rpow2_bracket m h2 (by omega)
  obtain ⟨j, -, -, hj, hj1, hj2⟩ := rpow2_bracket n (by omega) hn
  rw [hm] at hi
  rw [hq] at hj
  cases hi
  cases hj
  by_contra hc
  have hji : j < i := by
    by_contra h'
    exact hc (Nat.pow_le_pow_right (by norm_num) (by omega))
  have h1 : (2 : Nat) ^ (j + 1) ≤ 2 ^ i := Nat.pow_le_pow_right (by norm_num) hji
  have h2 : (2 : Nat) ^ (j + 1) = 2 * 2 ^ j := by rw [pow_succ]; ring
  omega

/-- No wrap in `rpow2(f) * 2` below `3 * 2 ^ 29`. -/
theorem rpow2_small (n : Nat) (h2 : 2 ≤ n) (hn : n < 3 * 2 ^ 29) :
    ∃ j, 1 ≤ j ∧ j ≤ 30 ∧ rpow2 n = some (2 ^ j) ∧ mul2 (2 ^ j) = 2 * 2 ^ j := by
  obtain ⟨j, hj1, hj31, hj, hb1, -⟩ := rpow2_bracket n h2 (by omega)
  have hj30 : j ≤ 30 := by
    by_contra hc
    have : j = 31 := by omega
    subst this
    omega
  refine ⟨j, hj1, hj30, hj, ?_⟩
  have : (2 : Nat) ^ j ≤ 2 ^ 30 := Nat.pow_le_pow_right (by norm_num) hj30
  unfold mul2 U32
  rw [Nat.mod_eq_of_lt (by omega)]
  ring

/-! ## Facts about `init` -/

theorem init_comm {R : Type} [Zero R] (a b : Nat) :
    (init a b : Option (TVConv R)) = init b a := by
  rcases Nat.lt_trichotomy a b with h | h | h
  · have h1 : ¬ a > b := by omega
    have h2 : b > a := h
    simp only [init, h1, h2, if_true, if_false]
  · subst h; rfl
  · have h1 : a > b := h
    have h2 : ¬ b > a := by omega
    simp only [init, h1, h2, if_true, if_false]

theorem init_sorted {R : Type} [Zero R] (a b : Nat) :
    (init a b : Option (TVConv R)) = init (min a b) (max a b) := by
  rcases Nat.le_total a b with h | h
  · rw [min_eq_left h, max_eq_right h]
  · rw [min_eq_right h, max_eq_left h, init_comm]

/-- The direct branch of `init`. -/
theorem init_direct {R : Type} [Zero R] (p f : Nat) (hpf : p ≤ f) (hp : p ≤ 1) :
    (init p f : Option (TVConv R)) =
      some { insp := allocate f, irsp := allocate f, out := [], saved := [],
             itn := 0, itr := 0, n := 0, fils := f, pars := p, ffts := 0 } := by
  have h1 : ¬ p > f := by omega
  have h2 : ¬ p > 1 := by omega
  simp only [init, h1, h2, if_false]

/-- The partitioned branch of `init`. -/
theorem init_partitioned {R : Type} [Zero R] (p f rp rf : Nat) (hpf : p ≤ f) (hp : 1 < p)
    (h1 : rpow2 p = some rp) (h2 : rpow2 f = some rf) :
    (init p f : Option (TVConv R)) =
      some { insp := allocate (mul2 rf), irsp := allocate (mul2 rf),
             out := allocate (mul2 rp), saved := allocate rp,
             itn := 0, itr := 0, n := 0, fils := mul2 rf, pars := rp, ffts := mul2 rp } := by
  have h3 : ¬ p > f := by omega
  have h4 : p > 1 := hp
  simp only [init, h3, h4, if_true, if_false, h1, h2, Option.some_bind, Option.map_some']

/-! ## Buffers and sample loops -/

theorem getD_set {R : Type} (l : List R) (i j : Nat) (v d : R) :
    (l.set i v).getD j d = if i = j ∧ i < l.length then v else l.getD j d := by
  simp only [List.getD_eq_getElem?_getD, List.getElem?_set]
  by_cases h : i = j
  · subst h
    by_cases h2 : i < l.length
    · simp [h2]
    · have h3 : l[i]? = none := List.getElem?_eq_none (by omega)
      simp [h2, h3]
  · simp [h]

theorem set_ne_self {R : Type} (l : List R) (i : Nat) (v d : R) (hi : i < l.length)
    (hv : l.getD i d ≠ v) : l.set i v ≠ l := by
  intro h
  have hg := getD_set l i i v d
  rw [h, if_pos ⟨rfl, hi⟩] at hg
  exact hv hg

theorem getD_allocate {R : Type} [Zero R] (n i : Nat) :
    (allocate n : List R).getD i 0 = 0 := by
  simp only [allocate, List.getD_eq_getElem?_getD, List.getElem?_replicate]
  by_cases h : i < n <;> simp [h]

theorem length_allocate {R : Type} [Zero R] (n : Nat) :
    (allocate n : List R).length = n := by
  simp [allocate]

theorem runTicks_append {R : Type} (step : TVConv R → Tick R → TVConv R × R) :
    ∀ (l1 l2 : List (Tick R)) (s : TVConv R),
      runTicks step s (l1 ++ l2) =
        ((runTicks step (runTicks step s l1).1 l2).1,
         (runTicks step s l1).2 ++ (runTicks step (runTicks step s l1).1 l2).2) := by
  intro l1
  induction l1 with
  | nil => intro l2 s; simp [runTicks]
  | cons k ks ih => intro l2 s; simp [runTicks, ih]

theorem runTicks_snoc {R : Type} (step : TVConv R → Tick R → TVConv R × R)
    (l : List (Tick R)) (k : Tick R) (s : TVConv R) :
    runTicks step s (l ++ [k]) =
      ((step (runTicks step s l).1 k).1,
       (runTicks step s l).2 ++ [(step (runTicks step s l).1 k).2]) := by
  rw [runTicks_append]
  simp [runTicks]

theorem ticksOf_succ {R : Type} (x h f1 f2 : Nat → R) (t : Nat) :
    ticksOf x h f1 f2 (t + 1) =
      ticksOf x h f1 f2 t ++ [{ inp := x t, irp := h t, frz1 := f1 t, frz2 := f2 t }] := by
  simp [ticksOf, List.range_succ]

theorem succ_mod (q L : Nat) (hL : 0 < L) :
    (q + 1) % L = if q % L + 1 = L then 0 else q % L + 1 := by
  have hlt : q % L < L := Nat.mod_lt _ hL
  rw [Nat.add_mod]
  by_cases h1 : L = 1
  · subst h1; simp [Nat.mod_one]
  · have h1' : 1 % L = 1 := Nat.mod_eq_of_lt (by omega)
    rw [h1']
    split_ifs with h
    · rw [h]; exact Nat.mod_self L
    · exact Nat.mod_eq_of_lt (by omega)

theorem mod_ne_of_lt (d t L : Nat) (h1 : d < t) (h2 : t < d + L) : t % L ≠ d % L := by
  intro h
  have hd : L ∣ t - d := (Nat.modEq_iff_dvd' (le_of_lt h1)).1 h.symm
  have := Nat.eq_zero_of_dvd_of_lt hd (by omega)
  omega

theorem list_sum_range {R : Type} [AddCommMonoid R] (f : Nat → R) (n : Nat) :
    ((List.range n).map f).sum = ∑ i ∈ Finset.range n, f i := by
  induction n with
  | zero => simp
  | succ n ih => rw [List.sum_range_succ, Finset.sum_range_succ, ih]

/-! ## The inner product of `dconv` -/

theorem loopCursor_wrap (L itn m : Nat) (hit : itn < L) :
    (if loopCursor L itn m = L then 0 else loopCursor L itn m) = (itn + m) % L := by
  cases m with
  | zero =>
    simp only [loopCursor, Nat.add_zero]
    rw [if_neg (by omega), Nat.mod_eq_of_lt hit]
  | succ m =>
    simp only [loopCursor]
    rw [show itn + (m + 1) = (itn + m) + 1 by ring, succ_mod _ _ (by omega)]

/-- The inner loop of `dconv` from a cursor inside the ring: the ring of inputs
read forwards from the cursor against the impulse ring read backwards from the
last slot. -/
theorem dconvInner_eq {R : Type} [LinearOrderedCommRing R] (insp irsp : List R)
    (itn : Nat) (hit : itn < insp.length) :
    dconvInner insp irsp itn =
      ∑ j ∈ Finset.range irsp.length,
        insp.getD ((itn + j) % insp.length) 0 * irsp.getD (irsp.length - 1 - j) 0 := by
  have hL : 0 < insp.length := by omega
  have key : ∀ m, (List.range m).foldl
      (fun (st : Nat × R) j =>
        let i := if st.1 = insp.length then 0 else st.1
        let ir := irsp.length - 1 - j
        (i + 1, st.2 + insp.getD i 0 * irsp.getD ir 0)) (itn, 0)
      = (loopCursor insp.length itn m,
         ∑ j ∈ Finset.range m,
           insp.getD ((itn + j) % insp.length) 0 * irsp.getD (irsp.length - 1 - j) 0) := by
    intro m
    induction m with
    | zero => simp [loopCursor]
    | succ m ih =>
      rw [List.range_succ, List.foldl_append, ih, Finset.sum_range_succ]
      simp only [List.foldl_cons, List.foldl_nil]
      rw [loopCursor_wrap insp.length itn m hit]
      rfl
  unfold dconvInner
  rw [key]

/-! ## The rings of the direct convolver -/

theorem directInv_step {R : Type} [LinearOrderedCommRing R] (L : Nat) (x h : Nat → R)
    (N t : Nat) (hL : 0 < L) (hN : N ≤ L) (s : TVConv R) (k : Tick R)
    (hinv : DirectInv L x h N t s) (h1 : 0 < k.frz1) (hx : k.inp = x t) (hh : k.irp = h t)
    (h2 : t < N → 0 < k.frz2) (h3 : N ≤ t → k.frz2 ≤ 0) :
    DirectInv L x h N (t + 1) (dconvStep s k).1 := by
  obtain ⟨hl1, hl2, hitn, hitr, hin, hir⟩ := hinv
  have htL : t % L < L := Nat.mod_lt _ hL
  simp only [dconvStep, h1, if_true, List.length_set]
  refine ⟨by simp [hl1], ?_, ?_, ?_, ?_, ?_⟩
  · show (if 0 < k.frz2 then s.irsp.set s.itr k.irp else s.irsp).length = L
    split_ifs <;> simp [hl2]
  · show (if s.itn + 1 = s.insp.length then 0 else s.itn + 1) = (t + 1) % L
    rw [hl1, hitn, succ_mod _ _ hL]
  · show (if (if 0 < k.frz2 then s.itr + 1 else s.itr) =
        (if 0 < k.frz2 then s.irsp.set s.itr k.irp else s.irsp).length then 0
        else (if 0 < k.frz2 then s.itr + 1 else s.itr)) = (min (t + 1) N) % L
    by_cases hc : t < N
    · have hf := h2 hc
      rw [if_pos hf, if_pos hf, List.length_set, hl2, hitr, min_eq_left (le_of_lt hc),
        min_eq_left (by omega : t + 1 ≤ N), succ_mod _ _ hL]
    · have hf : ¬ 0 < k.frz2 := not_lt.2 (h3 (by omega))
      rw [if_neg hf, if_neg hf, hl2, hitr, min_eq_right (by omega : N ≤ t),
        min_eq_right (by omega : N ≤ t + 1)]
      have : N % L < L := Nat.mod_lt _ hL
      rw [if_neg (by omega)]
  · intro d hd1 hd2
    show (s.insp.set s.itn k.inp).getD (d % L) 0 = x d
    rw [getD_set, hitn, hl1]
    by_cases hdt : d = t
    · subst hdt
      rw [if_pos ⟨rfl, htL⟩, hx]
    · have hne : t % L ≠ d % L := mod_ne_of_lt d t L (by omega) (by omega)
      rw [if_neg (fun hc => hne hc.1)]
      exact hin d (by omega) (by omega)
  · intro a ha
    show (if 0 < k.frz2 then s.irsp.set s.itr k.irp else s.irsp).getD a 0 =
      if a < min (t + 1) N then h a else 0
    by_cases hc : t < N
    · have hf := h2 hc
      have htm : t % L = t := Nat.mod_eq_of_lt (by omega)
      rw [if_pos hf, getD_set, hitr, hl2, min_eq_left (le_of_lt hc), htm,
        min_eq_left (by omega : t + 1 ≤ N), hir a ha, min_eq_left (le_of_lt hc)]
      by_cases hat : t = a
      · subst hat
        rw [if_pos ⟨rfl, by omega⟩, if_pos (by omega), hh]
      · rw [if_neg (fun hc => hat hc.1)]
        by_cases ha2 : a < t
        · rw [if_pos ha2, if_pos (by omega)]
        · rw [if_neg ha2, if_neg (by omega)]
    · have hf : ¬ 0 < k.frz2 := not_lt.2 (h3 (by omega))
      rw [if_neg hf, hir a ha, min_eq_right (by omega : N ≤ t),
        min_eq_right (by omega : N ≤ t + 1)]

theorem directInv_run {R : Type} [LinearOrderedCommRing R] (L : Nat) (x h f1 f2 : Nat → R)
    (N : Nat) (hL : 0 < L) (hN : N ≤ L) (s0 : TVConv R) (h0 : DirectInv L x h N 0 s0) :
    ∀ t, (∀ i, i < t → 0 < f1 i) → (∀ i, i < t → i < N → 0 < f2 i) →
      (∀ i, i < t → N ≤ i → f2 i ≤ 0) →
      DirectInv L x h N t (runTicks dconvStep s0 (ticksOf x h f1 f2 t)).1 := by
  intro t
  induction t with
  | zero => intro _ _ _; simpa [ticksOf, runTicks] using h0
  | succ t ih =>
    intro hf1 hf2 hf3
    rw [ticksOf_succ, runTicks_snoc]
    exact directInv_step L x h N t hL hN _ _
      (ih (fun i hi => hf1 i (by omega)) (fun i hi => hf2 i (by omega))
        (fun i hi => hf3 i (by omega)))
      (hf1 t (by omega)) rfl rfl (hf2 t (by omega)) (hf3 t (by omega))

/-- The output of the inner loop on rings in the state `DirectInv`: the
convolution of the input with the stored `min t N` impulse samples. -/
theorem directInv_out {R : Type} [LinearOrderedCommRing R] (L : Nat) (x h : Nat → R)
    (N t : Nat) (hL : 0 < L) (hN : N ≤ L) (s : TVConv R) (hinv : DirectInv L x h N (t + 1) s) :
    dconvInner s.insp s.irsp s.itn = convAt x h (min (t + 1) N) t := by
  obtain ⟨hl1, hl2, hitn, -, hin, hir⟩ := hinv
  have htL : (t + 1) % L < L := Nat.mod_lt _ hL
  rw [dconvInner_eq _ _ _ (by omega), hl1, hl2, hitn]
  unfold convAt
  rw [list_sum_range]
  have hm : min (t + 1) N ≤ L := le_trans (min_le_right _ _) hN
  have e1 : ∑ j ∈ Finset.range L,
      s.insp.getD (((t + 1) % L + j) % L) 0 * s.irsp.getD (L - 1 - j) 0 =
      ∑ j ∈ Finset.range L,
        (fun a => s.insp.getD (((t + 1) % L + (L - 1 - a)) % L) 0 * s.irsp.getD a 0)
          (L - 1 - j) := by
    apply Finset.sum_congr rfl
    intro j hj
    have hj' : j < L := Finset.mem_range.1 hj
    simp only []
    rw [show L - 1 - (L - 1 - j) = j by omega]
  rw [e1, Finset.sum_range_reflect
    (fun a => s.insp.getD (((t + 1) % L + (L - 1 - a)) % L) 0 * s.irsp.getD a 0) L]
  have e2 : ∑ a ∈ Finset.range L,
      s.insp.getD (((t + 1) % L + (L - 1 - a)) % L) 0 * s.irsp.getD a 0 =
      ∑ a ∈ Finset.range L, if a < min (t + 1) N then x (t - a) * h a else 0 := by
    apply Finset.sum_congr rfl
    intro a ha
    have ha' : a < L := Finset.mem_range.1 ha
    rw [hir a ha']
    by_cases hc : a < min (t + 1) N
    · have hat : a < t + 1 := lt_of_lt_of_le hc (min_le_left _ _)
      rw [if_pos hc, if_pos hc]
      have hidx : ((t + 1) % L + (L - 1 - a)) % L = (t - a) % L := by
        rw [Nat.mod_add_mod, show t + 1 + (L - 1 - a) = (t - a) + L by omega,
          Nat.add_mod_right]
      rw [hidx, hin (t - a) (by omega) (by omega)]
    · rw [if_neg hc, if_neg hc, mul_zero]
  rw [e2, ← Finset.sum_filter]
  congr 1
  ext a
  simp only [Finset.mem_filter, Finset.mem_range]
  omega

theorem runTicks_out {R : Type} (step : TVConv R → Tick R → TVConv R × R)
    (s : TVConv R) (x h f1 f2 : Nat → R) (T : Nat) :
    (runTicks step s (ticksOf x h f1 f2 T)).2 =
      (List.range T).map fun t =>
        (step (runTicks step s (ticksOf x h f1 f2 t)).1
          { inp := x t, irp := h t, frz1 := f1 t, frz2 := f2 t }).2 := by
  induction T with
  | zero => simp [ticksOf, runTicks]
  | succ T ih => rw [ticksOf_succ, runTicks_snoc, ih, List.range_succ, List.map_append]; rfl

theorem dconvStep_out {R : Type} [LinearOrderedCommRing R] (s : TVConv R) (k : Tick R) :
    (dconvStep s k).2 =
      dconvInner (dconvStep s k).1.insp (dconvStep s k).1.irsp (dconvStep s k).1.itn := rfl

theorem directInv_init {R : Type} [LinearOrderedCommRing R] (a b : Nat) (s0 : TVConv R)
    (x h : Nat → R) (N : Nat) (hmode : min a b ≤ 1) (hinit : init a b = some s0) :
    DirectInv (max a b) x h N 0 s0 := by
  rw [init_sorted, init_direct _ _ (min_le_max) hmode] at hinit
  cases hinit
  refine ⟨length_allocate _, length_allocate _, by simp, by simp, ?_, ?_⟩
  · intro d hd; omega
  · intro i _
    have hn : ¬ i < min 0 N := by simp
    show (allocate (max a b) : List R).getD i 0 = if i < min 0 N then h i else 0
    rw [getD_allocate, if_neg hn]

/-- Output sample `t` of a direct convolver whose input is always stored and
whose impulse response is stored on passes `0 .. N - 1` only. -/
theorem dconv_sample {R : Type} [LinearOrderedCommRing R] (a b : Nat) (s0 : TVConv R)
    (x h f1 f2 : Nat → R) (N t : Nat) (hmode : min a b ≤ 1) (hL : 1 ≤ max a b)
    (hinit : init a b = some s0) (hN : N ≤ max a b)
    (hf1 : ∀ i, i ≤ t → 0 < f1 i) (hf2 : ∀ i, i ≤ t → i < N → 0 < f2 i)
    (hf3 : ∀ i, i ≤ t → N ≤ i → f2 i ≤ 0) :
    (dconvStep (runTicks dconvStep s0 (ticksOf x h f1 f2 t)).1
        { inp := x t, irp := h t, frz1 := f1 t, frz2 := f2 t }).2 =
      convAt x h (min (t + 1) N) t := by
  have hrun := directInv_run (max a b) x h f1 f2 N hL hN s0
    (directInv_init a b s0 x h N hmode hinit) (t + 1)
    (fun i hi => hf1 i (by omega)) (fun i hi => hf2 i (by omega))
    (fun i hi => hf3 i (by omega))
  rw [ticksOf_succ, runTicks_snoc] at hrun
  rw [dconvStep_out]
  exact directInv_out (max a b) x h N t hL hN _ hrun

/-! ## Freezing and linearity of the direct convolver -/

/-- A pass of `dconv` with a non-positive impulse control leaves the impulse ring
alone; its cursor too when it is inside the ring. -/
theorem dconvStep_frozen_irsp {R : Type} [LinearOrderedCommRing R] (s : TVConv R)
    (k : Tick R) (hf : k.frz2 ≤ 0) (hitr : s.itr < s.irsp.length) :
    (dconvStep s k).1.irsp = s.irsp ∧ (dconvStep s k).1.itr = s.itr := by
  have hf' : ¬ 0 < k.frz2 := not_lt.2 hf
  constructor
  · show (if 0 < k.frz2 then s.irsp.set s.itr k.irp else s.irsp) = s.irsp
    rw [if_neg hf']
  · show (if (if 0 < k.frz2 then s.itr + 1 else s.itr) =
        (if 0 < k.frz2 then s.irsp.set s.itr k.irp else s.irsp).length then 0
        else (if 0 < k.frz2 then s.itr + 1 else s.itr)) = s.itr
    rw [if_neg hf', if_neg hf', if_neg (by omega)]

theorem dconvFold_linear {R : Type} [LinearOrderedCommRing R] (c : R)
    (insp1 insp2 insp3 irsp : List R) (L : Nat)
    (hrel : ∀ i, insp3.getD i 0 = insp1.getD i 0 + c * insp2.getD i 0) :
    ∀ (js : List Nat) (i0 : Nat) (u v : R),
      (js.foldl (fun (st : Nat × R) j =>
          let i := if st.1 = L then 0 else st.1
          let ir := irsp.length - 1 - j
          (i + 1, st.2 + insp3.getD i 0 * irsp.getD ir 0)) (i0, u + c * v)).2 =
      (js.foldl (fun (st : Nat × R) j =>
          let i := if st.1 = L then 0 else st.1
          let ir := irsp.length - 1 - j
          (i + 1, st.2 + insp1.getD i 0 * irsp.getD ir 0)) (i0, u)).2 +
      c * (js.foldl (fun (st : Nat × R) j =>
          let i := if st.1 = L then 0 else st.1
          let ir := irsp.length - 1 - j
          (i + 1, st.2 + insp2.getD i 0 * irsp.getD ir 0)) (i0, v)).2 := by
  intro js
  induction js with
  | nil => intro i0 u v; simp
  | cons j js ih =>
    intro i0 u v
    simp only [List.foldl_cons]
    rw [hrel]
    have e : u + c * v +
        (insp1.getD (if i0 = L then 0 else i0) 0 +
          c * insp2.getD (if i0 = L then 0 else i0) 0) *
          irsp.getD (irsp.length - 1 - j) 0 =
        (u + insp1.getD (if i0 = L then 0 else i0) 0 *
            irsp.getD (irsp.length - 1 - j) 0) +
          c * (v + insp2.getD (if i0 = L then 0 else i0) 0 *
            irsp.getD (irsp.length - 1 - j) 0) := by ring
    rw [e, ih]

theorem dconvInner_linear {R : Type} [LinearOrderedCommRing R] (c : R)
    (insp1 insp2 insp3 irsp : List R) (itn : Nat) (hl1 : insp1.length = insp3.length)
    (hl2 : insp2.length = insp3.length)
    (hrel : ∀ i, insp3.getD i 0 = insp1.getD i 0 + c * insp2.getD i 0) :
    dconvInner insp3 irsp itn = dconvInner insp1 irsp itn + c * dconvInner insp2 irsp itn := by
  have := dconvFold_linear c insp1 insp2 insp3 irsp insp3.length hrel
    (List.range irsp.length) itn 0 0
  unfold dconvInner
  rw [hl1, hl2]
  simpa using this

theorem linRel_step {R : Type} [LinearOrderedCommRing R] (c : R) (s1 s2 s3 : TVConv R)
    (u v w f1 f2 : R) (hrel : LinRel c s1 s2 s3) :
    LinRel c (dconvStep s1 { inp := u, irp := w, frz1 := f1, frz2 := f2 }).1
      (dconvStep s2 { inp := v, irp := w, frz1 := f1, frz2 := f2 }).1
      (dconvStep s3 { inp := u + c * v, irp := w, frz1 := f1, frz2 := f2 }).1 := by
  obtain ⟨hl1, hl2, hr1, hr2, hn1, hn2, ht1, ht2, hel⟩ := hrel
  simp only [dconvStep, hl1, hl2, hr1, hr2, hn1, hn2, ht1, ht2]
  refine ⟨?_, ?_, rfl, rfl, ?_, ?_, rfl, rfl, ?_⟩
  · split_ifs <;> simp [hl1]
  · split_ifs <;> simp [hl2]
  · split_ifs <;> simp_all
  · split_ifs <;> simp_all
  · intro i
    by_cases hf : 0 < f1
    · simp only [hf, if_true, getD_set, hl1, hl2, hel]
      split_ifs <;> ring
    · simp only [hf, if_false, hel]

theorem linRel_run {R : Type} [LinearOrderedCommRing R] (c : R) (s0 : TVConv R)
    (A B H f1 f2 : Nat → R) (h0 : LinRel c s0 s0 s0) (t : Nat) :
    LinRel c (runTicks dconvStep s0 (ticksOf A H f1 f2 t)).1
      (runTicks dconvStep s0 (ticksOf B H f1 f2 t)).1
      (runTicks dconvStep s0 (ticksOf (fun i => A i + c * B i) H f1 f2 t)).1 := by
  induction t with
  | zero => simpa [ticksOf, runTicks] using h0
  | succ t ih =>
    simp only [ticksOf_succ, runTicks_snoc]
    exact linRel_step c _ _ _ _ _ _ _ _ ih

theorem linRel_init {R : Type} [LinearOrderedCommRing R] (c : R) (a b : Nat) (s0 : TVConv R)
    (hmode : min a b ≤ 1) (hinit : init a b = some s0) : LinRel c s0 s0 s0 := by
  rw [init_sorted, init_direct _ _ (min_le_max) hmode] at hinit
  cases hinit
  refine ⟨rfl, rfl, rfl, rfl, rfl, rfl, rfl, rfl, ?_⟩
  intro i
  show (allocate (max a b) : List R).getD i 0 = (allocate (max a b) : List R).getD i 0 +
    c * (allocate (max a b) : List R).getD i 0
  rw [getD_allocate]; ring

theorem zipWith_map_range {α β : Type} (f : β → β → β) (g h : α → β) (l : List α) :
    List.zipWith f (l.map g) (l.map h) = l.map fun t => f (g t) (h t) := by
  induction l with
  | nil => rfl
  | cons x xs ih => simp [ih]

/-! ## The partition size is fixed after setup -/

theorem dconvStep_pars {R : Type} [LinearOrderedCommRing R] (s : TVConv R) (k : Tick R) :
    (dconvStep s k).1.pars = s.pars := rfl

theorem pconvStep_pars {R : Type} [LinearOrderedCommRing R] (T : Transforms R)
    (s : TVConv R) (k : Tick R) : (pconvStep T s k).1.pars = s.pars := by
  simp only [pconvStep]
  split_ifs <;> rfl

theorem runTicks_pars {R : Type} (step : TVConv R → Tick R → TVConv R × R)
    (hstep : ∀ s k, (step s k).1.pars = s.pars) :
    ∀ (l : List (Tick R)) (s : TVConv R), (runTicks step s l).1.pars = s.pars := by
  intro l
  induction l with
  | nil => intro s; rfl
  | cons k ks ih => intro s; simp only [runTicks]; rw [ih, hstep]

theorem aperf_pars {R : Type} [LinearOrderedCommRing R] (T : Transforms R)
    (s : TVConv R) (b : Block R) : (aperf T s b).1.pars = s.pars := by
  unfold aperf
  split_ifs
  · exact runTicks_pars _ (pconvStep_pars T) _ _
  · exact runTicks_pars _ dconvStep_pars _ _

theorem aperfs_pars {R : Type} [LinearOrderedCommRing R] (T : Transforms R) :
    ∀ (bs : List (Block R)) (s : TVConv R), (aperfs T s bs).pars = s.pars := by
  intro bs
  induction bs with
  | nil => intro s; rfl
  | cons b bs ih => intro s; simp only [aperfs]; rw [ih, aperf_pars]

theorem rpow2_none (n : Nat) (hn : 2 ^ 31 ≤ n) : rpow2 n = none := by
  unfold rpow2
  rw [rpow2Loop_diverges n hn]
  rfl

/-- The partition size `init` leaves behind is above 1 exactly when the smaller
setup value is. -/
theorem init_pars_gt_one {R : Type} [Zero R] (a b : Nat) (s : TVConv R)
    (hinit : init a b = some s) : 1 < s.pars ↔ 1 < min a b := by
  rw [init_sorted] at hinit
  by_cases hm : min a b ≤ 1
  · rw [init_direct _ _ min_le_max hm] at hinit
    cases hinit
    show 1 < min a b ↔ 1 < min a b
    exact Iff.rfl
  · have hm' : 1 < min a b := by omega
    have hlt : min a b < 2 ^ 31 := by
      by_contra hc
      have hnone := rpow2_none (min a b) (by omega)
      have h3 : ¬ min a b > max a b := not_lt.2 min_le_max
      simp [init, h3, hm', hnone] at hinit
    obtain ⟨j, hj1, -, hj, -, -⟩ := rpow2_bracket (min a b) (by omega) hlt
    have h3 : ¬ min a b > max a b := not_lt.2 min_le_max
    simp only [init, h3, if_false, hm', if_true, hj, Option.some_bind] at hinit
    cases hr : rpow2 (max a b) with
    | none => rw [hr] at hinit; simp at hinit
    | some rf =>
      rw [hr] at hinit
      simp only [Option.map_some', Option.some.injEq] at hinit
      subst hinit
      have : (2 : Nat) ^ 1 ≤ 2 ^ j := Nat.pow_le_pow_right (by norm_num) hj1
      constructor
      · intro _; exact hm'
      · intro _; show 1 < 2 ^ j; omega

/-! ## Stores into the rings of the partitioned convolver -/

theorem foldl_set_length {R : Type} (g : Nat → Nat) (v : Nat → R) :
    ∀ (js : List Nat) (buf : List R),
      (js.foldl (fun b j => b.set (g j) (v j)) buf).length = buf.length := by
  intro js
  induction js with
  | nil => intro buf; rfl
  | cons j js ih => intro buf; simp only [List.foldl_cons]; rw [ih, List.length_set]

theorem foldl_set_getD {R : Type} (g : Nat → Nat) (v : Nat → R) (i : Nat) (d : R) :
    ∀ (js : List Nat) (buf : List R), (∀ j, j ∈ js → g j ≠ i) →
      (js.foldl (fun b j => b.set (g j) (v j)) buf).getD i d = buf.getD i d := by
  intro js
  induction js with
  | nil => intro buf _; rfl
  | cons j js ih =>
    intro buf h
    simp only [List.foldl_cons]
    rw [ih _ (fun j' hj' => h j' (List.mem_cons_of_mem _ hj')), getD_set,
      if_neg (fun hc => h j (List.mem_cons_self _ _) hc.1)]

theorem length_fill {R : Type} (buf : List R) (lo hi : Nat) (v : R) :
    (fill buf lo hi v).length = buf.length :=
  foldl_set_length (fun j => lo + j) (fun _ => v) _ _

theorem getD_fill_outside {R : Type} (buf : List R) (lo hi i : Nat) (v d : R)
    (h : i < lo ∨ hi ≤ i) : (fill buf lo hi v).getD i d = buf.getD i d := by
  apply foldl_set_getD (fun j => lo + j) (fun _ => v)
  intro j hj
  have := List.mem_range.1 hj
  omega

theorem length_rfftAt {R : Type} [Zero R] (f : List R → List R) (buf : List R)
    (off len : Nat) : (rfftAt f buf off len).length = buf.length :=
  foldl_set_length (fun j => off + j)
    (fun j => (f ((buf.drop off).take len)).getD j 0) _ _

theorem getD_rfftAt_outside {R : Type} [Zero R] (f : List R → List R) (buf : List R)
    (off len i : Nat) (d : R) (h : i < off ∨ off + len ≤ i) :
    (rfftAt f buf off len).getD i d = buf.getD i d := by
  apply foldl_set_getD (fun j => off + j)
    (fun j => (f ((buf.drop off).take len)).getD j 0)
  intro j hj
  have := List.mem_range.1 hj
  omega

/-- The state a pass of `pconv` is in after its two stores, its output sample and
the update of the carry, with the counter already incremented. -/
theorem pconvStep_eq {R : Type} [LinearOrderedCommRing R] (T : Transforms R)
    (s : TVConv R) (k : Tick R) :
    pconvStep T s k =
      if (s.n + 1) % U32 = s.pars then
        (blockUpdate T { pconvWrite s k with
            saved := s.saved.set s.n (s.out.getD ((s.n + s.pars) % U32) 0)
            n := (s.n + 1) % U32 },
          s.out.getD s.n 0 + s.saved.getD s.n 0)
      else
        ({ pconvWrite s k with
            saved := s.saved.set s.n (s.out.getD ((s.n + s.pars) % U32) 0)
            n := (s.n + 1) % U32 },
          s.out.getD s.n 0 + s.saved.getD s.n 0) := rfl

/-- A pass of `pconv` that does not reach the end of the partition changes the
rings only through the two stores. -/
theorem pconvStep_rings_inside {R : Type} [LinearOrderedCommRing R] (T : Transforms R)
    (s : TVConv R) (k : Tick R) (hn : (s.n + 1) % U32 ≠ s.pars) :
    (pconvStep T s k).1.insp = (pconvWrite s k).insp ∧
    (pconvStep T s k).1.irsp = (pconvWrite s k).irsp ∧
    (pconvStep T s k).1.itn = s.itn ∧ (pconvStep T s k).1.itr = s.itr := by
  rw [pconvStep_eq, if_neg hn]
  exact ⟨rfl, rfl, rfl, rfl⟩

/-- A pass of `pconv` that reaches the end of the partition: the rings are the
stored-into rings with the tail of the current window zeroed and the window
transformed, and both cursors move on by `ffts`. -/
theorem pconvStep_rings_update {R : Type} [LinearOrderedCommRing R] (T : Transforms R)
    (s : TVConv R) (k : Tick R) (hn : (s.n + 1) % U32 = s.pars) :
    (pconvStep T s k).1.insp =
      rfftAt T.fwd (fill (pconvWrite s k).insp (s.itn + s.pars) (s.itn + s.ffts) 0)
        s.itn s.ffts ∧
    (pconvStep T s k).1.irsp =
      rfftAt T.fwd (fill (pconvWrite s k).irsp (s.itr + s.pars) (s.itr + s.ffts) 0)
        s.itr s.ffts ∧
    (pconvStep T s k).1.itn =
      (if s.itn + s.ffts = (pconvWrite s k).insp.length then 0 else s.itn + s.ffts) ∧
    (pconvStep T s k).1.itr =
      (if s.itr + s.ffts = (pconvWrite s k).irsp.length then 0 else s.itr + s.ffts) := by
  rw [pconvStep_eq, if_pos hn]
  refine ⟨rfl, rfl, ?_, ?_⟩
  · show (if s.itn + s.ffts = (rfftAt T.fwd
        (fill (pconvWrite s k).insp (s.itn + s.pars) (s.itn + s.ffts) 0)
        s.itn s.ffts).length then 0 else s.itn + s.ffts) = _
    rw [length_rfftAt, length_fill]
  · show (if s.itr + s.ffts = (rfftAt T.fwd
        (fill (pconvWrite s k).irsp (s.itr + s.pars) (s.itr + s.ffts) 0)
        s.itr s.ffts).length then 0 else s.itr + s.ffts) = _
    rw [length_rfftAt, length_fill]

theorem pconvWrite_length {R : Type} [LinearOrderedCommRing R] (s : TVConv R) (k : Tick R) :
    (pconvWrite s k).insp.length = s.insp.length ∧
    (pconvWrite s k).irsp.length = s.irsp.length := by
  simp only [pconvWrite]
  constructor <;> split_ifs <;> simp

/-! ## Sizes, cursors and the sample counter of the partitioned convolver -/

theorem pconvStep_preUpdate {R : Type} [LinearOrderedCommRing R] (T : Transforms R)
    (s : TVConv R) (k : Tick R) :
    pconvStep T s k =
      if (s.n + 1) % U32 = s.pars then
        (blockUpdate T (preUpdate s k), s.out.getD s.n 0 + s.saved.getD s.n 0)
      else (preUpdate s k, s.out.getD s.n 0 + s.saved.getD s.n 0) := rfl

theorem pconvStep_n {R : Type} [LinearOrderedCommRing R] (T : Transforms R)
    (s : TVConv R) (k : Tick R) :
    (pconvStep T s k).1.n = if (s.n + 1) % U32 = s.pars then 0 else (s.n + 1) % U32 := by
  rw [pconvStep_preUpdate]
  split_ifs <;> rfl

theorem pconvStep_out_sample {R : Type} [LinearOrderedCommRing R] (T : Transforms R)
    (s : TVConv R) (k : Tick R) :
    (pconvStep T s k).2 = s.out.getD s.n 0 + s.saved.getD s.n 0 := by
  rw [pconvStep_preUpdate]
  split_ifs <;> rfl

theorem length_cadd {R : Type} [LinearOrderedCommRing R] (out : List R) (i : Nat)
    (z : R × R) : (cadd out i z).length = out.length := by
  simp [cadd]

theorem length_specProd {R : Type} [LinearOrderedCommRing R] (pars : Nat)
    (insp irsp : List R) (i ir : Nat) (out : List R) :
    (specProd pars insp irsp i ir out).length = out.length := by
  have key : ∀ (js : List Nat) (o : List R),
      (js.foldl (fun o j =>
        cadd o (j + 1) (cmul (cget insp i (j + 1)) (cget irsp ir (j + 1)))) o).length =
        o.length := by
    intro js
    induction js with
    | nil => intro o; rfl
    | cons j js ih => intro o; simp only [List.foldl_cons]; rw [ih, length_cadd]
  unfold specProd
  simp only []
  rw [length_cadd, key]

theorem length_delayLine {R : Type} [LinearOrderedCommRing R] (pars ffts : Nat)
    (insp irsp : List R) (itn : Nat) (out : List R) :
    (delayLine pars ffts insp irsp itn out).length = out.length := by
  have key : ∀ (js : List Nat) (st : Nat × List R),
      (js.foldl (fun (st : Nat × List R) j =>
        let i := if st.1 = insp.length then 0 else st.1
        let ir := irsp.length - ffts - j * ffts
        (i + ffts, specProd pars insp irsp i ir st.2)) st).2.length = st.2.length := by
    intro js
    induction js with
    | nil => intro st; rfl
    | cons j js ih => intro st; simp only [List.foldl_cons]; rw [ih, length_specProd]
  unfold delayLine
  rw [key]

theorem pinv_init {R : Type} [Zero R] (a b : Nat) (s : TVConv R) (hmin : 1 < min a b)
    (hmax : max a b < 3 * 2 ^ 29) (hinit : init a b = some s) : PInv s := by
  have hle : min a b ≤ max a b := min_le_max
  obtain ⟨i, hi1, hi30, hri, hmi⟩ := rpow2_small (min a b) (by omega) (by omega)
  obtain ⟨j, hj1, hj30, hrj, hmj⟩ := rpow2_small (max a b) (by omega) hmax
  have hmono : 2 ^ i ≤ 2 ^ j :=
    rpow2_mono (min a b) (max a b) _ _ (by omega) hle (by omega) hri hrj
  have hij : i ≤ j := (Nat.pow_le_pow_iff_right (by norm_num)).1 hmono
  have hposj : 0 < 2 ^ j := Nat.pos_pow_of_pos j (by norm_num)
  have h2i : (2 : Nat) ^ 1 ≤ 2 ^ i := Nat.pow_le_pow_right (by norm_num) hi1
  have h30 : (2 : Nat) ^ i ≤ 2 ^ 30 := Nat.pow_le_pow_right (by norm_num) hi30
  have hpi : (2 : Nat) ^ (i + 1) = 2 * 2 ^ i := by rw [pow_succ]; ring
  have hpj : (2 : Nat) ^ (j + 1) = 2 * 2 ^ j := by rw [pow_succ]; ring
  have hdvd : 2 * 2 ^ i ∣ 2 * 2 ^ j := by
    rw [← hpi, ← hpj]
    exact pow_dvd_pow 2 (by omega)
  rw [init_sorted, init_partitioned _ _ _ _ hle hmin hri hrj] at hinit
  cases hinit
  rw [hmi, hmj]
  refine ⟨?_, h30, rfl, hdvd, ?_, length_allocate _, length_allocate _,
    length_allocate _, length_allocate _, ?_, rfl, dvd_zero _, ?_⟩
  · show 2 ≤ 2 ^ i
    omega
  · show 0 < 2 * 2 ^ j
    omega
  · show 0 < 2 ^ i
    omega
  · show 0 < 2 * 2 ^ j
    omega

theorem pinv_step {R : Type} [LinearOrderedCommRing R] (T : Transforms R)
    (s : TVConv R) (k : Tick R) (h : PInv s) : PInv (pconvStep T s k).1 := by
  obtain ⟨hp2, hp30, hff, hdv, hfl, hl1, hl2, hl3, hl4, hn, hrn, hdi, hlt⟩ := h
  obtain ⟨hw1, hw2⟩ := pconvWrite_length s k
  have hU : (s.n + 1) % U32 = s.n + 1 := by
    apply Nat.mod_eq_of_lt
    unfold U32
    omega
  rw [pconvStep_preUpdate]
  by_cases hc : (s.n + 1) % U32 = s.pars
  · rw [if_pos hc]
    have hle : s.itn + s.ffts ≤ s.fils := by
      obtain ⟨q, hq⟩ := hdv
      obtain ⟨r, hr⟩ := hdi
      rw [hq, hr] at hlt
      have hrq : r < q := lt_of_mul_lt_mul_left hlt (Nat.zero_le _)
      rw [hq, hr]
      calc s.ffts * r + s.ffts = s.ffts * (r + 1) := by ring
        _ ≤ s.ffts * q := Nat.mul_le_mul_left _ hrq
    have hitn : (blockUpdate T (preUpdate s k)).itn =
        if s.itn + s.ffts = s.fils then 0 else s.itn + s.ffts := by
      show (if s.itn + s.ffts = (rfftAt T.fwd
        (fill (pconvWrite s k).insp (s.itn + s.pars) (s.itn + s.ffts) 0)
        s.itn s.ffts).length then 0 else s.itn + s.ffts) = _
      rw [length_rfftAt, length_fill, hw1, hl1]
    have hitr : (blockUpdate T (preUpdate s k)).itr =
        if s.itr + s.ffts = s.fils then 0 else s.itr + s.ffts := by
      show (if s.itr + s.ffts = (rfftAt T.fwd
        (fill (pconvWrite s k).irsp (s.itr + s.pars) (s.itr + s.ffts) 0)
        s.itr s.ffts).length then 0 else s.itr + s.ffts) = _
      rw [length_rfftAt, length_fill, hw2, hl2]
    refine ⟨hp2, hp30, hff, hdv, hfl, ?_, ?_, ?_, ?_, ?_, ?_, ?_, ?_⟩
    · show (rfftAt T.fwd (fill (pconvWrite s k).insp _ _ 0) _ _).length = s.fils
      rw [length_rfftAt, length_fill, hw1, hl1]
    · show (rfftAt T.fwd (fill (pconvWrite s k).irsp _ _ 0) _ _).length = s.fils
      rw [length_rfftAt, length_fill, hw2, hl2]
    · show (rfftAt T.inv (delayLine _ _ _ _ _ (fill s.out 0 s.out.length 0)) 0 _).length
        = s.ffts
      rw [length_rfftAt, length_delayLine, length_fill, hl3]
    · show (s.saved.set s.n _).length = s.pars
      rw [List.length_set, hl4]
    · show 0 < s.pars
      omega
    · rw [hitn, hitr, hrn]
    · rw [hitn]
      split_ifs
      · exact dvd_zero _
      · exact Dvd.dvd.add hdi (dvd_refl _)
    · rw [hitn]
      show (if s.itn + s.ffts = s.fils then 0 else s.itn + s.ffts) < s.fils
      split_ifs with he
      · exact hfl
      · omega
  · rw [if_neg hc]
    refine ⟨hp2, hp30, hff, hdv, hfl, hw1.trans hl1, hw2.trans hl2, hl3, ?_, ?_, hrn,
      hdi, hlt⟩
    · show (s.saved.set s.n _).length = s.pars
      rw [List.length_set, hl4]
    · show (s.n + 1) % U32 < s.pars
      rw [hU] at hc ⊢
      omega

theorem pinv_of_reach {R : Type} [LinearOrderedCommRing R] (T : Transforms R)
    (s : TVConv R) (h : PReach T s) : PInv s := by
  induction h with
  | init a b s hmin hmax hinit => exact pinv_init a b s hmin hmax hinit
  | step s k _ ih => exact pinv_step T s k ih

theorem init_counter {R : Type} [Zero R] (a b : Nat) (s : TVConv R) (hmin : 1 < min a b)
    (hinit : init a b = some s) : s.n = 0 ∧ 2 ≤ s.pars ∧ s.pars ≤ 2 ^ 31 := by
  rw [init_sorted] at hinit
  have hlt : min a b < 2 ^ 31 := by
    by_contra hc
    have hnone := rpow2_none (min a b) (by omega)
    have h3 : ¬ min a b > max a b := not_lt.2 min_le_max
    simp [init, h3, hmin, hnone] at hinit
  obtain ⟨j, hj1, hj31, hj, -, -⟩ := rpow2_bracket (min a b) (by omega) hlt
  have h3 : ¬ min a b > max a b := not_lt.2 min_le_max
  have h4 : min a b > 1 := hmin
  simp only [init, h3, if_false, h4, if_true, hj, Option.some_bind] at hinit
  cases hr : rpow2 (max a b) with
  | none => rw [hr] at hinit; simp at hinit
  | some rf =>
    rw [hr] at hinit
    simp only [Option.map_some', Option.some.injEq] at hinit
    subst hinit
    have h1 : (2 : Nat) ^ 1 ≤ 2 ^ j := Nat.pow_le_pow_right (by norm_num) hj1
    have h2 : (2 : Nat) ^ j ≤ 2 ^ 31 := Nat.pow_le_pow_right (by norm_num) hj31
    refine ⟨rfl, ?_, ?_⟩
    · show 2 ≤ 2 ^ j
      omega
    · show 2 ^ j ≤ 2 ^ 31
      exact h2

/-- The sample counter along a run of the sample loop of `pconv`: it counts the
passes modulo `pars`. -/
theorem counter_run {R : Type} [LinearOrderedCommRing R] (T : Transforms R) :
    ∀ (ks : List (Tick R)) (s : TVConv R), 2 ≤ s.pars → s.pars ≤ 2 ^ 31 → s.n < s.pars →
      (runTicks (pconvStep T) s ks).1.n = (s.n + ks.length) % s.pars ∧
      (runTicks (pconvStep T) s ks).1.pars = s.pars := by
  intro ks
  induction ks with
  | nil =>
    intro s _ _ hn
    exact ⟨(Nat.mod_eq_of_lt hn).symm, rfl⟩
  | cons k ks ih =>
    intro s hp hU hn
    have hU' : (s.n + 1) % U32 = s.n + 1 := by
      apply Nat.mod_eq_of_lt
      unfold U32
      omega
    have hn1 : (pconvStep T s k).1.n = (s.n + 1) % s.pars := by
      rw [pconvStep_n, hU']
      split_ifs with hc
      · rw [hc, Nat.mod_self]
      · rw [Nat.mod_eq_of_lt (by omega)]
    have hp1 : (pconvStep T s k).1.pars = s.pars := pconvStep_pars T s k
    have hlt : (pconvStep T s k).1.n < (pconvStep T s k).1.pars := by
      rw [hn1, hp1]
      exact Nat.mod_lt _ (by omega)
    obtain ⟨e1, e2⟩ := ih (pconvStep T s k).1 (by rw [hp1]; exact hp) (by rw [hp1]; exact hU)
      hlt
    simp only [runTicks, List.length_cons]
    rw [e1, e2, hn1, hp1]
    refine ⟨?_, rfl⟩
    rw [Nat.mod_add_mod]
    congr 1
    omega

theorem dvd_succ_iff (t p : Nat) (hp : 2 ≤ p) : p ∣ t + 1 ↔ t % p + 1 = p := by
  rw [Nat.dvd_iff_mod_eq_zero, succ_mod t p (by omega)]
  split_ifs with h
  · exact ⟨fun _ => h, fun _ => rfl⟩
  · exact ⟨fun h0 => h0.elim, fun h1 => absurd h1 h⟩

/-! ## The first partition of the partitioned convolver -/

/-- While the accumulator and the carry hold zeros and the partition is not
complete, every pass of `pconv` puts out `0`. -/
theorem silent_run {R : Type} [LinearOrderedCommRing R] (T : Transforms R) :
    ∀ (ks : List (Tick R)) (s : TVConv R), (∀ i, s.out.getD i 0 = 0) →
      (∀ i, s.saved.getD i 0 = 0) → s.n + ks.length ≤ s.pars → s.pars ≤ 2 ^ 31 →
      (runTicks (pconvStep T) s ks).2 = List.replicate ks.length 0 := by
  intro ks
  induction ks with
  | nil => intro s _ _ _ _; rfl
  | cons k ks ih =>
    intro s ho hs hn hU
    simp only [runTicks, List.length_cons, List.replicate_succ]
    rw [pconvStep_out_sample, ho, hs, add_zero]
    congr 1
    by_cases hks : ks = []
    · subst hks
      rfl
    · have hpos : 0 < ks.length := List.length_pos.2 hks
      simp only [List.length_cons] at hn
      have hU' : (s.n + 1) % U32 = s.n + 1 := by
        apply Nat.mod_eq_of_lt
        unfold U32
        omega
      have hne : (s.n + 1) % U32 ≠ s.pars := by
        rw [hU']
        omega
      have hstep : (pconvStep T s k).1 = preUpdate s k := by
        rw [pconvStep_preUpdate, if_neg hne]
      rw [hstep]
      apply ih
      · exact ho
      · intro i
        show (s.saved.set s.n (s.out.getD ((s.n + s.pars) % U32) 0)).getD i 0 = 0
        rw [getD_set, ho, hs]
        split_ifs <;> rfl
      · show (s.n + 1) % U32 + ks.length ≤ s.pars
        rw [hU']
        omega
      · exact hU

/-! ## The walk of the spectral delay line -/

theorem blockUpdate_out {R : Type} [LinearOrderedCommRing R] (T : Transforms R)
    (s : TVConv R) : (blockUpdate T s).out = rfftAt T.inv (blockAccum T s) 0 s.ffts := rfl

/-- The delay line is the fold of the spectral product over the recorded walk. -/
theorem delayLine_eq_walk {R : Type} [LinearOrderedCommRing R] (pars ffts : Nat)
    (insp irsp : List R) (itn : Nat) (out : List R) :
    delayLine pars ffts insp irsp itn out =
      (delayWalk ffts insp.length irsp.length itn).foldl
        (fun o p => specProd pars insp irsp p.1 p.2 o) out := by
  have key : ∀ (js : List Nat) (c : Nat) (w : List (Nat × Nat)),
      (js.foldl (fun (st : Nat × List R) j =>
          let i := if st.1 = insp.length then 0 else st.1
          let ir := irsp.length - ffts - j * ffts
          (i + ffts, specProd pars insp irsp i ir st.2))
        (c, w.foldl (fun o p => specProd pars insp irsp p.1 p.2 o) out)).2 =
      (js.foldl (fun (st : Nat × List (Nat × Nat)) j =>
          let i := if st.1 = insp.length then 0 else st.1
          let ir := irsp.length - ffts - j * ffts
          (i + ffts, st.2 ++ [(i, ir)])) (c, w)).2.foldl
        (fun o p => specProd pars insp irsp p.1 p.2 o) out := by
    intro js
    induction js with
    | nil => intro c w; rfl
    | cons j js ih =>
      intro c w
      simp only [List.foldl_cons]
      rw [← ih]
      simp only [List.foldl_append, List.foldl_cons, List.foldl_nil]
  unfold delayLine delayWalk
  exact key _ itn []

theorem walkCursor_wrap (P ffts c m : Nat) (hf : 0 < ffts) (hc : c < P) :
    (if walkCursor P ffts c m = P * ffts then 0 else walkCursor P ffts c m) =
      ((c + m) % P) * ffts := by
  cases m with
  | zero =>
    simp only [walkCursor, Nat.add_zero]
    have hlt : c * ffts < P * ffts := Nat.mul_lt_mul_of_pos_right hc hf
    rw [if_neg (by omega), Nat.mod_eq_of_lt hc]
  | succ m =>
    simp only [walkCursor]
    rw [show c + (m + 1) = (c + m) + 1 by ring, succ_mod _ _ (by omega)]
    have hlt : (c + m) % P < P := Nat.mod_lt _ (by omega)
    have he : (c + m) % P * ffts + ffts = ((c + m) % P + 1) * ffts := by ring
    by_cases h : (c + m) % P + 1 = P
    · rw [if_pos h, he, h, if_pos rfl, Nat.zero_mul]
    · rw [if_neg h, he]
      have hlt2 : ((c + m) % P + 1) * ffts < P * ffts :=
        Nat.mul_lt_mul_of_pos_right (by omega) hf
      rw [if_neg (by omega)]

/-- The walk in closed form: in a ring of `P` blocks of `ffts` values, started
at block `c`, pass `j` visits input block `(c + j) mod P` and impulse block
`P - 1 - j`. -/
theorem delayWalk_eq (P ffts c : Nat) (hf : 0 < ffts) (hc : c < P) :
    delayWalk ffts (P * ffts) (P * ffts) (c * ffts) =
      (List.range P).map fun j => (((c + j) % P) * ffts, (P - 1 - j) * ffts) := by
  have key : ∀ m, (List.range m).foldl
      (fun (st : Nat × List (Nat × Nat)) j =>
        let i := if st.1 = P * ffts then 0 else st.1
        let ir := P * ffts - ffts - j * ffts
        (i + ffts, st.2 ++ [(i, ir)])) (c * ffts, []) =
      (walkCursor P ffts c m,
       (List.range m).map fun j => (((c + j) % P) * ffts, (P - 1 - j) * ffts)) := by
    intro m
    induction m with
    | zero => rfl
    | succ m ih =>
      rw [List.range_succ, List.foldl_append, ih]
      simp only [List.foldl_cons, List.foldl_nil, List.map_append, List.map_cons,
        List.map_nil]
      rw [walkCursor_wrap P ffts c m hf hc]
      have hir : P * ffts - ffts - m * ffts = (P - 1 - m) * ffts := by
        rw [Nat.sub_mul, Nat.sub_mul, Nat.one_mul]
      rw [hir]
      rfl
  unfold delayWalk
  rw [Nat.mul_div_cancel _ hf, key]

/-- The rings of a partitioned instance as `P` whole blocks of `ffts` values with
the cursor on block `c`; the block update moves the cursor to block
`(c + 1) mod P`. -/
theorem pinv_blocks {R : Type} (s : TVConv R) (h : PInv s) :
    ∃ P c, 0 < s.ffts ∧ 0 < P ∧ c < P ∧ s.fils = P * s.ffts ∧ s.itn = c * s.ffts ∧
      s.fils / s.ffts = P ∧ s.itn / s.ffts = c ∧
      (if s.itn + s.ffts = s.fils then 0 else s.itn + s.ffts) = ((c + 1) % P) * s.ffts := by
  obtain ⟨hp2, -, hff, ⟨q, hq⟩, hfl, -, -, -, -, -, -, ⟨r, hr⟩, hlt⟩ := h
  have hf : 0 < s.ffts := by omega
  have hq' : s.fils = q * s.ffts := by rw [hq, Nat.mul_comm]
  have hr' : s.itn = r * s.ffts := by rw [hr, Nat.mul_comm]
  have hrq : r < q := by
    rw [hq', hr'] at hlt
    exact lt_of_mul_lt_mul_right hlt (Nat.zero_le _)
  refine ⟨q, r, hf, by omega, hrq, hq', hr', ?_, ?_, ?_⟩
  · rw [hq', Nat.mul_div_cancel _ hf]
  · rw [hr', Nat.mul_div_cancel _ hf]
  · rw [hq', hr', succ_mod _ _ (by omega : 0 < q), Nat.mod_eq_of_lt hrq]
    have he : r * s.ffts + s.ffts = (r + 1) * s.ffts := by ring
    rw [he]
    by_cases hc : r + 1 = q
    · rw [if_pos hc, hc, if_pos rfl, Nat.zero_mul]
    · rw [if_neg hc]
      have hlt2 : (r + 1) * s.ffts < q * s.ffts :=
        Nat.mul_lt_mul_of_pos_right (by omega) hf
      rw [if_neg (by omega)]

theorem passInBounds_of_pinv {R : Type} (s : TVConv R) (h : PInv s) : PassInBounds s := by
  obtain ⟨P, c, hf, hP, hcP, hfils, hitn, hdiv, -, hnext⟩ := pinv_blocks s h
  obtain ⟨hp2, hp30, hff, -, hfl, hl1, hl2, hl3, hl4, hn, hrn, -, hlt⟩ := h
  have hU : (s.n + s.pars) % U32 = s.n + s.pars := by
    apply Nat.mod_eq_of_lt
    unfold U32
    omega
  have hle : s.itn + s.ffts ≤ s.fils := by
    rw [hfils, hitn]
    calc c * s.ffts + s.ffts = (c + 1) * s.ffts := by ring
      _ ≤ P * s.ffts := Nat.mul_le_mul_right _ hcP
  refine ⟨by omega, by omega, by omega, by omega, by omega, by omega, by omega, by omega,
    by omega, by omega, ?_, ?_, by omega⟩
  · intro j hj
    rw [hl2, hdiv] at hj
    rw [hl2, hfils]
    calc s.ffts + j * s.ffts = (j + 1) * s.ffts := by ring
      _ ≤ P * s.ffts := Nat.mul_le_mul_right _ hj
  · intro p hp
    rw [hl1, hl2, hnext, hfils, delayWalk_eq P s.ffts _ hf (Nat.mod_lt _ hP)] at hp
    obtain ⟨j, hj, rfl⟩ := List.mem_map.1 hp
    have hj' : j < P := List.mem_range.1 hj
    have hm : ((c + 1) % P + j) % P < P := Nat.mod_lt _ hP
    rw [hl1, hl2, hfils, ← hff]
    constructor
    · show ((c + 1) % P + j) % P * s.ffts + s.ffts ≤ P * s.ffts
      calc ((c + 1) % P + j) % P * s.ffts + s.ffts
          = (((c + 1) % P + j) % P + 1) * s.ffts := by ring
        _ ≤ P * s.ffts := Nat.mul_le_mul_right _ hm
    · show (P - 1 - j) * s.ffts + s.ffts ≤ P * s.ffts
      calc (P - 1 - j) * s.ffts + s.ffts = ((P - 1 - j) + 1) * s.ffts := by ring
        _ ≤ P * s.ffts := Nat.mul_le_mul_right _ (by omega)

/-! ## The bins of the accumulator -/

theorem foldl_set_const_getD {R : Type} (g : Nat → Nat) (c d : R) (i : Nat) :
    ∀ (js : List Nat) (buf : List R), i < buf.length → (∃ j, j ∈ js ∧ g j = i) →
      (js.foldl (fun b j => b.set (g j) c) buf).getD i d = c := by
  intro js
  induction js with
  | nil => intro buf _ ⟨j, hj, _⟩; cases hj
  | cons j js ih =>
    intro buf hi hex
    simp only [List.foldl_cons]
    by_cases hlater : ∃ j', j' ∈ js ∧ g j' = i
    · exact ih _ (by rw [List.length_set]; exact hi) hlater
    · have hnot : ∀ j', j' ∈ js → g j' ≠ i := fun j' hj' he => hlater ⟨j', hj', he⟩
      have hj : g j = i := by
        obtain ⟨j0, hj0, he⟩ := hex
        rcases List.mem_cons.1 hj0 with h | h
        · rw [← h]; exact he
        · exact absurd he (hnot j0 h)
      rw [foldl_set_getD g (fun _ => c) i d js _ hnot, getD_set, if_pos ⟨hj, by rw [hj]; exact hi⟩]

/-- The accumulator after `std::fill(out.begin(), out.end(), 0.)` reads `0`
everywhere. -/
theorem getD_fill_zero {R : Type} [Zero R] (buf : List R) (i : Nat) :
    (fill buf 0 buf.length 0).getD i 0 = 0 := by
  by_cases hi : i < buf.length
  · apply foldl_set_const_getD (fun j => 0 + j) 0 0 i _ _ hi
    exact ⟨i, List.mem_range.2 (by omega), Nat.zero_add i⟩
  · rw [List.getD_eq_default]
    rw [length_fill]
    omega

theorem cget_cadd {R : Type} [LinearOrderedCommRing R] (out : List R) (i b : Nat)
    (z : R × R) (h : 2 * i + 1 < out.length) :
    cget (cadd out i z) 0 b = if b = i then cget out 0 b + z else cget out 0 b := by
  unfold cget cadd
  simp only [Nat.zero_add, getD_set, List.length_set]
  by_cases hb : b = i
  · subst hb
    rw [if_pos rfl, if_neg (by omega), if_pos ⟨rfl, by omega⟩, if_pos ⟨rfl, h⟩]
    rfl
  · rw [if_neg hb, if_neg (by omega), if_neg (by omega), if_neg (by omega),
      if_neg (by omega)]

theorem cget_binFold {R : Type} [LinearOrderedCommRing R] (g : Nat → R × R) (b : Nat) :
    ∀ (m : Nat) (out : List R), 2 * m + 1 < out.length →
      (cget ((List.range m).foldl (fun o j => cadd o (j + 1) (g (j + 1))) out) 0 b =
        if 1 ≤ b ∧ b ≤ m then cget out 0 b + g b else cget out 0 b) ∧
      ((List.range m).foldl (fun o j => cadd o (j + 1) (g (j + 1))) out).length =
        out.length := by
  intro m
  induction m with
  | zero =>
    intro out _
    refine ⟨?_, rfl⟩
    rw [if_neg (by omega)]
    rfl
  | succ m ih =>
    intro out h
    obtain ⟨e1, e2⟩ := ih out (by omega)
    rw [List.range_succ, List.foldl_append]
    simp only [List.foldl_cons, List.foldl_nil]
    refine ⟨?_, by rw [length_cadd, e2]⟩
    rw [cget_cadd _ _ _ _ (by rw [e2]; omega), e1]
    by_cases hb : b = m + 1
    · subst hb
      rw [if_pos rfl, if_neg (by omega), if_pos (by omega)]
    · rw [if_neg hb]
      by_cases hb2 : 1 ≤ b ∧ b ≤ m
      · rw [if_pos hb2, if_pos (by omega)]
      · rw [if_neg hb2, if_neg (by omega)]

/-- One spectral product adds to every bin `b < pars` of the accumulator the
product of bin `b` of the two blocks. -/
theorem cget_specProd {R : Type} [LinearOrderedCommRing R] (pars : Nat)
    (insp irsp : List R) (i ir : Nat) (out : List R) (b : Nat) (hp : 1 ≤ pars)
    (hl : 2 * pars ≤ out.length) (hb : b < pars) :
    cget (specProd pars insp irsp i ir out) 0 b =
      cget out 0 b + binProd b (cget insp i b) (cget irsp ir b) := by
  obtain ⟨e1, e2⟩ := cget_binFold
    (fun j => cmul (cget insp i j) (cget irsp ir j)) b (pars - 1) out (by omega)
  unfold specProd
  simp only []
  rw [cget_cadd _ _ _ _ (by rw [e2]; omega), e1]
  unfold binProd
  by_cases hb0 : b = 0
  · subst hb0
    rw [if_pos rfl, if_neg (by omega), if_pos rfl]
  · rw [if_neg hb0, if_pos (by omega), if_neg hb0]

theorem cget_walkFold {R : Type} [LinearOrderedCommRing R] (pars : Nat)
    (insp irsp : List R) (b : Nat) (hp : 1 ≤ pars) (hb : b < pars) :
    ∀ (w : List (Nat × Nat)) (out : List R), 2 * pars ≤ out.length →
      cget (w.foldl (fun o p => specProd pars insp irsp p.1 p.2 o) out) 0 b =
        cget out 0 b +
          (w.map fun p => binProd b (cget insp p.1 b) (cget irsp p.2 b)).sum := by
  intro w
  induction w with
  | nil => intro out _; simp
  | cons p w ih =>
    intro out hl
    simp only [List.foldl_cons, List.map_cons, List.sum_cons]
    rw [ih _ (by rw [length_specProd]; exact hl), cget_specProd pars insp irsp p.1 p.2 out b
      hp hl hb, add_assoc]

theorem cget_fill_zero {R : Type} [LinearOrderedCommRing R] (buf : List R) (b : Nat) :
    cget (fill buf 0 buf.length 0) 0 b = 0 := by
  unfold cget
  rw [getD_fill_zero, getD_fill_zero]
  rfl

theorem mod_lt_two_mul (x P : Nat) (h : x < 2 * P) :
    x % P = if x < P then x else x - P := by
  split_ifs with hc
  · exact Nat.mod_eq_of_lt hc
  · rw [Nat.mod_eq_sub_mod (by omega), Nat.mod_eq_of_lt (by omega)]

/-- After `a` block updates since the cursor stood on block `m`, the block just
transformed is `(m + a) mod P` and the age of `m` is `a`. -/
theorem blockAge_after (P m a : Nat) (hm : m < P) (ha : a < P) :
    blockAge P ((m + a) % P) m = a := by
  unfold blockAge
  rw [mod_lt_two_mul (m + a) P (by omega)]
  split_ifs with hc
  · rw [show m + a + P - m = a + P by omega, Nat.add_mod_right, Nat.mod_eq_of_lt ha]
  · rw [show m + a - P + P - m = a by omega, Nat.mod_eq_of_lt ha]

/-- The input block the walk visits on pass `j` has age `P - 1 - j`. -/
theorem blockAge_input (P c0 j : Nat) (hc : c0 < P) (hj : j < P) :
    blockAge P c0 (((c0 + 1) % P + j) % P) = P - 1 - j := by
  unfold blockAge
  rw [Nat.mod_add_mod, mod_lt_two_mul (c0 + 1 + j) P (by omega)]
  split_ifs with h
  · rw [show c0 + P - (c0 + 1 + j) = P - 1 - j by omega, Nat.mod_eq_of_lt (by omega)]
  · rw [show c0 + P - (c0 + 1 + j - P) = (P - 1 - j) + P by omega, Nat.add_mod_right,
      Nat.mod_eq_of_lt (by omega)]

/-- The impulse block the walk visits on pass `j`, block `P - 1 - j`, has the
age `(c + j) mod P`, where `c` is the block the input walk starts from. -/
theorem blockAge_impulse (P c0 j : Nat) (hj : j < P) :
    blockAge P c0 (P - 1 - j) = ((c0 + 1) % P + j) % P := by
  unfold blockAge
  rw [Nat.mod_add_mod, show c0 + P - (P - 1 - j) = c0 + 1 + j by omega]

/-- The state after a block update: sizes of the rings and position of the
cursor, in blocks. -/
theorem blockUpdate_shape {R : Type} [LinearOrderedCommRing R] (T : Transforms R)
    (s : TVConv R) (k : Tick R) (h : PInv s) :
    (blockUpdate T (preUpdate s k)).insp.length = s.fils ∧
    (blockUpdate T (preUpdate s k)).irsp.length = s.fils ∧
    (blockUpdate T (preUpdate s k)).itn =
      ((s.itn / s.ffts + 1) % (s.fils / s.ffts)) * s.ffts ∧
    (blockUpdate T (preUpdate s k)).itn / s.ffts =
      (s.itn / s.ffts + 1) % (s.fils / s.ffts) := by
  obtain ⟨P, c, hf, hP, hcP, hfils, hitn, hdiv, hdivc, hnext⟩ := pinv_blocks s h
  obtain ⟨-, -, -, -, -, hl1, hl2, -, -, -, -, -, -⟩ := h
  obtain ⟨hw1, hw2⟩ := pconvWrite_length s k
  have e1 : (blockUpdate T (preUpdate s k)).insp.length = s.fils := by
    show (rfftAt T.fwd (fill (pconvWrite s k).insp _ _ 0) _ _).length = s.fils
    rw [length_rfftAt, length_fill, hw1, hl1]
  have e2 : (blockUpdate T (preUpdate s k)).irsp.length = s.fils := by
    show (rfftAt T.fwd (fill (pconvWrite s k).irsp _ _ 0) _ _).length = s.fils
    rw [length_rfftAt, length_fill, hw2, hl2]
  have e3 : (blockUpdate T (preUpdate s k)).itn =
      ((s.itn / s.ffts + 1) % (s.fils / s.ffts)) * s.ffts := by
    show (if s.itn + s.ffts = (rfftAt T.fwd
        (fill (pconvWrite s k).insp (s.itn + s.pars) (s.itn + s.ffts) 0)
        s.itn s.ffts).length then 0 else s.itn + s.ffts) = _
    rw [length_rfftAt, length_fill, hw1, hl1, hnext, hdiv, hdivc]
  refine ⟨e1, e2, e3, ?_⟩
  rw [e3, Nat.mul_div_cancel _ hf]

/-- The accumulator before the inverse transform, bin by bin: the sum over the
`P` passes of the walk of the products of the paired blocks. -/
theorem blockAccum_bins {R : Type} [LinearOrderedCommRing R] (T : Transforms R)
    (s : TVConv R) (k : Tick R) (h : PInv s) (b : Nat) (hb : b < s.pars) :
    cget (blockAccum T (preUpdate s k)) 0 b =
      ((List.range (s.fils / s.ffts)).map fun j =>
        binProd b
          (cget (blockUpdate T (preUpdate s k)).insp
            ((((blockUpdate T (preUpdate s k)).itn / s.ffts + j) % (s.fils / s.ffts))
              * s.ffts) b)
          (cget (blockUpdate T (preUpdate s k)).irsp
            ((s.fils / s.ffts - 1 - j) * s.ffts) b)).sum := by
  obtain ⟨P, c, hf, hP, hcP, hfils, hitn, hdiv, hdivc, hnext⟩ := pinv_blocks s h
  obtain ⟨e1, e2, e3, e4⟩ := blockUpdate_shape T s k h
  obtain ⟨hp2, -, hff, -, -, -, -, hl3, -, -, -, -, -⟩ := h
  have hacc : blockAccum T (preUpdate s k) =
      delayLine s.pars s.ffts (blockUpdate T (preUpdate s k)).insp
        (blockUpdate T (preUpdate s k)).irsp (blockUpdate T (preUpdate s k)).itn
        (fill s.out 0 s.out.length 0) := rfl
  rw [hacc, delayLine_eq_walk, e1, e2, e4, e3, hdiv, hdivc, hfils,
    delayWalk_eq P s.ffts _ hf (Nat.mod_lt _ hP),
    cget_walkFold s.pars _ _ b (by omega) hb _ _ (by rw [length_fill]; omega),
    cget_fill_zero, zero_add, List.map_map]
  rfl

/-! ## Order statistics of a list -/

/-- The sorted list around its element of index `i`: `i` elements that are not
above it before, the others, not below it, after. -/
theorem sorted_split {α : Type} [LinearOrder α] (l : List α) (i : Nat)
    (hi : i < l.length) :
    ∃ x l1 l2, (l.insertionSort (· ≤ ·))[i]? = some x ∧ (l1 ++ x :: l2).Perm l ∧
      l1.length = i ∧ l2.length = l.length - i - 1 ∧
      (∀ a, a ∈ l1 → a ≤ x) ∧ (∀ b, b ∈ l2 → x ≤ b) := by
  have hS : (l.insertionSort (· ≤ ·)).length = l.length := List.length_insertionSort _ l
  have hi' : i < (l.insertionSort (· ≤ ·)).length := by rw [hS]; exact hi
  have hsplit : l.insertionSort (· ≤ ·) =
      (l.insertionSort (· ≤ ·)).take i ++
        (l.insertionSort (· ≤ ·))[i] :: (l.insertionSort (· ≤ ·)).drop (i + 1) := by
    rw [← List.drop_eq_getElem_cons hi', List.take_append_drop]
  have hsorted : List.Pairwise (· ≤ ·) (l.insertionSort (· ≤ ·)) :=
    List.sorted_insertionSort (· ≤ ·) l
  have hperm : (l.insertionSort (· ≤ ·)).Perm l := List.perm_insertionSort _ l
  rw [hsplit] at hsorted hperm
  obtain ⟨-, h2, h3⟩ := List.pairwise_append.1 hsorted
  refine ⟨(l.insertionSort (· ≤ ·))[i], (l.insertionSort (· ≤ ·)).take i,
    (l.insertionSort (· ≤ ·)).drop (i + 1), List.getElem?_eq_getElem hi', hperm, ?_, ?_,
    ?_, ?_⟩
  · rw [List.length_take]
    omega
  · rw [List.length_drop]
    omega
  · intro a ha
    exact h3 a ha _ (List.mem_cons_self _ _)
  · intro b hb
    exact (List.pairwise_cons.1 h2).1 b hb

theorem countP_split {α : Type} (p : α → Bool) (l l1 l2 : List α) (x : α)
    (hperm : (l1 ++ x :: l2).Perm l) :
    l.countP p = l1.countP p + (l2.countP p + if p x = true then 1 else 0) := by
  rw [← hperm.countP_eq, List.countP_append, List.countP_cons]

/-- At least `len - i` elements are not below the element of sorted index `i`. -/
theorem count_ge_nth {α : Type} [LinearOrder α] (l : List α) (i : Nat) (x : α)
    (hi : i < l.length) (hx : (l.insertionSort (· ≤ ·))[i]? = some x) :
    l.length - i ≤ l.countP (fun a => decide (x ≤ a)) := by
  obtain ⟨x', l1, l2, hx', hperm, h1, h2, -, hge⟩ := sorted_split l i hi
  rw [hx] at hx'
  cases hx'
  rw [countP_split _ l l1 l2 x hperm]
  have hall : l2.countP (fun a => decide (x ≤ a)) = l2.length :=
    List.countP_eq_length.2 (fun b hb => decide_eq_true (hge b hb))
  rw [hall, h2, if_pos (decide_eq_true (le_refl x))]
  omega

/-- At least `i + 1` elements are not above the element of sorted index `i`. -/
theorem count_le_nth {α : Type} [LinearOrder α] (l : List α) (i : Nat) (x : α)
    (hi : i < l.length) (hx : (l.insertionSort (· ≤ ·))[i]? = some x) :
    i + 1 ≤ l.countP (fun a => decide (a ≤ x)) := by
  obtain ⟨x', l1, l2, hx', hperm, h1, -, hle, -⟩ := sorted_split l i hi
  rw [hx] at hx'
  cases hx'
  rw [countP_split _ l l1 l2 x hperm]
  have hall : l1.countP (fun a => decide (a ≤ x)) = l1.length :=
    List.countP_eq_length.2 (fun b hb => decide_eq_true (hle b hb))
  rw [hall, h1, if_pos (decide_eq_true (le_refl x))]
  omega

/-- Whenever more than `i` elements are at most `v`, so is the element of
sorted index `i`. -/
theorem nth_le_of_count {α : Type} [LinearOrder α] (l : List α) (i : Nat) (x v : α)
    (hi : i < l.length) (hx : (l.insertionSort (· ≤ ·))[i]? = some x)
    (hc : i + 1 ≤ l.countP (fun a => decide (a ≤ v))) : x ≤ v := by
  obtain ⟨x', l1, l2, hx', hperm, h1, -, -, hge⟩ := sorted_split l i hi
  rw [hx] at hx'
  cases hx'
  by_contra hcon
  have hlt : v < x := not_le.1 hcon
  rw [countP_split _ l l1 l2 x hperm] at hc
  have hnone : l2.countP (fun a => decide (a ≤ v)) = 0 :=
    List.countP_eq_zero.2 (fun b hb hbv =>
      absurd (lt_of_lt_of_le hlt (hge b hb)) (not_lt.2 (of_decide_eq_true hbv)))
  have hx0 : ¬ decide (x ≤ v) = true := fun h => hcon (of_decide_eq_true h)
  rw [hnone, if_neg hx0] at hc
  have := List.countP_le_length (fun a => decide (a ≤ v)) (l := l1)
  omega

/-- With pairwise distinct elements exactly `len - i` of them are not below the
element of sorted index `i`. -/
theorem count_ge_nth_nodup {α : Type} [LinearOrder α] (l : List α) (i : Nat) (x : α)
    (hi : i < l.length) (hx : (l.insertionSort (· ≤ ·))[i]? = some x) (hnd : l.Nodup) :
    l.countP (fun a => decide (x ≤ a)) = l.length - i := by
  obtain ⟨x', l1, l2, hx', hperm, h1, h2, hle, hge⟩ := sorted_split l i hi
  rw [hx] at hx'
  cases hx'
  have hnd' : (l1 ++ x :: l2).Nodup := (hperm.nodup_iff).2 hnd
  have hdisj := (List.nodup_append.1 hnd').2.2
  rw [countP_split _ l l1 l2 x hperm]
  have hall : l2.countP (fun a => decide (x ≤ a)) = l2.length :=
    List.countP_eq_length.2 (fun b hb => decide_eq_true (hge b hb))
  have hnone : l1.countP (fun a => decide (x ≤ a)) = 0 :=
    List.countP_eq_zero.2 (fun a ha hxa => by
      have hax : a = x := le_antisymm (hle a ha) (of_decide_eq_true hxa)
      exact hdisj ha (by rw [hax]; exact List.mem_cons_self _ _))
  rw [hall, hnone, h2, if_pos (decide_eq_true (le_refl x))]
  omega

theorem nth_mem {α : Type} [LinearOrder α] (l : List α) (i : Nat) (x : α)
    (hx : (l.insertionSort (· ≤ ·))[i]? = some x) : x ∈ l := by
  have hmem : x ∈ l.insertionSort (· ≤ ·) := List.getElem?_mem hx
  exact (List.perm_insertionSort _ l).mem_iff.1 hmem

/-! ## The threshold of the peak tracer -/

theorem nthElement_valid {R : Type} [LinearOrderedCommRing R] (amps : List R) (i : Nat)
    (hi : i < amps.length) :
    nthElement amps (i : Int) = (amps.insertionSort (· ≤ ·))[i]? := by
  unfold nthElement
  rw [if_pos ⟨Int.natCast_nonneg i, Int.ofNat_lt.2 hi⟩, Int.toNat_natCast]

theorem nthElement_neg {R : Type} [LinearOrderedCommRing R] (amps : List R) (n : Int)
    (hn : n < 0) : nthElement amps n = none := by
  unfold nthElement
  rw [if_neg (fun h => absurd h.1 (not_le.2 hn))]

/-- For a keep-count `1 <= k <= len` the selection index `len - k` is an index of
`amps` and the thresholding is defined. -/
theorem traceFrame_of_valid {R : Type} [LinearOrderedCommRing R] (bins : List (pv_bin R))
    (k : Nat) (hk1 : 1 ≤ k) (hk : k ≤ bins.length) :
    ∃ thr, ((bins.map fun f => f.amp).insertionSort (· ≤ ·))[bins.length - k]? = some thr ∧
      traceFrame bins (k : Int) =
        some (bins.map fun f => if f.amp ≥ thr then f else pv_bin.null) := by
  have hlen : (bins.map fun f => f.amp).length = bins.length := List.length_map _ _
  have hi : bins.length - k < (bins.map fun f => f.amp).length := by rw [hlen]; omega
  have hS : ((bins.map fun f => f.amp).insertionSort (· ≤ ·)).length = bins.length := by
    rw [List.length_insertionSort, hlen]
  have hi' : bins.length - k < ((bins.map fun f => f.amp).insertionSort (· ≤ ·)).length := by
    rw [hS]; omega
  refine ⟨((bins.map fun f => f.amp).insertionSort (· ≤ ·))[bins.length - k],
    List.getElem?_eq_getElem hi', ?_⟩
  unfold traceFrame
  simp only []
  rw [show ((bins.length : Int) - (k : Int)) = ((bins.length - k : Nat) : Int) by omega,
    nthElement_valid _ _ hi, List.getElem?_eq_getElem hi']
  rfl

theorem countP_bins_amp {R : Type} (p : R → Bool) (bins : List (pv_bin R)) :
    (bins.map fun f => f.amp).countP p = bins.countP (fun f => p f.amp) := by
  rw [List.countP_map]
  rfl

/-- With keep-count 1 the threshold is the largest amplitude. -/
theorem nth_last_is_max {α : Type} [LinearOrder α] (l : List α) (x : α)
    (hl : 1 ≤ l.length) (hx : (l.insertionSort (· ≤ ·))[l.length - 1]? = some x) :
    x ∈ l ∧ ∀ a, a ∈ l → a ≤ x := by
  refine ⟨nth_mem l _ x hx, ?_⟩
  obtain ⟨x', l1, l2, hx', hperm, -, h2, hle, -⟩ := sorted_split l (l.length - 1) (by omega)
  rw [hx] at hx'
  cases hx'
  have hnil : l2 = [] := List.length_eq_zero.1 (by rw [h2]; omega)
  subst hnil
  intro a ha
  have ha' : a ∈ l1 ++ [x] := hperm.mem_iff.2 ha
  rcases List.mem_append.1 ha' with h | h
  · exact hle a h
  · rw [List.mem_singleton.1 h]

/-- With keep-count `len` the threshold is the smallest amplitude. -/
theorem nth_first_is_min {α : Type} [LinearOrder α] (l : List α) (x : α)
    (hl : 1 ≤ l.length) (hx : (l.insertionSort (· ≤ ·))[0]? = some x) :
    x ∈ l ∧ ∀ a, a ∈ l → x ≤ a := by
  refine ⟨nth_mem l _ x hx, ?_⟩
  obtain ⟨x', l1, l2, hx', hperm, h1, -, -, hge⟩ := sorted_split l 0 (by omega)
  rw [hx] at hx'
  cases hx'
  have hnil : l1 = [] := List.length_eq_zero.1 h1
  subst hnil
  intro a ha
  have ha' : a ∈ [] ++ x :: l2 := hperm.mem_iff.2 ha
  rcases List.mem_cons.1 ha' with h | h
  · rw [h]
  · exact hge a h

/-- Thresholding a thresholded frame of non-negative amplitudes again, with the
same keep-count, changes nothing. -/
theorem traceFrame_idem {R : Type} [LinearOrderedCommRing R] (bins : List (pv_bin R))
    (k : Nat) (hk1 : 1 ≤ k) (hk : k ≤ bins.length) (hnn : ∀ f, f ∈ bins → 0 ≤ f.amp) :
    ∃ out, traceFrame bins (k : Int) = some out ∧ traceFrame out (k : Int) = some out ∧
      out.length = bins.length := by
  obtain ⟨thr, hthr, htr⟩ := traceFrame_of_valid bins k hk1 hk
  have hlen : (bins.map fun f => f.amp).length = bins.length := List.length_map _ _
  have hi : bins.length - k < (bins.map fun f => f.amp).length := by rw [hlen]; omega
  have holen : (bins.map fun f => if f.amp ≥ thr then f else pv_bin.null).length =
      bins.length := List.length_map _ _
  refine ⟨bins.map fun f => if f.amp ≥ thr then f else pv_bin.null, htr, ?_, holen⟩
  have h2 := traceFrame_of_valid
    (bins.map fun (f : pv_bin R) => if f.amp ≥ thr then f else pv_bin.null) k hk1
    (by rw [holen]; exact hk)
  obtain ⟨thr', hthr', htr'⟩ := h2
  rw [htr']
  rw [holen] at hthr'
  -- the threshold is one of the amplitudes, hence not negative
  have hthr0 : 0 ≤ thr := by
    obtain ⟨f, hf, hfa⟩ := List.mem_map.1 (nth_mem _ _ thr hthr)
    rw [← hfa]
    exact hnn f hf
  -- the second threshold is not above the first
  have hle : thr' ≤ thr := by
    apply nth_le_of_count _ (bins.length - k) thr' thr
      (by rw [List.length_map, holen]; omega) hthr'
    have h1 := count_le_nth _ _ thr hi hthr
    rw [countP_bins_amp] at h1
    rw [countP_bins_amp, List.countP_map]
    refine le_trans h1 (List.countP_mono_left ?_)
    intro f _ hf
    have hf' : f.amp ≤ thr := of_decide_eq_true hf
    show decide ((if f.amp ≥ thr then f else pv_bin.null).amp ≤ thr) = true
    apply decide_eq_true
    split_ifs
    · exact hf'
    · exact hthr0
  congr 1
  rw [List.map_map]
  apply List.map_congr_left
  intro f _
  show (if (if f.amp ≥ thr then f else pv_bin.null).amp ≥ thr'
    then (if f.amp ≥ thr then f else pv_bin.null) else pv_bin.null) =
    if f.amp ≥ thr then f else pv_bin.null
  by_cases hf : f.amp ≥ thr
  · rw [if_pos hf, if_pos (le_trans hle hf)]
  · rw [if_neg hf]
    split_ifs <;> rfl

/-- With keep-count `len` the threshold is the smallest amplitude and the
thresholding passes every bin. -/
theorem traceFrame_full {R : Type} [LinearOrderedCommRing R] (bins : List (pv_bin R))
    (hlen : 1 ≤ bins.length) :
    ∃ thr, nthElement (bins.map fun f => f.amp) ((bins.length : Int) - (bins.length : Int)) =
        some thr ∧
      (∃ f, f ∈ bins ∧ f.amp = thr) ∧ (∀ f, f ∈ bins → thr ≤ f.amp) ∧
      traceFrame bins (bins.length : Int) = some bins := by
  obtain ⟨thr, hthr, htr⟩ := traceFrame_of_valid bins bins.length hlen (le_refl _)
  rw [Nat.sub_self] at hthr
  have hl : (bins.map fun f => f.amp).length = bins.length := List.length_map _ _
  obtain ⟨hmem, hmin⟩ := nth_first_is_min _ thr (by rw [hl]; exact hlen) hthr
  obtain ⟨f0, hf0, hf0a⟩ := List.mem_map.1 hmem
  have hmin' : ∀ f, f ∈ bins → thr ≤ f.amp := fun f hf =>
    hmin f.amp (List.mem_map.2 ⟨f, hf, rfl⟩)
  refine ⟨thr, ?_, ⟨f0, hf0, hf0a⟩, hmin', ?_⟩
  · rw [sub_self]
    have h0 : ((0 : Nat) : Int) = 0 := rfl
    rw [← h0, nthElement_valid _ 0 (by rw [hl]; omega)]
    exact hthr
  · rw [htr]
    congr 1
    have hid : (bins.map fun f => if f.amp ≥ thr then f else pv_bin.null) =
        bins.map id := by
      apply List.map_congr_left
      intro f hf
      rw [if_pos (hmin' f hf)]
      rfl
    rw [hid, List.map_id]

/-- Inside a partition the output samples are read from the accumulator and the
carry alone: two runs that start with the same accumulator, carry and counter
put out the same samples until the partition is complete, whatever they are
fed. -/
theorem partition_outputs_indep {R : Type} [LinearOrderedCommRing R] (T : Transforms R) :
    ∀ (ks ks' : List (Tick R)) (s s' : TVConv R), s.out = s'.out → s.saved = s'.saved →
      s.n = s'.n → s.pars = s'.pars → ks.length = ks'.length →
      s.n + ks.length ≤ s.pars → s.pars ≤ 2 ^ 31 →
      (runTicks (pconvStep T) s ks).2 = (runTicks (pconvStep T) s' ks').2 := by
  intro ks
  induction ks with
  | nil =>
    intro ks' s s' _ _ _ _ hlen _ _
    have : ks' = [] := List.length_eq_zero.1 hlen.symm
    subst this
    rfl
  | cons k ks ih =>
    intro ks' s s' ho hs hn hp hlen hle hU
    cases ks' with
    | nil => simp at hlen
    | cons k' ks' =>
      simp only [List.length_cons, Nat.add_right_cancel_iff] at hlen
      simp only [runTicks]
      rw [pconvStep_out_sample, pconvStep_out_sample, ho, hs, hn]
      congr 1
      by_cases hks : ks = []
      · subst hks
        have : ks' = [] := List.length_eq_zero.1 hlen.symm
        subst this
        rfl
      · have hpos : 0 < ks.length := List.length_pos.2 hks
        simp only [List.length_cons] at hle
        have hU' : (s.n + 1) % U32 = s.n + 1 := by
          apply Nat.mod_eq_of_lt
          unfold U32
          omega
        have hne : (s.n + 1) % U32 ≠ s.pars := by
          rw [hU']
          omega
        have hne' : (s'.n + 1) % U32 ≠ s'.pars := by
          rw [← hn, ← hp]
          exact hne
        have hstep : (pconvStep T s k).1 = preUpdate s k := by
          rw [pconvStep_preUpdate, if_neg hne]
        have hstep' : (pconvStep T s' k').1 = preUpdate s' k' := by
          rw [pconvStep_preUpdate, if_neg hne']
        rw [hstep, hstep']
        apply ih
        · exact ho
        · show s.saved.set s.n (s.out.getD ((s.n + s.pars) % U32) 0) =
            s'.saved.set s'.n (s'.out.getD ((s'.n + s'.pars) % U32) 0)
          rw [ho, hs, hn, hp]
        · show (s.n + 1) % U32 = (s'.n + 1) % U32
          rw [hn]
        · exact hp
        · exact hlen
        · show (s.n + 1) % U32 + ks.length ≤ s.pars
          rw [hU']
          omega
        · exact hU

/-! ## Claims -/

/-- C1. The Direct Convolver is time-domain convolution with zero latency: a
direct-mode instance (smaller setup value at most 1) of filter span
`L = max a b >= 1`, started from `init`, with both freeze controls positive on
every pass, puts out on each pass `t < L` the sample
`sum over a in 0..t of x[t - a] * h[a]`; stated for the whole list of the first
`T <= L` output samples. -/
theorem dconv_is_convolution {R : Type} [LinearOrderedCommRing R] (a b : Nat)
    (s0 : TVConv R) (x h f1 f2 : Nat → R) (T : Nat)
    (hmode : min a b ≤ 1) (hL : 1 ≤ max a b) (hinit : init a b = some s0)
    (hf1 : ∀ t, 0 < f1 t) (hf2 : ∀ t, 0 < f2 t) (hT : T ≤ max a b) :
    (runTicks dconvStep s0 (ticksOf x h f1 f2 T)).2 =
      (List.range T).map fun t => convAt x h (t + 1) t := by
  rw [runTicks_out]
  apply List.map_congr_left
  intro t ht
  have ht' : t < T := List.mem_range.1 ht
  rw [dconv_sample a b s0 x h f1 f2 (max a b) t hmode hL hinit (le_refl _)
    (fun i _ => hf1 i) (fun i _ _ => hf2 i) (fun i hi hi2 => by omega)]
  rw [min_eq_left (by omega)]

/-- The two scenarios of the spec for C1: span 2 with impulse response `(1, 1)`
and input `(1, 0, 0, 0)` gives `(1, 1, 0, 0)`; span 8 with the unit impulse and
input `(1, 2, 3, ...)` gives the input back on the first 8 passes. -/
theorem dconv_is_convolution_witness :
    (min 1 2 ≤ 1 ∧ 1 ≤ max 1 2 ∧ (2 : Nat) ≤ max 1 2) ∧
    (runTicks dconvStep
        ({ insp := [0, 0], irsp := [0, 0], out := [], saved := [], itn := 0, itr := 0,
           n := 0, fils := 2, pars := 1, ffts := 0 } : TVConv Int)
        (ticksOf (fun t => if t = 0 then 1 else 0) (fun t => if t < 2 then 1 else 0)
          (fun _ => 1) (fun _ => 1) 2)).2 =
      (List.range 2).map (fun t =>
        convAt (fun t => if t = 0 then (1 : Int) else 0) (fun t => if t < 2 then 1 else 0)
          (t + 1) t) ∧
    (init 1 2 : Option (TVConv Int)).map (fun s => (runTicks dconvStep s
        (ticksOf (fun t => if t = 0 then 1 else 0) (fun t => if t < 2 then 1 else 0)
          (fun _ => 1) (fun _ => 1) 4)).2) = some [1, 1, 0, 0] ∧
    (init 1 8 : Option (TVConv Int)).map (fun s => (runTicks dconvStep s
        (ticksOf (fun t => (t : Int) + 1) (fun t => if t = 0 then 1 else 0)
          (fun _ => 1) (fun _ => 1) 8)).2) = some [1, 2, 3, 4, 5, 6, 7, 8] :=
  ⟨⟨by decide, by decide, by decide⟩,
   dconv_is_convolution 1 2 _ _ _ _ _ 2 (by decide) (by decide) rfl
     (fun _ => by decide) (fun _ => by decide) (by decide),
   by decide, by decide⟩

/-- C2. Freeze correctness of the Direct Convolver: a direct-mode instance of
filter span `L = max a b`, started from `init`, input control positive on every
pass, impulse control positive on passes `0 .. N - 1` and non-positive on every
later pass, `1 <= N <= L`.  On every pass `t` (also `t >= L`, after the input
ring has wrapped) the output is `sum over a in 0..min(t, N - 1) of
x[t - a] * h[a]`; every pass at or after `N` leaves the impulse ring and its
cursor as they were, and the ring then holds `h[0..N-1]` followed by zeros. -/
theorem dconv_freeze {R : Type} [LinearOrderedCommRing R] (a b : Nat)
    (s0 : TVConv R) (x h f1 f2 : Nat → R) (N : Nat)
    (hmode : min a b ≤ 1) (hL : 1 ≤ max a b) (hinit : init a b = some s0)
    (hN1 : 1 ≤ N) (hN : N ≤ max a b)
    (hf1 : ∀ t, 0 < f1 t) (hf2 : ∀ t, t < N → 0 < f2 t) (hf3 : ∀ t, N ≤ t → f2 t ≤ 0) :
    (∀ T, (runTicks dconvStep s0 (ticksOf x h f1 f2 T)).2 =
      (List.range T).map fun t => convAt x h (min t (N - 1) + 1) t) ∧
    (∀ t, N ≤ t →
      (runTicks dconvStep s0 (ticksOf x h f1 f2 (t + 1))).1.irsp =
        (runTicks dconvStep s0 (ticksOf x h f1 f2 t)).1.irsp ∧
      (runTicks dconvStep s0 (ticksOf x h f1 f2 (t + 1))).1.itr =
        (runTicks dconvStep s0 (ticksOf x h f1 f2 t)).1.itr) ∧
    (∀ t, N ≤ t → ∀ i, i < max a b →
      (runTicks dconvStep s0 (ticksOf x h f1 f2 t)).1.irsp.getD i 0 =
        if i < N then h i else 0) := by
  have hinv : ∀ t, DirectInv (max a b) x h N t
      (runTicks dconvStep s0 (ticksOf x h f1 f2 t)).1 := fun t =>
    directInv_run (max a b) x h f1 f2 N hL hN s0
      (directInv_init a b s0 x h N hmode hinit) t
      (fun i _ => hf1 i) (fun i _ hi => hf2 i hi) (fun i _ hi => hf3 i hi)
  refine ⟨?_, ?_, ?_⟩
  · intro T
    rw [runTicks_out]
    apply List.map_congr_left
    intro t _
    rw [dconv_sample a b s0 x h f1 f2 N t hmode hL hinit hN
      (fun i _ => hf1 i) (fun i _ hi => hf2 i hi) (fun i _ hi => hf3 i hi)]
    have : min (t + 1) N = min t (N - 1) + 1 := by
      rcases Nat.lt_or_ge t N with hc | hc
      · rw [min_eq_left (by omega), min_eq_left (by omega)]
      · rw [min_eq_right (by omega), min_eq_right (by omega)]; omega
    rw [this]
  · intro t ht
    obtain ⟨-, hl2, -, hitr, -, -⟩ := hinv t
    rw [ticksOf_succ, runTicks_snoc]
    apply dconvStep_frozen_irsp _ _ (hf3 t ht)
    rw [hitr, hl2]
    exact Nat.mod_lt _ hL
  · intro t ht i hi
    obtain ⟨-, -, -, -, -, hir⟩ := hinv t
    rw [hir i hi, min_eq_right ht]

/-- C2 at span 2 with the impulse response frozen after its first sample
(`N = 1`): the output is the input scaled by `h[0] = 7`, also after the input
ring has wrapped. -/
theorem dconv_freeze_witness :
    (min 1 2 ≤ 1 ∧ 1 ≤ max 1 2 ∧ 1 ≤ 1 ∧ 1 ≤ max 1 2 ∧
      (∀ t : Nat, 0 < (fun _ => (1 : Int)) t) ∧
      (∀ t : Nat, t < 1 → 0 < (fun t => if t < 1 then (1 : Int) else 0) t) ∧
      (∀ t : Nat, 1 ≤ t → (fun t => if t < 1 then (1 : Int) else 0) t ≤ 0)) ∧
    (runTicks dconvStep
        ({ insp := [0, 0], irsp := [0, 0], out := [], saved := [], itn := 0, itr := 0,
           n := 0, fils := 2, pars := 1, ffts := 0 } : TVConv Int)
        (ticksOf (fun t => (t : Int) + 1) (fun t => if t = 0 then 7 else 9)
          (fun _ => 1) (fun t => if t < 1 then 1 else 0) 5)).2 =
      (List.range 5).map (fun t =>
        convAt (fun t => (t : Int) + 1) (fun t => if t = 0 then 7 else 9)
          (min t (1 - 1) + 1) t) ∧
    (init 1 2 : Option (TVConv Int)).map (fun s => (runTicks dconvStep s
        (ticksOf (fun t => (t : Int) + 1) (fun t => if t = 0 then 7 else 9)
          (fun _ => 1) (fun t => if t < 1 then 1 else 0) 5)).2) =
      some [7, 14, 21, 28, 35] :=
  ⟨⟨by decide, by decide, by decide, by decide, fun _ => Int.one_pos,
      fun t ht => by simp [ht], fun t ht => by simp; omega⟩,
   (dconv_freeze 1 2 _ (fun t => (t : Int) + 1) (fun t => if t = 0 then 7 else 9)
      (fun _ => 1) (fun t => if t < 1 then 1 else 0) 1 (by decide) (by decide) rfl
      (by decide) (by decide) (fun _ => Int.one_pos) (fun t ht => by simp [ht])
      (fun t ht => by simp; omega)).1 5,
   by decide⟩

/-- C3. Linearity of the Direct Convolver: for a direct-mode instance started
from `init`, every impulse stream `H`, every pair of freeze-control streams,
input streams `A`, `B` and scalar `c`, the output on `A + c * B` is, sample for
sample, the output on `A` plus `c` times the output on `B` (all three runs with
the same `H` and the same controls; exact arithmetic in a commutative ring). -/
theorem dconv_linear {R : Type} [LinearOrderedCommRing R] (a b : Nat)
    (s0 : TVConv R) (A B H f1 f2 : Nat → R) (c : R) (T : Nat)
    (hmode : min a b ≤ 1) (hinit : init a b = some s0) :
    (runTicks dconvStep s0 (ticksOf (fun t => A t + c * B t) H f1 f2 T)).2 =
      List.zipWith (fun u v => u + c * v)
        (runTicks dconvStep s0 (ticksOf A H f1 f2 T)).2
        (runTicks dconvStep s0 (ticksOf B H f1 f2 T)).2 := by
  rw [runTicks_out, runTicks_out, runTicks_out, zipWith_map_range]
  apply List.map_congr_left
  intro t _
  have hrel := linRel_step c _ _ _ (A t) (B t) (H t) (f1 t) (f2 t)
    (linRel_run c s0 A B H f1 f2 (linRel_init c a b s0 hmode hinit) t)
  obtain ⟨hl1, hl2, hr1, hr2, hn1, hn2, -, -, hel⟩ := hrel
  rw [dconvStep_out, dconvStep_out, dconvStep_out, hr1, hr2, hn1, hn2]
  exact dconvInner_linear c _ _ _ _ _ hl1 hl2 hel

/-- C3 at span 3 with controls that freeze and release both operands. -/
theorem dconv_linear_witness :
    (min 3 1 ≤ 1) ∧
    (runTicks dconvStep
        ({ insp := [0, 0, 0], irsp := [0, 0, 0], out := [], saved := [], itn := 0,
           itr := 0, n := 0, fils := 3, pars := 1, ffts := 0 } : TVConv Int)
        (ticksOf (fun t => ((t : Int) + 1) + 5 * ((t : Int) * t - 2))
          (fun t => 2 * (t : Int) - 3)
          (fun t => if t % 3 = 1 then 0 else 1) (fun t => if t % 4 = 2 then -1 else 1) 7)).2 =
      List.zipWith (fun u v => u + 5 * v)
        (runTicks dconvStep
          ({ insp := [0, 0, 0], irsp := [0, 0, 0], out := [], saved := [], itn := 0,
             itr := 0, n := 0, fils := 3, pars := 1, ffts := 0 } : TVConv Int)
          (ticksOf (fun t => (t : Int) + 1) (fun t => 2 * (t : Int) - 3)
            (fun t => if t % 3 = 1 then 0 else 1)
            (fun t => if t % 4 = 2 then -1 else 1) 7)).2
        (runTicks dconvStep
          ({ insp := [0, 0, 0], irsp := [0, 0, 0], out := [], saved := [], itn := 0,
             itr := 0, n := 0, fils := 3, pars := 1, ffts := 0 } : TVConv Int)
          (ticksOf (fun t => (t : Int) * t - 2) (fun t => 2 * (t : Int) - 3)
            (fun t => if t % 3 = 1 then 0 else 1)
            (fun t => if t % 4 = 2 then -1 else 1) 7)).2 :=
  ⟨by decide,
   dconv_linear 3 1 _ (fun t => (t : Int) + 1) (fun t => (t : Int) * t - 2)
     (fun t => 2 * (t : Int) - 3) (fun t => if t % 3 = 1 then 0 else 1)
     (fun t => if t % 4 = 2 then -1 else 1) 5 7 (by decide) rfl⟩

/-- C4. `rpow2` rounds to the nearest power of two, the larger on a tie: for
every 32-bit `n` with `2 <= n < 2 ^ 31` the loop is left (with any allowance of
at least 31 tests) and, with `lo` the largest power of two not above `n` and
`hi = 2 * lo`, the result is `lo` when `n - lo < hi - n` and `hi` otherwise; the
result is a power of two that is at least 2. -/
theorem rpow2_nearest (n : Nat) (h2 : 2 ≤ n) (hn : n < 2 ^ 31) :
    ∃ k lo, lo = 2 ^ k ∧ lo ≤ n ∧ n < 2 * lo ∧ (∀ m, 2 ^ m ≤ n → 2 ^ m ≤ lo) ∧
      (∀ fuel, 31 ≤ fuel → ∃ v, rpow2Loop fuel n 2 = some v) ∧
      rpow2 n = some (if n - lo < 2 * lo - n then lo else 2 * lo) ∧
      (∃ j r, 1 ≤ j ∧ r = 2 ^ j ∧ 2 ≤ r ∧ rpow2 n = some r) := by
  obtain ⟨k, hk1, hk30, hlo, hhi, hloop, hr⟩ := rpow2_value n h2 hn
  have hp : (2 : Nat) ^ (k + 1) = 2 * 2 ^ k := by rw [pow_succ]; ring
  refine ⟨k, 2 ^ k, rfl, hlo, by omega, ?_, ?_, ?_, ?_⟩
  · intro m hm
    apply Nat.pow_le_pow_right (by norm_num)
    by_contra hc
    have : (2 : Nat) ^ (k + 1) ≤ 2 ^ m := Nat.pow_le_pow_right (by norm_num) (by omega)
    omega
  · intro fuel hf
    exact ⟨_, hloop fuel hf⟩
  · rw [hr, hp]
  · obtain ⟨j, hj1, -, hj, -, -⟩ := rpow2_bracket n h2 hn
    have : (2 : Nat) ^ 1 ≤ 2 ^ j := Nat.pow_le_pow_right (by norm_num) hj1
    exact ⟨j, 2 ^ j, hj1, rfl, by omega, hj⟩

/-- C4 at `n = 3`, and the four values the claim lists: `3 -> 4`, `5 -> 4`,
`6 -> 8`, `4 -> 4`. -/
theorem rpow2_nearest_witness :
    (2 ≤ 3 ∧ 3 < 2 ^ 31) ∧
    (∃ k lo, lo = 2 ^ k ∧ lo ≤ 3 ∧ 3 < 2 * lo ∧ (∀ m, 2 ^ m ≤ 3 → 2 ^ m ≤ lo) ∧
      (∀ fuel, 31 ≤ fuel → ∃ v, rpow2Loop fuel 3 2 = some v) ∧
      rpow2 3 = some (if 3 - lo < 2 * lo - 3 then lo else 2 * lo) ∧
      (∃ j r, 1 ≤ j ∧ r = 2 ^ j ∧ 2 ≤ r ∧ rpow2 3 = some r)) ∧
    rpow2 3 = some 4 ∧ rpow2 5 = some 4 ∧ rpow2 6 = some 8 ∧ rpow2 4 = some 4 :=
  ⟨⟨by decide, by decide⟩, rpow2_nearest 3 (by decide) (by decide),
   by decide, by decide, by decide, by decide⟩

/-- C5, as the spec states it, fails at the requested lengths `p = f = 5`:
setup leaves `pars = 4` and `fils = 8`, while the smallest power of two that is
at least 5 is 8. -/
theorem init_round_up_counterexample :
    ∃ s : TVConv Int, init 5 5 = some s ∧ s.pars = 4 ∧ s.fils = 8 ∧
      ¬ IsCeilPow2 5 s.pars ∧ ¬ ∃ c, IsCeilPow2 5 c ∧ s.fils = 2 * c := by
  refine ⟨{ insp := allocate 8, irsp := allocate 8, out := allocate 8, saved := allocate 4,
            itn := 0, itr := 0, n := 0, fils := 8, pars := 4, ffts := 8 },
    by decide, rfl, rfl, ?_, ?_⟩
  · rintro ⟨-, h, -⟩
    have h' : 5 ≤ 4 := h
    omega
  · rintro ⟨c, ⟨-, h, -⟩, h8⟩
    have h8' : 8 = 2 * c := h8
    omega

/-- C5 amended. For requested lengths `1 < p <= f < 2 ^ 31` partitioned setup
returns with `pars` the power of two nearest to `p` and `fils` twice (in 32-bit
arithmetic; exactly twice for `f < 3 * 2 ^ 29`) the power of two nearest to `f`,
the larger power on a tie; `pars` is the smallest power of two `>= p` exactly
when `p` is a power of two or lies in the upper half of its bracket. -/
theorem init_sizes_nearest {R : Type} [Zero R] (p f : Nat) (hp : 1 < p) (hpf : p ≤ f)
    (hf : f < 2 ^ 31) :
    ∃ (s : TVConv R) (i j : Nat), init p f = some s ∧
      2 ^ i ≤ p ∧ p < 2 * 2 ^ i ∧ 2 ^ j ≤ f ∧ f < 2 * 2 ^ j ∧
      s.pars = (if p - 2 ^ i < 2 * 2 ^ i - p then 2 ^ i else 2 * 2 ^ i) ∧
      s.fils = mul2 (if f - 2 ^ j < 2 * 2 ^ j - f then 2 ^ j else 2 * 2 ^ j) ∧
      (f < 3 * 2 ^ 29 →
        s.fils = 2 * (if f - 2 ^ j < 2 * 2 ^ j - f then 2 ^ j else 2 * 2 ^ j)) ∧
      (IsCeilPow2 p s.pars ↔ (p = 2 ^ i ∨ 3 * 2 ^ i ≤ 2 * p)) := by
  obtain ⟨i, hi1, -, hilo, hihi, -, hri⟩ := rpow2_value p (by omega) (by omega)
  obtain ⟨j, hj1, hj30, hjlo, hjhi, -, hrj⟩ := rpow2_value f (by omega) hf
  have hpi : (2 : Nat) ^ (i + 1) = 2 * 2 ^ i := by rw [pow_succ]; ring
  have hpj : (2 : Nat) ^ (j + 1) = 2 * 2 ^ j := by rw [pow_succ]; ring
  rw [hpi] at hri hihi
  rw [hpj] at hrj hjhi
  refine ⟨_, i, j, init_partitioned p f _ _ hpf hp hri hrj, hilo, hihi, hjlo, hjhi,
    rfl, rfl, ?_, ?_⟩
  · intro hsmall
    show mul2 _ = _
    have hle : (if f - 2 ^ j < 2 * 2 ^ j - f then 2 ^ j else 2 * 2 ^ j) ≤ 2 ^ 30 := by
      split_ifs with hc
      · exact Nat.pow_le_pow_right (by norm_num) hj30
      · by_contra hbig
        have hj29 : ¬ j ≤ 29 := by
          intro h29
          have : (2 : Nat) ^ j ≤ 2 ^ 29 := Nat.pow_le_pow_right (by norm_num) h29
          omega
        have : j = 30 := by omega
        subst this
        omega
    unfold mul2 U32
    rw [Nat.mod_eq_of_lt (by omega)]
    ring
  · show IsCeilPow2 p (if p - 2 ^ i < 2 * 2 ^ i - p then 2 ^ i else 2 * 2 ^ i) ↔ _
    have hpos : 0 < 2 ^ i := Nat.pos_pow_of_pos i (by norm_num)
    split_ifs with hc
    · constructor
      · rintro ⟨-, h, -⟩
        left; omega
      · rintro (h | h)
        · exact ⟨⟨i, rfl⟩, by omega, fun k hk => by omega⟩
        · omega
    · constructor
      · intro _
        right; omega
      · intro _
        refine ⟨⟨i + 1, hpi.symm⟩, by omega, ?_⟩
        intro k hk
        rw [← hpi]
        apply Nat.pow_le_pow_right (by norm_num)
        by_contra hki
        have : (2 : Nat) ^ k ≤ 2 ^ i := Nat.pow_le_pow_right (by norm_num) (by omega)
        omega

/-- C5 amended at `p = 5`, `f = 12`: `pars = 4`, `fils = 32`. -/
theorem init_sizes_nearest_witness :
    (1 < 5 ∧ 5 ≤ 12 ∧ 12 < 2 ^ 31) ∧
    (∃ (s : TVConv Int) (i j : Nat), init 5 12 = some s ∧
      2 ^ i ≤ 5 ∧ 5 < 2 * 2 ^ i ∧ 2 ^ j ≤ 12 ∧ 12 < 2 * 2 ^ j ∧
      s.pars = (if 5 - 2 ^ i < 2 * 2 ^ i - 5 then 2 ^ i else 2 * 2 ^ i) ∧
      s.fils = mul2 (if 12 - 2 ^ j < 2 * 2 ^ j - 12 then 2 ^ j else 2 * 2 ^ j) ∧
      (12 < 3 * 2 ^ 29 →
        s.fils = 2 * (if 12 - 2 ^ j < 2 * 2 ^ j - 12 then 2 ^ j else 2 * 2 ^ j)) ∧
      (IsCeilPow2 5 s.pars ↔ (5 = 2 ^ i ∨ 3 * 2 ^ i ≤ 2 * 5))) ∧
    (init 5 12 : Option (TVConv Int)).map (fun s => (s.pars, s.fils)) = some (4, 32) :=
  ⟨⟨by decide, by decide, by decide⟩,
   init_sizes_nearest 5 12 (by decide) (by decide) (by decide), by decide⟩

/-- C6. Setup size invariants: for setup values `a`, `b` in either order with
`min a b > 1` and no 32-bit overflow (`max a b < 3 * 2 ^ 29`, which covers both
below `2 ^ 30`), `init` returns a state with `pars <= fils`, `ffts = 2 * pars`,
`ffts <= fils` and `fils` an exact multiple of `ffts` with at least one block;
both rings have length `fils`, and `pars`, `fils` are powers of two. -/
theorem init_size_invariants {R : Type} [Zero R] (a b : Nat) (hmin : 1 < min a b)
    (hmax : max a b < 3 * 2 ^ 29) :
    ∃ s : TVConv R, init a b = some s ∧ s.pars ≤ s.fils ∧ s.ffts = 2 * s.pars ∧
      s.ffts ≤ s.fils ∧ s.ffts ∣ s.fils ∧ 1 ≤ s.fils / s.ffts ∧
      s.insp.length = s.fils ∧ s.irsp.length = s.fils ∧
      (∃ i j, s.pars = 2 ^ i ∧ s.fils = 2 ^ j) := by
  have hle : min a b ≤ max a b := min_le_max
  obtain ⟨i, hi1, hi30, hri, hmi⟩ := rpow2_small (min a b) (by omega) (by omega)
  obtain ⟨j, hj1, hj30, hrj, hmj⟩ := rpow2_small (max a b) (by omega) hmax
  have hmono : 2 ^ i ≤ 2 ^ j :=
    rpow2_mono (min a b) (max a b) _ _ (by omega) hle (by omega) hri hrj
  have hij : i ≤ j := (Nat.pow_le_pow_iff_right (by norm_num)).1 hmono
  have hposi : 0 < 2 ^ i := Nat.pos_pow_of_pos i (by norm_num)
  have hpi : (2 : Nat) ^ (i + 1) = 2 * 2 ^ i := by rw [pow_succ]; ring
  have hpj : (2 : Nat) ^ (j + 1) = 2 * 2 ^ j := by rw [pow_succ]; ring
  have hdvd : 2 * 2 ^ i ∣ 2 * 2 ^ j := by
    rw [← hpi, ← hpj]
    exact pow_dvd_pow 2 (by omega)
  refine ⟨_, (init_sorted a b).trans (init_partitioned _ _ _ _ hle hmin hri hrj), ?_⟩
  rw [hmi, hmj]
  refine ⟨by show 2 ^ i ≤ 2 * 2 ^ j; omega, rfl,
    by show 2 * 2 ^ i ≤ 2 * 2 ^ j; omega, hdvd, ?_, length_allocate _, length_allocate _,
    ⟨i, j + 1, rfl, hpj.symm⟩⟩
  show 1 ≤ 2 * 2 ^ j / (2 * 2 ^ i)
  exact (Nat.one_le_div_iff (by omega)).2 (by omega)

/-- C6 at the setup values `(12, 5)` and, swapped, `(5, 12)`: `pars = 4`,
`ffts = 8`, `fils = 32`. -/
theorem init_size_invariants_witness :
    (1 < min 12 5 ∧ max 12 5 < 3 * 2 ^ 29) ∧
    (∃ s : TVConv Int, init 12 5 = some s ∧ s.pars ≤ s.fils ∧ s.ffts = 2 * s.pars ∧
      s.ffts ≤ s.fils ∧ s.ffts ∣ s.fils ∧ 1 ≤ s.fils / s.ffts ∧
      s.insp.length = s.fils ∧ s.irsp.length = s.fils ∧
      (∃ i j, s.pars = 2 ^ i ∧ s.fils = 2 ^ j)) ∧
    (init 12 5 : Option (TVConv Int)).map (fun s => (s.pars, s.ffts, s.fils)) =
      some (4, 8, 32) ∧
    (init 5 12 : Option (TVConv Int)).map (fun s => (s.pars, s.ffts, s.fils)) =
      some (4, 8, 32) :=
  ⟨⟨by decide, by decide⟩, init_size_invariants 12 5 (by decide) (by decide),
   by decide, by decide⟩

/-- C7. Mode selection is order-insensitive and permanent.  `init a b` and
`init b a` are the same (so the same `pars`, `fils` and mode); setup returns
exactly when the smaller value is at most 1 or both are below `2 ^ 31`; for the
state `s` it returns, the partition size tested by `aperf` is above 1 exactly
when the unrounded smaller setup value is, no sequence of `aperf` calls changes
`pars`, and every later `aperf` call runs `pconv` when `1 < min a b` and `dconv`
otherwise. -/
theorem mode_selection {R : Type} [LinearOrderedCommRing R] (T : Transforms R)
    (a b : Nat) :
    (init a b : Option (TVConv R)) = init b a ∧
    ((∃ s : TVConv R, init a b = some s) ↔ (min a b ≤ 1 ∨ max a b < 2 ^ 31)) ∧
    ∀ s : TVConv R, init a b = some s →
      (1 < s.pars ↔ 1 < min a b) ∧
      ∀ bs : List (Block R),
        (aperfs T s bs).pars = s.pars ∧
        ∀ blk : Block R, aperf T (aperfs T s bs) blk =
          if 1 < min a b then pconv T (aperfs T s bs) blk
          else dconv (aperfs T s bs) blk := by
  refine ⟨init_comm a b, ⟨?_, ?_⟩, ?_⟩
  · rintro ⟨s, hs⟩
    by_contra hc
    have hc1 : ¬ min a b ≤ 1 := fun h => hc (Or.inl h)
    have hc2 : 2 ^ 31 ≤ max a b := not_lt.1 (fun h => hc (Or.inr h))
    have h3 : ¬ min a b > max a b := not_lt.2 min_le_max
    have h4 : min a b > 1 := by omega
    rw [init_sorted] at hs
    simp only [init, h3, if_false, h4, if_true, rpow2_none _ hc2] at hs
    cases hr : rpow2 (min a b) with
    | none => rw [hr] at hs; simp at hs
    | some v => rw [hr] at hs; simp at hs
  · intro h
    have hle : min a b ≤ max a b := min_le_max
    by_cases hm : min a b ≤ 1
    · exact ⟨_, (init_sorted a b).trans (init_direct _ _ hle hm)⟩
    · have hmax : max a b < 2 ^ 31 := by
        rcases h with h | h
        · exact absurd h hm
        · exact h
      obtain ⟨i, -, -, hri, -, -⟩ := rpow2_bracket (min a b) (by omega) (by omega)
      obtain ⟨j, -, -, hrj, -, -⟩ := rpow2_bracket (max a b) (by omega) hmax
      exact ⟨_, (init_sorted a b).trans (init_partitioned _ _ _ _ hle (by omega) hri hrj)⟩
  · intro s hinit
    have hiff := init_pars_gt_one a b s hinit
    refine ⟨hiff, fun bs => ⟨aperfs_pars T bs s, fun blk => ?_⟩⟩
    unfold aperf
    rw [aperfs_pars T bs s]
    by_cases hm : 1 < min a b
    · rw [if_pos (hiff.2 hm), if_pos hm]
    · rw [if_neg (fun h => hm (hiff.1 h)), if_neg hm]

/-- C7 at the setup values `(1, 4)` (direct) and `(4, 2)` (partitioned), each
after one `aperf` call on a block of three samples. -/
theorem mode_selection_witness :
    ((1 < (1 : Nat) ↔ 1 < min 1 4) ∧
     aperf ({ fwd := id, inv := id } : Transforms Int)
        (aperfs { fwd := id, inv := id }
          { insp := [0, 0, 0, 0], irsp := [0, 0, 0, 0], out := [], saved := [],
            itn := 0, itr := 0, n := 0, fils := 4, pars := 1, ffts := 0 }
          [{ nsmps := 3, insig := [1, 2, 3], irsig := [1, 0, 0], frz1 := [1],
             inc1 := 0, frz2 := [1, 1, 0], inc2 := 1 }])
        { nsmps := 2, insig := [4, 5], irsig := [0, 0], frz1 := [1],
          inc1 := 0, frz2 := [0, 0], inc2 := 1 } =
      if 1 < min 1 4 then
        pconv ({ fwd := id, inv := id } : Transforms Int)
          (aperfs ({ fwd := id, inv := id } : Transforms Int)
            { insp := [0, 0, 0, 0], irsp := [0, 0, 0, 0], out := [], saved := [],
              itn := 0, itr := 0, n := 0, fils := 4, pars := 1, ffts := 0 }
            [{ nsmps := 3, insig := [1, 2, 3], irsig := [1, 0, 0], frz1 := [1],
               inc1 := 0, frz2 := [1, 1, 0], inc2 := 1 }])
          { nsmps := 2, insig := [4, 5], irsig := [0, 0], frz1 := [1],
            inc1 := 0, frz2 := [0, 0], inc2 := 1 }
      else
        dconv
          (aperfs ({ fwd := id, inv := id } : Transforms Int)
            { insp := [0, 0, 0, 0], irsp := [0, 0, 0, 0], out := [], saved := [],
              itn := 0, itr := 0, n := 0, fils := 4, pars := 1, ffts := 0 }
            [{ nsmps := 3, insig := [1, 2, 3], irsig := [1, 0, 0], frz1 := [1],
               inc1 := 0, frz2 := [1, 1, 0], inc2 := 1 }])
          { nsmps := 2, insig := [4, 5], irsig := [0, 0], frz1 := [1],
            inc1 := 0, frz2 := [0, 0], inc2 := 1 }) ∧
    (init 1 4 : Option (TVConv Int)).map (fun s =>
        (aperf ({ fwd := id, inv := id } : Transforms Int) s
          { nsmps := 3, insig := [1, 2, 3], irsig := [1, 0, 0], frz1 := [1], inc1 := 0,
            frz2 := [1, 1, 0], inc2 := 1 }).2) = some [1, 2, 3] ∧
    (init 1 4 : Option (TVConv Int)).map (fun s =>
        (aperfs ({ fwd := id, inv := id } : Transforms Int) s
          [{ nsmps := 3, insig := [1, 2, 3], irsig := [1, 0, 0], frz1 := [1], inc1 := 0,
             frz2 := [1, 1, 0], inc2 := 1 }]).pars) = some 1 ∧
    (init 4 2 : Option (TVConv Int)).map (fun s =>
        (aperfs ({ fwd := id, inv := id } : Transforms Int) s
          [{ nsmps := 3, insig := [1, 2, 3], irsig := [1, 0, 0], frz1 := [1], inc1 := 0,
             frz2 := [1, 1, 0], inc2 := 1 }]).pars) = some 2 :=
  ⟨⟨((mode_selection ({ fwd := id, inv := id } : Transforms Int) 1 4).2.2 _ rfl).1,
    ((((mode_selection ({ fwd := id, inv := id } : Transforms Int) 1 4).2.2 _ rfl).2
      [{ nsmps := 3, insig := [1, 2, 3], irsig := [1, 0, 0], frz1 := [1],
         inc1 := 0, frz2 := [1, 1, 0], inc2 := 1 }]).2
      { nsmps := 2, insig := [4, 5], irsig := [0, 0], frz1 := [1],
        inc1 := 0, frz2 := [0, 0], inc2 := 1 })⟩,
   by decide, by decide, by decide⟩

/-- C8. Freeze polarity, both modes, every state and every pass: an operand's
current sample is stored into its ring when that operand's control value is
positive (at the cursor in `dconv`, at cursor + `n` in `pconv`), and when the
control value is at most 0 the stores of the pass leave that ring as it was.
In `pconv` the pass touches the rings through these stores and, when a
partition is complete, through the block update, which does not read the sample.
Where the write position is inside the ring and holds another value than the
sample, the stores change the ring if and only if the control is positive. -/
theorem freeze_polarity {R : Type} [LinearOrderedCommRing R] (T : Transforms R)
    (s : TVConv R) (k : Tick R) :
    ((0 < k.frz1 → (dconvStep s k).1.insp = s.insp.set s.itn k.inp) ∧
     (k.frz1 ≤ 0 → (dconvStep s k).1.insp = s.insp) ∧
     (0 < k.frz2 → (dconvStep s k).1.irsp = s.irsp.set s.itr k.irp) ∧
     (k.frz2 ≤ 0 → (dconvStep s k).1.irsp = s.irsp)) ∧
    ((0 < k.frz1 → (pconvWrite s k).insp = s.insp.set (s.itn + s.n) k.inp) ∧
     (k.frz1 ≤ 0 → (pconvWrite s k).insp = s.insp) ∧
     (0 < k.frz2 → (pconvWrite s k).irsp = s.irsp.set (s.itr + s.n) k.irp) ∧
     (k.frz2 ≤ 0 → (pconvWrite s k).irsp = s.irsp)) ∧
    ((pconvStep T s k).1.insp =
        (if (s.n + 1) % U32 = s.pars then
          rfftAt T.fwd (fill (pconvWrite s k).insp (s.itn + s.pars) (s.itn + s.ffts) 0)
            s.itn s.ffts
         else (pconvWrite s k).insp) ∧
     (pconvStep T s k).1.irsp =
        (if (s.n + 1) % U32 = s.pars then
          rfftAt T.fwd (fill (pconvWrite s k).irsp (s.itr + s.pars) (s.itr + s.ffts) 0)
            s.itr s.ffts
         else (pconvWrite s k).irsp)) ∧
    ((s.itn < s.insp.length → s.insp.getD s.itn 0 ≠ k.inp →
        ((dconvStep s k).1.insp ≠ s.insp ↔ 0 < k.frz1)) ∧
     (s.itr < s.irsp.length → s.irsp.getD s.itr 0 ≠ k.irp →
        ((dconvStep s k).1.irsp ≠ s.irsp ↔ 0 < k.frz2)) ∧
     (s.itn + s.n < s.insp.length → s.insp.getD (s.itn + s.n) 0 ≠ k.inp →
        ((pconvWrite s k).insp ≠ s.insp ↔ 0 < k.frz1)) ∧
     (s.itr + s.n < s.irsp.length → s.irsp.getD (s.itr + s.n) 0 ≠ k.irp →
        ((pconvWrite s k).irsp ≠ s.irsp ↔ 0 < k.frz2))) := by
  have key : ∀ (l : List R) (i : Nat) (v f : R), i < l.length → l.getD i 0 ≠ v →
      ((if 0 < f then l.set i v else l) ≠ l ↔ 0 < f) := by
    intro l i v f hi hv
    by_cases hf : 0 < f
    · rw [if_pos hf]
      exact ⟨fun _ => hf, fun _ => set_ne_self l i v 0 hi hv⟩
    · rw [if_neg hf]
      exact ⟨fun h => absurd rfl h, fun h => absurd h hf⟩
  refine ⟨⟨?_, ?_, ?_, ?_⟩, ⟨?_, ?_, ?_, ?_⟩, ⟨?_, ?_⟩,
    ⟨fun hi hv => key s.insp s.itn k.inp k.frz1 hi hv,
     fun hi hv => key s.irsp s.itr k.irp k.frz2 hi hv,
     fun hi hv => key s.insp (s.itn + s.n) k.inp k.frz1 hi hv,
     fun hi hv => key s.irsp (s.itr + s.n) k.irp k.frz2 hi hv⟩⟩
  · intro h
    show (if 0 < k.frz1 then s.insp.set s.itn k.inp else s.insp) = _
    rw [if_pos h]
  · intro h
    show (if 0 < k.frz1 then s.insp.set s.itn k.inp else s.insp) = _
    rw [if_neg (not_lt.2 h)]
  · intro h
    show (if 0 < k.frz2 then s.irsp.set s.itr k.irp else s.irsp) = _
    rw [if_pos h]
  · intro h
    show (if 0 < k.frz2 then s.irsp.set s.itr k.irp else s.irsp) = _
    rw [if_neg (not_lt.2 h)]
  · intro h
    show (if 0 < k.frz1 then s.insp.set (s.itn + s.n) k.inp else s.insp) = _
    rw [if_pos h]
  · intro h
    show (if 0 < k.frz1 then s.insp.set (s.itn + s.n) k.inp else s.insp) = _
    rw [if_neg (not_lt.2 h)]
  · intro h
    show (if 0 < k.frz2 then s.irsp.set (s.itr + s.n) k.irp else s.irsp) = _
    rw [if_pos h]
  · intro h
    show (if 0 < k.frz2 then s.irsp.set (s.itr + s.n) k.irp else s.irsp) = _
    rw [if_neg (not_lt.2 h)]
  · by_cases hn : (s.n + 1) % U32 = s.pars
    · rw [if_pos hn]; exact (pconvStep_rings_update T s k hn).1
    · rw [if_neg hn]; exact (pconvStep_rings_inside T s k hn).1
  · by_cases hn : (s.n + 1) % U32 = s.pars
    · rw [if_pos hn]; exact (pconvStep_rings_update T s k hn).2.1
    · rw [if_neg hn]; exact (pconvStep_rings_inside T s k hn).2.1

/-- C8 on fresh instances: with control 1 the samples 5 and 7 land in the
rings, with control 0 and -1 the rings stay all zero, in both modes. -/
theorem freeze_polarity_witness :
    (dconvStep
      ({ insp := [0, 0], irsp := [0, 0], out := [], saved := [], itn := 0,
         itr := 0, n := 0, fils := 2, pars := 1, ffts := 0 } : TVConv Int)
      { inp := 5, irp := 7, frz1 := 1, frz2 := 1 }).1.insp = [5, 0] ∧
    (pconvWrite
      ({ insp := [0, 0, 0, 0], irsp := [0, 0, 0, 0], out := [0, 0, 0, 0],
         saved := [0, 0], itn := 0, itr := 0, n := 0, fils := 4, pars := 2,
         ffts := 4 } : TVConv Int)
      { inp := 5, irp := 7, frz1 := 0, frz2 := -1 }).irsp = [0, 0, 0, 0] ∧
    (init 1 2 : Option (TVConv Int)).map (fun s =>
      ((dconvStep s { inp := 5, irp := 7, frz1 := 1, frz2 := 0 }).1.insp,
       (dconvStep s { inp := 5, irp := 7, frz1 := 1, frz2 := 0 }).1.irsp)) =
      some ([5, 0], [0, 0]) ∧
    (init 2 2 : Option (TVConv Int)).map (fun s =>
      ((pconvStep { fwd := id, inv := id } s
          { inp := 5, irp := 7, frz1 := -1, frz2 := 1 }).1.insp,
       (pconvStep { fwd := id, inv := id } s
          { inp := 5, irp := 7, frz1 := -1, frz2 := 1 }).1.irsp)) =
      some ([0, 0, 0, 0], [7, 0, 0, 0]) :=
  ⟨(freeze_polarity ({ fwd := id, inv := id } : Transforms Int) _
      { inp := 5, irp := 7, frz1 := 1, frz2 := 1 }).1.1 (by decide),
   (freeze_polarity ({ fwd := id, inv := id } : Transforms Int) _
      { inp := 5, irp := 7, frz1 := 0, frz2 := -1 }).2.1.2.2.2 (by decide),
   by decide, by decide⟩

/-- C9, as the streaming-step section states it, fails: on a fresh
partitioned instance (`init 2 2`) a pass with both controls equal to 1, which
is not non-positive, stores the samples 5 and 7 into the two rings. -/
theorem pconv_write_nonpositive_counterexample :
    ∃ (s : TVConv Int) (k : Tick Int), init 2 2 = some s ∧
      ¬ (k.frz1 ≤ 0) ∧ ¬ (k.frz2 ≤ 0) ∧
      (pconvStep { fwd := id, inv := id } s k).1.insp ≠ s.insp ∧
      (pconvStep { fwd := id, inv := id } s k).1.insp.getD (s.itn + s.n) 0 = k.inp ∧
      (pconvStep { fwd := id, inv := id } s k).1.irsp ≠ s.irsp ∧
      (pconvStep { fwd := id, inv := id } s k).1.irsp.getD (s.itr + s.n) 0 = k.irp :=
  ⟨{ insp := [0, 0, 0, 0], irsp := [0, 0, 0, 0], out := [0, 0, 0, 0], saved := [0, 0],
     itn := 0, itr := 0, n := 0, fils := 4, pars := 2, ffts := 4 },
   { inp := 5, irp := 7, frz1 := 1, frz2 := 1 },
   by decide, by decide, by decide, by decide, by decide, by decide, by decide⟩

/-- C9 amended. In the streaming step of `pconv`, for each of the two operands,
the current sample is written into that operand's ring only if that operand's
freeze control value is positive: if the stores of a pass change a ring, its
control is above 0 (also for the whole pass when it does not end a
partition). -/
theorem pconv_write_only_if_positive {R : Type} [LinearOrderedCommRing R]
    (T : Transforms R) (s : TVConv R) (k : Tick R) :
    ((pconvWrite s k).insp ≠ s.insp → 0 < k.frz1) ∧
    ((pconvWrite s k).irsp ≠ s.irsp → 0 < k.frz2) ∧
    ((s.n + 1) % U32 ≠ s.pars → (pconvStep T s k).1.insp ≠ s.insp → 0 < k.frz1) ∧
    ((s.n + 1) % U32 ≠ s.pars → (pconvStep T s k).1.irsp ≠ s.irsp → 0 < k.frz2) := by
  have h1 : (pconvWrite s k).insp ≠ s.insp → 0 < k.frz1 := by
    intro h
    by_contra hc
    apply h
    show (if 0 < k.frz1 then s.insp.set (s.itn + s.n) k.inp else s.insp) = _
    rw [if_neg hc]
  have h2 : (pconvWrite s k).irsp ≠ s.irsp → 0 < k.frz2 := by
    intro h
    by_contra hc
    apply h
    show (if 0 < k.frz2 then s.irsp.set (s.itr + s.n) k.irp else s.irsp) = _
    rw [if_neg hc]
  refine ⟨h1, h2, ?_, ?_⟩
  · intro hn h
    rw [(pconvStep_rings_inside T s k hn).1] at h
    exact h1 h
  · intro hn h
    rw [(pconvStep_rings_inside T s k hn).2.1] at h
    exact h2 h

/-- C9 amended on a fresh partitioned instance: the pass that changes the input
ring has control 1. -/
theorem pconv_write_only_if_positive_witness :
    (pconvWrite
      ({ insp := [0, 0, 0, 0], irsp := [0, 0, 0, 0], out := [0, 0, 0, 0],
         saved := [0, 0], itn := 0, itr := 0, n := 0, fils := 4, pars := 2,
         ffts := 4 } : TVConv Int)
      { inp := 5, irp := 7, frz1 := 1, frz2 := 0 }).insp ≠ [0, 0, 0, 0] ∧
    (0 : Int) < (1 : Int) :=
  ⟨by decide,
   (pconv_write_only_if_positive { fwd := id, inv := id }
      ({ insp := [0, 0, 0, 0], irsp := [0, 0, 0, 0], out := [0, 0, 0, 0],
         saved := [0, 0], itn := 0, itr := 0, n := 0, fils := 4, pars := 2,
         ffts := 4 } : TVConv Int)
      { inp := 5, irp := 7, frz1 := 1, frz2 := 0 }).1 (by decide)⟩

/-- C10, as stated, fails.  From `init 2 4` (`pars = 2`, `ffts = 4`,
`fils = 8`) one pass leads to a reachable state with `n = 1`; the next pass,
with both controls 0 (both operands frozen), ends the partition and moves both
ring cursors from 0 to 4.  With a transform that is not the identity on the
window (here: reversal) the contents of the frozen input ring change as well. -/
theorem pconv_frozen_counterexample :
    ∃ (s : TVConv Int) (k : Tick Int),
      PReach { fwd := List.reverse, inv := List.reverse } s ∧
      k.frz1 ≤ 0 ∧ k.frz2 ≤ 0 ∧
      (pconvStep { fwd := List.reverse, inv := List.reverse } s k).1.itn ≠ s.itn ∧
      (pconvStep { fwd := List.reverse, inv := List.reverse } s k).1.itr ≠ s.itr ∧
      (pconvStep { fwd := List.reverse, inv := List.reverse } s k).1.insp ≠ s.insp ∧
      (pconvStep { fwd := id, inv := id } s k).1.itn ≠ s.itn :=
  ⟨(pconvStep ({ fwd := List.reverse, inv := List.reverse } : Transforms Int)
      { insp := [0, 0, 0, 0, 0, 0, 0, 0], irsp := [0, 0, 0, 0, 0, 0, 0, 0],
        out := [0, 0, 0, 0], saved := [0, 0], itn := 0, itr := 0, n := 0,
        fils := 8, pars := 2, ffts := 4 }
      { inp := 5, irp := 7, frz1 := 1, frz2 := 1 }).1,
   { inp := 3, irp := 4, frz1 := 0, frz2 := 0 },
   PReach.step _ _ (PReach.init 2 4 _ (by decide) (by decide) rfl),
   by decide, by decide, by decide, by decide, by decide, by decide⟩

/-- C10 amended.  In the Partitioned Convolver, on every pass that does not end
a partition (the counter does not reach `pars`) a frozen operand's ring cursor
and the entire contents of its ring are the same after the pass as before.  On
a pass that ends a partition both cursors move on by `ffts`, wrapping to 0 at
the end of the ring, whether or not the operand is frozen, and a frozen
operand's ring is unchanged outside the current block
`[cursor, cursor + ffts)`.  The ring length never changes. -/
theorem pconv_frozen_frame {R : Type} [LinearOrderedCommRing R] (T : Transforms R)
    (s : TVConv R) (k : Tick R) :
    ((s.n + 1) % U32 ≠ s.pars →
      (k.frz1 ≤ 0 → (pconvStep T s k).1.insp = s.insp ∧ (pconvStep T s k).1.itn = s.itn) ∧
      (k.frz2 ≤ 0 → (pconvStep T s k).1.irsp = s.irsp ∧ (pconvStep T s k).1.itr = s.itr)) ∧
    ((s.n + 1) % U32 = s.pars →
      (pconvStep T s k).1.itn =
        (if s.itn + s.ffts = s.insp.length then 0 else s.itn + s.ffts) ∧
      (pconvStep T s k).1.itr =
        (if s.itr + s.ffts = s.irsp.length then 0 else s.itr + s.ffts) ∧
      (k.frz1 ≤ 0 → ∀ i, i < s.itn ∨ s.itn + s.ffts ≤ i →
        (pconvStep T s k).1.insp.getD i 0 = s.insp.getD i 0) ∧
      (k.frz2 ≤ 0 → ∀ i, i < s.itr ∨ s.itr + s.ffts ≤ i →
        (pconvStep T s k).1.irsp.getD i 0 = s.irsp.getD i 0)) ∧
    ((pconvStep T s k).1.insp.length = s.insp.length ∧
     (pconvStep T s k).1.irsp.length = s.irsp.length) := by
  have hw1 : k.frz1 ≤ 0 → (pconvWrite s k).insp = s.insp := by
    intro h
    show (if 0 < k.frz1 then s.insp.set (s.itn + s.n) k.inp else s.insp) = _
    rw [if_neg (not_lt.2 h)]
  have hw2 : k.frz2 ≤ 0 → (pconvWrite s k).irsp = s.irsp := by
    intro h
    show (if 0 < k.frz2 then s.irsp.set (s.itr + s.n) k.irp else s.irsp) = _
    rw [if_neg (not_lt.2 h)]
  obtain ⟨hl1, hl2⟩ := pconvWrite_length s k
  refine ⟨?_, ?_, ?_⟩
  · intro hn
    obtain ⟨e1, e2, e3, e4⟩ := pconvStep_rings_inside T s k hn
    exact ⟨fun h => ⟨e1.trans (hw1 h), e3⟩, fun h => ⟨e2.trans (hw2 h), e4⟩⟩
  · intro hn
    obtain ⟨e1, e2, e3, e4⟩ := pconvStep_rings_update T s k hn
    refine ⟨by rw [e3, hl1], by rw [e4, hl2], ?_, ?_⟩
    · intro h i hi
      rw [e1, hw1 h, getD_rfftAt_outside _ _ _ _ _ _ hi,
        getD_fill_outside _ _ _ _ _ _ (by omega)]
    · intro h i hi
      rw [e2, hw2 h, getD_rfftAt_outside _ _ _ _ _ _ hi,
        getD_fill_outside _ _ _ _ _ _ (by omega)]
  · by_cases hn : (s.n + 1) % U32 = s.pars
    · obtain ⟨e1, e2, -, -⟩ := pconvStep_rings_update T s k hn
      rw [e1, e2, length_rfftAt, length_fill, length_rfftAt, length_fill]
      exact ⟨hl1, hl2⟩
    · obtain ⟨e1, e2, -, -⟩ := pconvStep_rings_inside T s k hn
      rw [e1, e2]
      exact ⟨hl1, hl2⟩

/-- C10 amended on the instance `init 2 4`: the first pass, which does not end
the partition, with the input frozen, and the second pass, which ends it. -/
theorem pconv_frozen_frame_witness :
    ((pconvStep ({ fwd := List.reverse, inv := List.reverse } : Transforms Int)
        { insp := [0, 0, 0, 0, 0, 0, 0, 0], irsp := [0, 0, 0, 0, 0, 0, 0, 0],
          out := [0, 0, 0, 0], saved := [0, 0], itn := 0, itr := 0, n := 0,
          fils := 8, pars := 2, ffts := 4 }
        { inp := 5, irp := 7, frz1 := 0, frz2 := 1 }).1.insp =
        [0, 0, 0, 0, 0, 0, 0, 0] ∧
     (pconvStep ({ fwd := List.reverse, inv := List.reverse } : Transforms Int)
        { insp := [0, 0, 0, 0, 0, 0, 0, 0], irsp := [0, 0, 0, 0, 0, 0, 0, 0],
          out := [0, 0, 0, 0], saved := [0, 0], itn := 0, itr := 0, n := 0,
          fils := 8, pars := 2, ffts := 4 }
        { inp := 5, irp := 7, frz1 := 0, frz2 := 1 }).1.itn = 0) ∧
    (init 2 4 : Option (TVConv Int)).map (fun s =>
      (runTicks (pconvStep ({ fwd := List.reverse, inv := List.reverse } : Transforms Int)) s
        [{ inp := 5, irp := 7, frz1 := 1, frz2 := 1 },
         { inp := 3, irp := 4, frz1 := 0, frz2 := 0 }]).1.insp) =
      some [0, 0, 0, 5, 0, 0, 0, 0] :=
  ⟨((pconv_frozen_frame ({ fwd := List.reverse, inv := List.reverse } : Transforms Int)
      { insp := [0, 0, 0, 0, 0, 0, 0, 0], irsp := [0, 0, 0, 0, 0, 0, 0, 0],
        out := [0, 0, 0, 0], saved := [0, 0], itn := 0, itr := 0, n := 0,
        fils := 8, pars := 2, ffts := 4 }
      { inp := 5, irp := 7, frz1 := 0, frz2 := 1 }).1 (by decide)).1 (by decide),
   by decide⟩

/-- C11. Sample-counter invariant: from partitioned setup (`n = 0`), after every
sequence of passes the counter is below `pars` and equals the number of passes
performed modulo `pars`; the next pass (pass number `ks.length + 1`, counted
from 1) runs the block update if and only if `pars` divides that number,
whatever the input, impulse and freeze-control values of any pass are. -/
theorem sample_counter {R : Type} [LinearOrderedCommRing R] (T : Transforms R)
    (a b : Nat) (s0 : TVConv R) (ks : List (Tick R)) (k : Tick R)
    (hmin : 1 < min a b) (hinit : init a b = some s0) :
    s0.n = 0 ∧
    (runTicks (pconvStep T) s0 ks).1.n < s0.pars ∧
    (runTicks (pconvStep T) s0 ks).1.n = ks.length % s0.pars ∧
    (((runTicks (pconvStep T) s0 ks).1.n + 1) % U32 = (runTicks (pconvStep T) s0 ks).1.pars
      ↔ s0.pars ∣ ks.length + 1) ∧
    (pconvStep T (runTicks (pconvStep T) s0 ks).1 k).1 =
      (if s0.pars ∣ ks.length + 1 then
        blockUpdate T (preUpdate (runTicks (pconvStep T) s0 ks).1 k)
       else preUpdate (runTicks (pconvStep T) s0 ks).1 k) := by
  obtain ⟨h0, hp, hU⟩ := init_counter a b s0 hmin hinit
  obtain ⟨hn, hpars⟩ := counter_run T ks s0 hp hU (by omega)
  rw [h0, Nat.zero_add] at hn
  have hlt : ks.length % s0.pars < s0.pars := Nat.mod_lt _ (by omega)
  have hU' : (ks.length % s0.pars + 1) % U32 = ks.length % s0.pars + 1 := by
    apply Nat.mod_eq_of_lt
    unfold U32
    omega
  have htest : ((runTicks (pconvStep T) s0 ks).1.n + 1) % U32 =
      (runTicks (pconvStep T) s0 ks).1.pars ↔ s0.pars ∣ ks.length + 1 := by
    rw [hn, hpars, hU', dvd_succ_iff _ _ hp]
  refine ⟨h0, by rw [hn]; exact hlt, hn, htest, ?_⟩
  rw [pconvStep_preUpdate]
  by_cases hd : s0.pars ∣ ks.length + 1
  · rw [if_pos (htest.2 hd), if_pos hd]
  · rw [if_neg (fun h => hd (htest.1 h)), if_neg hd]

/-- C11 on the instance `init 2 4` (`pars = 2`) after three passes: the counter
is `3 % 2 = 1` and the fourth pass runs the block update. -/
theorem sample_counter_witness :
    (1 < min 2 4) ∧
    (runTicks (pconvStep ({ fwd := id, inv := id } : Transforms Int))
        { insp := [0, 0, 0, 0, 0, 0, 0, 0], irsp := [0, 0, 0, 0, 0, 0, 0, 0],
          out := [0, 0, 0, 0], saved := [0, 0], itn := 0, itr := 0, n := 0,
          fils := 8, pars := 2, ffts := 4 }
        [{ inp := 1, irp := 5, frz1 := 1, frz2 := 1 },
         { inp := 2, irp := 6, frz1 := 0, frz2 := 1 },
         { inp := 3, irp := 7, frz1 := 1, frz2 := -1 }]).1.n = 3 % 2 ∧
    (init 2 4 : Option (TVConv Int)).map (fun s =>
        ((runTicks (pconvStep ({ fwd := id, inv := id } : Transforms Int)) s
          [{ inp := 1, irp := 5, frz1 := 1, frz2 := 1 },
           { inp := 2, irp := 6, frz1 := 0, frz2 := 1 },
           { inp := 3, irp := 7, frz1 := 1, frz2 := -1 }]).1.n,
         (runTicks (pconvStep ({ fwd := id, inv := id } : Transforms Int)) s
          [{ inp := 1, irp := 5, frz1 := 1, frz2 := 1 },
           { inp := 2, irp := 6, frz1 := 0, frz2 := 1 },
           { inp := 3, irp := 7, frz1 := 1, frz2 := -1 },
           { inp := 4, irp := 8, frz1 := 1, frz2 := 1 }]).1.n)) = some (1, 0) :=
  ⟨by decide,
   (sample_counter ({ fwd := id, inv := id } : Transforms Int) 2 4 _
      [{ inp := 1, irp := 5, frz1 := 1, frz2 := 1 },
       { inp := 2, irp := 6, frz1 := 0, frz2 := 1 },
       { inp := 3, irp := 7, frz1 := 1, frz2 := -1 }]
      { inp := 4, irp := 8, frz1 := 1, frz2 := 1 } (by decide) rfl).2.2.1,
   by decide⟩

/-- C20. Fixed pipeline latency of the partitioned convolver: for a
partitioned instance started from `init` (setup values with `min a b > 1`, no
32-bit overflow), whose accumulator and carry start out as zeros, and for every
sequence of passes with any input, impulse and freeze-control values, each of
the first `pars` output samples is exactly `0`, whatever the two transform
primitives `T` compute.  In every later partition as well the output samples do
not depend on what is fed during that partition: after a whole number of
partitions `pre`, two continuations of the same length, at most `pars`, give the
same outputs, so the sample fed on the first pass of a partition cannot
influence the output earlier than `pars` passes later. -/
theorem first_partition_silent {R : Type} [LinearOrderedCommRing R] (T : Transforms R)
    (a b : Nat) (s0 : TVConv R) (ks : List (Tick R))
    (hmin : 1 < min a b) (hmax : max a b < 3 * 2 ^ 29) (hinit : init a b = some s0)
    (hlen : ks.length ≤ s0.pars) :
    (runTicks (pconvStep T) s0 ks).2 = List.replicate ks.length 0 ∧
    ∀ pre rest rest' : List (Tick R), s0.pars ∣ pre.length → rest.length = rest'.length →
      rest.length ≤ s0.pars →
      (runTicks (pconvStep T) s0 (pre ++ rest)).2 =
        (runTicks (pconvStep T) s0 (pre ++ rest')).2 := by
  refine ⟨?_, ?_⟩
  swap
  · intro pre rest rest' hdvd hlen2 hle2
    obtain ⟨h0, hp, hU⟩ := init_counter a b s0 hmin hinit
    obtain ⟨hn, hpars⟩ := counter_run T pre s0 hp hU (by omega)
    rw [h0, Nat.zero_add, Nat.dvd_iff_mod_eq_zero.1 hdvd] at hn
    rw [runTicks_append, runTicks_append]
    show (runTicks (pconvStep T) s0 pre).2 ++ _ = (runTicks (pconvStep T) s0 pre).2 ++ _
    congr 1
    apply partition_outputs_indep T rest rest' _ _ rfl rfl rfl rfl hlen2
    · rw [hn, hpars, Nat.zero_add]
      exact hle2
    · rw [hpars]
      exact hU
  have hle : min a b ≤ max a b := min_le_max
  obtain ⟨i, hi1, hi30, hri, hmi⟩ := rpow2_small (min a b) (by omega) (by omega)
  obtain ⟨j, hj1, hj30, hrj, hmj⟩ := rpow2_small (max a b) (by omega) hmax
  have h31 : (2 : Nat) ^ i ≤ 2 ^ 31 := Nat.pow_le_pow_right (by norm_num) (by omega)
  rw [init_sorted, init_partitioned _ _ _ _ hle hmin hri hrj] at hinit
  cases hinit
  apply silent_run T ks
  · intro m
    exact getD_allocate _ _
  · intro m
    exact getD_allocate _ _
  · show 0 + ks.length ≤ 2 ^ i
    rw [Nat.zero_add]
    exact hlen
  · exact h31

/-- C20 on the instance `init 4 8` (`pars = 4`) with transforms that are far
from a Fourier transform: the first four outputs are `0`, the fifth is not. -/
theorem first_partition_silent_witness :
    (1 < min 4 8 ∧ max 4 8 < 3 * 2 ^ 29) ∧
    (init 4 8 : Option (TVConv Int)).map (fun s =>
      (runTicks (pconvStep ({ fwd := List.reverse, inv := List.map (fun v => v + 1) } :
          Transforms Int)) s
        [{ inp := 1, irp := 5, frz1 := 1, frz2 := 1 },
         { inp := 2, irp := 6, frz1 := 1, frz2 := 1 },
         { inp := 3, irp := 7, frz1 := 1, frz2 := 1 },
         { inp := 4, irp := 8, frz1 := 1, frz2 := 1 }]).2) = some [0, 0, 0, 0] ∧
    (init 4 8 : Option (TVConv Int)).map (fun s =>
      (runTicks (pconvStep ({ fwd := List.reverse, inv := List.map (fun v => v + 1) } :
          Transforms Int)) s
        [{ inp := 1, irp := 5, frz1 := 1, frz2 := 1 },
         { inp := 2, irp := 6, frz1 := 1, frz2 := 1 },
         { inp := 3, irp := 7, frz1 := 1, frz2 := 1 },
         { inp := 4, irp := 8, frz1 := 1, frz2 := 1 },
         { inp := 9, irp := 9, frz1 := 1, frz2 := 1 }]).2) = some [0, 0, 0, 0, 1] :=
  ⟨⟨by decide, by decide⟩,
   by
    have h := first_partition_silent
      ({ fwd := List.reverse, inv := List.map (fun v => v + 1) } : Transforms Int) 4 8
      { insp := allocate 16, irsp := allocate 16, out := allocate 8, saved := allocate 4,
        itn := 0, itr := 0, n := 0, fils := 16, pars := 4, ffts := 8 }
      [{ inp := 1, irp := 5, frz1 := 1, frz2 := 1 },
       { inp := 2, irp := 6, frz1 := 1, frz2 := 1 },
       { inp := 3, irp := 7, frz1 := 1, frz2 := 1 },
       { inp := 4, irp := 8, frz1 := 1, frz2 := 1 }]
      (by decide) (by decide) (by decide) (by decide)
    exact congrArg some h.1,
   by decide⟩

/-- C19. Ring cursors stay block-aligned and all indexing is in bounds: in
every partitioned state reachable from setup, `fils` is a multiple of `ffts`
and both rings have length `fils`, both ring cursors are multiples of `ffts`
below `fils` and equal to each other, and every load and store of a pass lies
inside its buffer (`PassInBounds`): `ring[cursor + n]` with `n < pars`, the
zero-fill of `[cursor + pars, cursor + ffts)`, the transform windows of `ffts`
values, `out[n + pars]`, `saved[n]` and every block of the delay line walk. -/
theorem cursors_aligned_in_bounds {R : Type} [LinearOrderedCommRing R]
    (T : Transforms R) (s : TVConv R) (h : PReach T s) :
    (s.ffts ∣ s.fils ∧ s.insp.length = s.fils ∧ s.irsp.length = s.fils ∧
      s.out.length = s.ffts ∧ s.saved.length = s.pars ∧ s.ffts = 2 * s.pars) ∧
    (s.ffts ∣ s.itn ∧ s.itn < s.fils ∧ s.ffts ∣ s.itr ∧ s.itr < s.fils ∧ s.itr = s.itn) ∧
    s.n < s.pars ∧
    PassInBounds s := by
  have hinv := pinv_of_reach T s h
  have hb := passInBounds_of_pinv s hinv
  obtain ⟨-, -, hff, hdv, -, hl1, hl2, hl3, hl4, hn, hrn, hdi, hlt⟩ := hinv
  exact ⟨⟨hdv, hl1, hl2, hl3, hl4, hff⟩,
    ⟨hdi, hlt, by rw [hrn]; exact hdi, by rw [hrn]; exact hlt, hrn⟩, hn, hb⟩

/-- C19 on the state reached from `init 2 4` by three passes, one of them with
a frozen input: both cursors stand at offset 4 of rings of length 8. -/
theorem cursors_aligned_in_bounds_witness :
    (runTicks (pconvStep ({ fwd := List.reverse, inv := id } : Transforms Int))
        { insp := [0, 0, 0, 0, 0, 0, 0, 0], irsp := [0, 0, 0, 0, 0, 0, 0, 0],
          out := [0, 0, 0, 0], saved := [0, 0], itn := 0, itr := 0, n := 0,
          fils := 8, pars := 2, ffts := 4 }
        [{ inp := 1, irp := 5, frz1 := 1, frz2 := 1 },
         { inp := 2, irp := 6, frz1 := 0, frz2 := 1 },
         { inp := 3, irp := 7, frz1 := 1, frz2 := -1 }]).1.itn = 4 ∧
    PassInBounds
      (runTicks (pconvStep ({ fwd := List.reverse, inv := id } : Transforms Int))
        { insp := [0, 0, 0, 0, 0, 0, 0, 0], irsp := [0, 0, 0, 0, 0, 0, 0, 0],
          out := [0, 0, 0, 0], saved := [0, 0], itn := 0, itr := 0, n := 0,
          fils := 8, pars := 2, ffts := 4 }
        [{ inp := 1, irp := 5, frz1 := 1, frz2 := 1 },
         { inp := 2, irp := 6, frz1 := 0, frz2 := 1 },
         { inp := 3, irp := 7, frz1 := 1, frz2 := -1 }]).1 :=
  ⟨by decide,
   (cursors_aligned_in_bounds ({ fwd := List.reverse, inv := id } : Transforms Int) _
      (PReach.step _ ({ inp := 3, irp := 7, frz1 := 1, frz2 := -1 } : Tick Int)
        (PReach.step _ ({ inp := 2, irp := 6, frz1 := 0, frz2 := 1 } : Tick Int)
          (PReach.step _ ({ inp := 1, irp := 5, frz1 := 1, frz2 := 1 } : Tick Int)
            (PReach.init 2 4 _ (by decide) (by decide) rfl))))).2.2.2⟩

/-- C18. Accumulator contents before the inverse transform.  At a block update
from a reachable state (the pass `k` brings the counter to `pars`), with
`P = fils / ffts` and `c` the block index of the input cursor after it has been
advanced and wrapped, the accumulator, cleared first, holds in every bin
`b < pars` the sum over `j = 0 .. P - 1` of
`prod (input block (c + j) mod P) (impulse block P - 1 - j)`, exactly `P` terms,
where `prod` is `(re * re, im * im)` on bin 0 and the complex product on the
other bins; the accumulator has `ffts = 2 * pars` entries and the inverse
transform is applied to it.  Equivalently the input block that is `a` blocks old
is multiplied with the impulse block at the fixed ring index `a`. -/
theorem accumulator_contents {R : Type} [LinearOrderedCommRing R] (T : Transforms R)
    (s : TVConv R) (k : Tick R) (b : Nat) (h : PReach T s)
    (hn : (s.n + 1) % U32 = s.pars) (hb : b < s.pars) :
    ((pconvStep T s k).1.out = rfftAt T.inv (blockAccum T (preUpdate s k)) 0 s.ffts ∧
      (blockAccum T (preUpdate s k)).length = s.ffts ∧ s.ffts = 2 * s.pars) ∧
    cget (blockAccum T (preUpdate s k)) 0 b =
      ((List.range (s.fils / s.ffts)).map fun j =>
        binProd b
          (cget (pconvStep T s k).1.insp
            ((((pconvStep T s k).1.itn / s.ffts + j) % (s.fils / s.ffts)) * s.ffts) b)
          (cget (pconvStep T s k).1.irsp ((s.fils / s.ffts - 1 - j) * s.ffts) b)).sum ∧
    cget (blockAccum T (preUpdate s k)) 0 b =
      ((List.range (s.fils / s.ffts)).map fun a =>
        binProd b
          (cget (pconvStep T s k).1.insp
            ((((pconvStep T s k).1.itn / s.ffts + (s.fils / s.ffts - 1 - a)) %
              (s.fils / s.ffts)) * s.ffts) b)
          (cget (pconvStep T s k).1.irsp (a * s.ffts) b)).sum ∧
    (∀ a, a < s.fils / s.ffts →
      blockAge (s.fils / s.ffts) (s.itn / s.ffts)
        (((pconvStep T s k).1.itn / s.ffts + (s.fils / s.ffts - 1 - a)) %
          (s.fils / s.ffts)) = a) ∧
    (∀ x y : R × R, binProd 0 x y = (x.1 * y.1, x.2 * y.2) ∧
      ∀ i, binProd (i + 1) x y = (x.1 * y.1 - x.2 * y.2, x.1 * y.2 + x.2 * y.1)) := by
  have hinv := pinv_of_reach T s h
  have hstep : (pconvStep T s k).1 = blockUpdate T (preUpdate s k) := by
    rw [pconvStep_preUpdate, if_pos hn]
  have hbins := blockAccum_bins T s k hinv b hb
  obtain ⟨P, c, hf, hP, hcP, hfils, hitn, hdiv, hdivc, hnext⟩ := pinv_blocks s hinv
  obtain ⟨-, -, -, e4⟩ := blockUpdate_shape T s k hinv
  obtain ⟨-, -, hff, -, -, -, -, hl3, -, -, -, -, -⟩ := hinv
  rw [hstep]
  refine ⟨⟨blockUpdate_out T _, ?_, hff⟩, hbins, ?_, ?_, ?_⟩
  · have hacc : blockAccum T (preUpdate s k) =
        delayLine s.pars s.ffts (blockUpdate T (preUpdate s k)).insp
          (blockUpdate T (preUpdate s k)).irsp (blockUpdate T (preUpdate s k)).itn
          (fill s.out 0 s.out.length 0) := rfl
    rw [hacc, length_delayLine, length_fill, hl3]
  · rw [hbins, list_sum_range, list_sum_range]
    rw [← Finset.sum_range_reflect (fun a =>
      binProd b
        (cget (blockUpdate T (preUpdate s k)).insp
          ((((blockUpdate T (preUpdate s k)).itn / s.ffts + (s.fils / s.ffts - 1 - a)) %
            (s.fils / s.ffts)) * s.ffts) b)
        (cget (blockUpdate T (preUpdate s k)).irsp (a * s.ffts) b)) (s.fils / s.ffts)]
    apply Finset.sum_congr rfl
    intro j hj
    have hj' : j < s.fils / s.ffts := Finset.mem_range.1 hj
    rw [show s.fils / s.ffts - 1 - (s.fils / s.ffts - 1 - j) = j by omega]
  · intro a ha
    rw [e4, hdiv, hdivc]
    rw [hdiv] at ha
    rw [blockAge_input P c (P - 1 - a) hcP (by omega)]
    omega
  · intro x y
    exact ⟨rfl, fun i => rfl⟩

/-- C18 on the instance `init 2 4` with identity transforms, inputs 1, 2, 3, 4
and impulse samples 10, 20, 30, 40, at its second block update: bin 0 of the
accumulator is `(1 * 30 + 3 * 10, 2 * 40 + 4 * 20)`. -/
theorem accumulator_contents_witness :
    ((1 + 1) % U32 = 2 ∧ 0 < 2) ∧
    cget (blockAccum ({ fwd := id, inv := id } : Transforms Int)
      (preUpdate
        (runTicks (pconvStep ({ fwd := id, inv := id } : Transforms Int))
          { insp := [0, 0, 0, 0, 0, 0, 0, 0], irsp := [0, 0, 0, 0, 0, 0, 0, 0],
            out := [0, 0, 0, 0], saved := [0, 0], itn := 0, itr := 0, n := 0,
            fils := 8, pars := 2, ffts := 4 }
          [{ inp := 1, irp := 10, frz1 := 1, frz2 := 1 },
           { inp := 2, irp := 20, frz1 := 1, frz2 := 1 },
           { inp := 3, irp := 30, frz1 := 1, frz2 := 1 }]).1
        { inp := 4, irp := 40, frz1 := 1, frz2 := 1 })) 0 0 =
      ((List.range (8 / 4)).map fun j =>
        binProd 0
          (cget [1, 2, 0, 0, 3, 4, 0, 0] (((0 / 4 + j) % (8 / 4)) * 4) 0)
          (cget [10, 20, 0, 0, 30, 40, 0, 0] ((8 / 4 - 1 - j) * 4) 0)).sum ∧
    blockAccum ({ fwd := id, inv := id } : Transforms Int)
      (preUpdate
        (runTicks (pconvStep ({ fwd := id, inv := id } : Transforms Int))
          { insp := [0, 0, 0, 0, 0, 0, 0, 0], irsp := [0, 0, 0, 0, 0, 0, 0, 0],
            out := [0, 0, 0, 0], saved := [0, 0], itn := 0, itr := 0, n := 0,
            fils := 8, pars := 2, ffts := 4 }
          [{ inp := 1, irp := 10, frz1 := 1, frz2 := 1 },
           { inp := 2, irp := 20, frz1 := 1, frz2 := 1 },
           { inp := 3, irp := 30, frz1 := 1, frz2 := 1 }]).1
        { inp := 4, irp := 40, frz1 := 1, frz2 := 1 }) = [60, 160, 0, 0] :=
  ⟨⟨by decide, by decide⟩,
   (accumulator_contents ({ fwd := id, inv := id } : Transforms Int) _
      ({ inp := 4, irp := 40, frz1 := 1, frz2 := 1 } : Tick Int) 0
      (PReach.step _ ({ inp := 3, irp := 30, frz1 := 1, frz2 := 1 } : Tick Int)
        (PReach.step _ ({ inp := 2, irp := 20, frz1 := 1, frz2 := 1 } : Tick Int)
          (PReach.step _ ({ inp := 1, irp := 10, frz1 := 1, frz2 := 1 } : Tick Int)
            (PReach.init 2 4 _ (by decide) (by decide) rfl))))
      (by decide) (by decide)).2.1,
   by decide⟩

/-- C17, as stated, fails.  On the instance `init 2 4` (`P = 2` blocks per
ring, identity transforms) the fourth pass runs the second block update.  Its
walk pairs the input block at offset 0, which is one update old, with the
impulse block at offset 4, which has just been transformed (age 0), and the
input block just transformed with the impulse block that is one update old: with
inputs 1, 2, 3, 4 and impulse samples 10, 20, 30, 40 the accumulator is
`(1 * 30 + 3 * 10, 2 * 40 + 4 * 20, 0, 0)`. -/
theorem delay_line_same_age_counterexample :
    ∃ (s : TVConv Int) (k : Tick Int),
      PReach { fwd := id, inv := id } s ∧ (s.n + 1) % U32 = s.pars ∧
      delayWalk s.ffts (pconvStep { fwd := id, inv := id } s k).1.insp.length
        (pconvStep { fwd := id, inv := id } s k).1.irsp.length
        (pconvStep { fwd := id, inv := id } s k).1.itn = [(0, 4), (4, 0)] ∧
      blockAge (s.fils / s.ffts) (s.itn / s.ffts) (0 / s.ffts) = 1 ∧
      blockAge (s.fils / s.ffts) (s.itr / s.ffts) (4 / s.ffts) = 0 ∧
      (pconvStep { fwd := id, inv := id } s k).1.insp = [1, 2, 0, 0, 3, 4, 0, 0] ∧
      (pconvStep { fwd := id, inv := id } s k).1.irsp = [10, 20, 0, 0, 30, 40, 0, 0] ∧
      blockAccum { fwd := id, inv := id } (preUpdate s k) = [60, 160, 0, 0] :=
  ⟨(runTicks (pconvStep ({ fwd := id, inv := id } : Transforms Int))
      { insp := [0, 0, 0, 0, 0, 0, 0, 0], irsp := [0, 0, 0, 0, 0, 0, 0, 0],
        out := [0, 0, 0, 0], saved := [0, 0], itn := 0, itr := 0, n := 0,
        fils := 8, pars := 2, ffts := 4 }
      [{ inp := 1, irp := 10, frz1 := 1, frz2 := 1 },
       { inp := 2, irp := 20, frz1 := 1, frz2 := 1 },
       { inp := 3, irp := 30, frz1 := 1, frz2 := 1 }]).1,
   { inp := 4, irp := 40, frz1 := 1, frz2 := 1 },
   PReach.step _ ({ inp := 3, irp := 30, frz1 := 1, frz2 := 1 } : Tick Int)
     (PReach.step _ ({ inp := 2, irp := 20, frz1 := 1, frz2 := 1 } : Tick Int)
       (PReach.step _ ({ inp := 1, irp := 10, frz1 := 1, frz2 := 1 } : Tick Int)
         (PReach.init 2 4 _ (by decide) (by decide) rfl))),
   by decide, by decide, by decide, by decide, by decide, by decide, by decide⟩

/-- C17 amended.  At a block update from a reachable partitioned state, with
`P = fils / ffts` blocks per ring, `c0` the block just transformed and `c` the
block of the advanced cursor, the walk makes `P` passes; pass `j` pairs the
input block `(c + j) mod P`, whose age is `P - 1 - j` (the input ring is walked
from its oldest block to the one just transformed), with the impulse block at
the fixed ring index `P - 1 - j` (the impulse ring is walked from its last
block to its first), whose age is `(c + j) mod P`; the accumulator is the fold
of the spectral product over these pairs.  The two blocks of a pair have the
same age exactly when `(c + j) mod P = P - 1 - j`. -/
theorem delay_line_pairing {R : Type} [LinearOrderedCommRing R] (T : Transforms R)
    (s : TVConv R) (k : Tick R) (h : PReach T s) (hn : (s.n + 1) % U32 = s.pars) :
    delayWalk s.ffts (pconvStep T s k).1.insp.length (pconvStep T s k).1.irsp.length
        (pconvStep T s k).1.itn =
      ((List.range (s.fils / s.ffts)).map fun j =>
        ((((pconvStep T s k).1.itn / s.ffts + j) % (s.fils / s.ffts)) * s.ffts,
         (s.fils / s.ffts - 1 - j) * s.ffts)) ∧
    blockAccum T (preUpdate s k) =
      (delayWalk s.ffts (pconvStep T s k).1.insp.length (pconvStep T s k).1.irsp.length
        (pconvStep T s k).1.itn).foldl
        (fun o p =>
          specProd s.pars (pconvStep T s k).1.insp (pconvStep T s k).1.irsp p.1 p.2 o)
        (fill s.out 0 s.out.length 0) ∧
    (pconvStep T s k).1.itn / s.ffts = (s.itn / s.ffts + 1) % (s.fils / s.ffts) ∧
    ∀ j, j < s.fils / s.ffts →
      blockAge (s.fils / s.ffts) (s.itn / s.ffts)
        (((pconvStep T s k).1.itn / s.ffts + j) % (s.fils / s.ffts)) =
          s.fils / s.ffts - 1 - j ∧
      blockAge (s.fils / s.ffts) (s.itr / s.ffts) (s.fils / s.ffts - 1 - j) =
        ((pconvStep T s k).1.itn / s.ffts + j) % (s.fils / s.ffts) ∧
      (blockAge (s.fils / s.ffts) (s.itn / s.ffts)
          (((pconvStep T s k).1.itn / s.ffts + j) % (s.fils / s.ffts)) =
        blockAge (s.fils / s.ffts) (s.itr / s.ffts) (s.fils / s.ffts - 1 - j) ↔
        ((pconvStep T s k).1.itn / s.ffts + j) % (s.fils / s.ffts) =
          s.fils / s.ffts - 1 - j) := by
  have hinv := pinv_of_reach T s h
  have hstep : (pconvStep T s k).1 = blockUpdate T (preUpdate s k) := by
    rw [pconvStep_preUpdate, if_pos hn]
  obtain ⟨P, c, hf, hP, hcP, hfils, hitn, hdiv, hdivc, hnext⟩ := pinv_blocks s hinv
  obtain ⟨e1, e2, e3, e4⟩ := blockUpdate_shape T s k hinv
  obtain ⟨-, -, -, -, -, -, -, -, -, -, hrn, -, -⟩ := hinv
  rw [hstep]
  refine ⟨?_, ?_, e4, ?_⟩
  · rw [e1, e2, e4, e3, hdiv, hdivc, hfils, delayWalk_eq P s.ffts _ hf (Nat.mod_lt _ hP)]
  · have hacc : blockAccum T (preUpdate s k) =
        delayLine s.pars s.ffts (blockUpdate T (preUpdate s k)).insp
          (blockUpdate T (preUpdate s k)).irsp (blockUpdate T (preUpdate s k)).itn
          (fill s.out 0 s.out.length 0) := rfl
    rw [hacc, delayLine_eq_walk]
  · intro j hj
    rw [e4, hrn, hdiv, hdivc]
    rw [hdiv] at hj
    have ha := blockAge_input P c j hcP hj
    have hb := blockAge_impulse P c j hj
    refine ⟨ha, hb, ?_⟩
    rw [ha, hb]
    exact ⟨fun he => he.symm, fun he => he.symm⟩

/-- C17 amended on the instance `init 2 4` at its second block update: the walk
visits the pairs of offsets `(0, 4)` and `(4, 0)`. -/
theorem delay_line_pairing_witness :
    ((1 + 1) % U32 = 2) ∧
    delayWalk 4 8 8 0 =
      ((List.range (8 / 4)).map fun j => (((0 / 4 + j) % (8 / 4)) * 4, (8 / 4 - 1 - j) * 4)) ∧
    delayWalk 4 8 8 0 = [(0, 4), (4, 0)] :=
  ⟨by decide,
   (delay_line_pairing ({ fwd := id, inv := id } : Transforms Int) _
      ({ inp := 4, irp := 40, frz1 := 1, frz2 := 1 } : Tick Int)
      (PReach.step _ ({ inp := 3, irp := 30, frz1 := 1, frz2 := 1 } : Tick Int)
        (PReach.step _ ({ inp := 2, irp := 20, frz1 := 1, frz2 := 1 } : Tick Int)
          (PReach.step _ ({ inp := 1, irp := 10, frz1 := 1, frz2 := 1 } : Tick Int)
            (PReach.init 2 4 _ (by decide) (by decide) rfl))))
      (by decide)).1,
   by decide⟩

/-- C12. The peak tracer keeps the top-`k` bins: for a new analysis frame with
`len` bins and a keep-count `1 <= k <= len` the threshold is the element of
index `len - k` of the amplitudes sorted ascending (the `k`-th largest: index
`k - 1` of the descending order); each output bin is the input bin, amplitude
and frequency, when its amplitude is at least the threshold and the null bin
otherwise.  Hence at least `k` bins are passed, every bin that is not passed
has a smaller amplitude than every passed bin, and exactly `k` bins are passed
when all amplitudes are distinct. -/
theorem trace_top_k {R : Type} [LinearOrderedCommRing R] (p : PVTrace R)
    (fin : pv_frame R) (k : Nat) (hnew : p.framecount < fin.count) (hk1 : 1 ≤ k)
    (hk : k ≤ fin.len) :
    ∃ thr : R,
      ((fin.bins.map fun f => f.amp).insertionSort (· ≤ ·))[fin.len - k]? = some thr ∧
      (((fin.bins.map fun f => f.amp).insertionSort (· ≤ ·)).reverse)[k - 1]? = some thr ∧
      p.kperf fin (k : Int) =
        some { framecount := fin.count,
               fout := { bins := fin.bins.map fun f =>
                           if f.amp ≥ thr then f else pv_bin.null,
                         count := fin.count } } ∧
      k ≤ fin.bins.countP (fun f => decide (f.amp ≥ thr)) ∧
      (∀ f g, f ∈ fin.bins → g ∈ fin.bins → f.amp ≥ thr → ¬ g.amp ≥ thr →
        g.amp < f.amp) ∧
      ((fin.bins.map fun f => f.amp).Nodup →
        fin.bins.countP (fun f => decide (f.amp ≥ thr)) = k) := by
  have hk' : k ≤ fin.bins.length := hk
  obtain ⟨thr, hthr, htr⟩ := traceFrame_of_valid fin.bins k hk1 hk'
  have hlen : (fin.bins.map fun f => f.amp).length = fin.bins.length := List.length_map _ _
  have hi : fin.bins.length - k < (fin.bins.map fun f => f.amp).length := by
    rw [hlen]; omega
  refine ⟨thr, hthr, ?_, ?_, ?_, ?_, ?_⟩
  · rw [List.getElem?_reverse (by rw [List.length_insertionSort, hlen]; omega),
      List.length_insertionSort, hlen,
      show fin.bins.length - 1 - (k - 1) = fin.bins.length - k by omega]
    exact hthr
  · unfold PVTrace.kperf
    rw [if_pos hnew, htr]
    rfl
  · have h := count_ge_nth _ _ thr hi hthr
    rw [countP_bins_amp, hlen] at h
    have hle : k ≤ fin.bins.length - (fin.bins.length - k) := by omega
    exact le_trans hle h
  · intro f g _ _ hf hg
    exact lt_of_lt_of_le (not_le.1 hg) hf
  · intro hnd
    have h := count_ge_nth_nodup _ _ thr hi hthr hnd
    rw [countP_bins_amp, hlen] at h
    rw [show (fun f : pv_bin R => decide (f.amp ≥ thr)) =
      (fun f : pv_bin R => decide (thr ≤ f.amp)) from rfl, h]
    omega

/-- C12 on a frame of five bins with keep-count 2: the threshold is 7 and the
two bins of amplitude 9 and 7 are kept. -/
theorem trace_top_k_witness :
    ((0 : Nat) < 1 ∧ 1 ≤ 2 ∧ 2 ≤ 5) ∧
    PVTrace.kperf ({ framecount := 0, fout := { bins := [], count := 0 } } : PVTrace Int)
      { bins := [{ amp := 3, freq := 100 }, { amp := 9, freq := 200 },
                 { amp := 1, freq := 300 }, { amp := 7, freq := 400 },
                 { amp := 5, freq := 500 }],
        count := 1 } 2 =
      some { framecount := 1,
             fout := { bins := [{ amp := 0, freq := 0 }, { amp := 9, freq := 200 },
                                { amp := 0, freq := 0 }, { amp := 7, freq := 400 },
                                { amp := 0, freq := 0 }],
                       count := 1 } } :=
  ⟨⟨by decide, by decide, by decide⟩, by
    obtain ⟨thr, h1, -, h3, -, -, -⟩ := trace_top_k
      ({ framecount := 0, fout := { bins := [], count := 0 } } : PVTrace Int)
      { bins := [{ amp := 3, freq := 100 }, { amp := 9, freq := 200 },
                 { amp := 1, freq := 300 }, { amp := 7, freq := 400 },
                 { amp := 5, freq := 500 }],
        count := 1 } 2 (by decide) (by decide) (by decide)
    have hthr : thr = 7 := by
      have h7 : ((([{ amp := 3, freq := 100 }, { amp := 9, freq := 200 },
          { amp := 1, freq := 300 }, { amp := 7, freq := 400 },
          { amp := 5, freq := 500 }] : List (pv_bin Int)).map fun f => f.amp).insertionSort
            (· ≤ ·))[5 - 2]? = some 7 := by decide
      have h1' : ((([{ amp := 3, freq := 100 }, { amp := 9, freq := 200 },
          { amp := 1, freq := 300 }, { amp := 7, freq := 400 },
          { amp := 5, freq := 500 }] : List (pv_bin Int)).map fun f => f.amp).insertionSort
            (· ≤ ·))[5 - 2]? = some thr := h1
      rw [h7] at h1'
      exact (Option.some.inj h1').symm
    subst hthr
    exact h3⟩

/-- C13. Peak tracer idempotence: for a frame of `len` bins with non-negative
amplitudes and a keep-count `1 <= k <= len`, thresholding the frame and then
thresholding the result with the same `k` gives exactly the result of
thresholding once; stated for the thresholding itself and for two tracer
instances in a chain, each seeing a new frame. -/
theorem trace_idempotent {R : Type} [LinearOrderedCommRing R] (p1 p2 : PVTrace R)
    (fin : pv_frame R) (k : Nat) (hk1 : 1 ≤ k) (hk : k ≤ fin.len)
    (hnn : ∀ f, f ∈ fin.bins → 0 ≤ f.amp) :
    (∃ out, traceFrame fin.bins (k : Int) = some out ∧
      traceFrame out (k : Int) = some out) ∧
    (p1.framecount < fin.count → p2.framecount < fin.count →
      ∃ q1 q2, p1.kperf fin (k : Int) = some q1 ∧ p2.kperf q1.fout (k : Int) = some q2 ∧
        q2.fout = q1.fout) := by
  obtain ⟨out, h1, h2, -⟩ := traceFrame_idem fin.bins k hk1 hk hnn
  refine ⟨⟨out, h1, h2⟩, ?_⟩
  intro hn1 hn2
  refine ⟨{ framecount := fin.count, fout := { bins := out, count := fin.count } },
    { framecount := fin.count, fout := { bins := out, count := fin.count } }, ?_, ?_, rfl⟩
  · unfold PVTrace.kperf
    rw [if_pos hn1, h1]
    rfl
  · unfold PVTrace.kperf
    have hn2' : p2.framecount <
        ({ bins := out, count := fin.count } : pv_frame R).count := hn2
    rw [if_pos hn2']
    show (traceFrame out (k : Int)).map _ = _
    rw [h2]
    rfl

/-- C13 on a frame of four bins, two of them sharing the threshold amplitude,
with keep-count 2. -/
theorem trace_idempotent_witness :
    ((1 : Nat) ≤ 2 ∧ 2 ≤ 4) ∧
    (∃ out : List (pv_bin Int),
      traceFrame ([{ amp := 4, freq := 10 }, { amp := 6, freq := 20 },
                   { amp := 4, freq := 30 }, { amp := 0, freq := 40 }] :
          List (pv_bin Int)) ((2 : Nat) : Int) = some out ∧
      traceFrame out ((2 : Nat) : Int) = some out) ∧
    traceFrame ([{ amp := 4, freq := 10 }, { amp := 6, freq := 20 },
                 { amp := 4, freq := 30 }, { amp := 0, freq := 40 }] : List (pv_bin Int)) 2 =
      some [{ amp := 4, freq := 10 }, { amp := 6, freq := 20 },
            { amp := 4, freq := 30 }, { amp := 0, freq := 0 }] :=
  ⟨⟨by decide, by decide⟩,
   (trace_idempotent
      ({ framecount := 0, fout := { bins := [], count := 0 } } : PVTrace Int)
      ({ framecount := 0, fout := { bins := [], count := 0 } } : PVTrace Int)
      { bins := [{ amp := 4, freq := 10 }, { amp := 6, freq := 20 },
                 { amp := 4, freq := 30 }, { amp := 0, freq := 40 }],
        count := 1 } 2 (by decide) (by decide) (by decide)).1,
   by decide⟩

/-- C14, as stated, fails when several bins share the maximum amplitude: on a
frame of two bins of amplitude 1 the tracer with keep-count 1 passes both, so
two bins of the output are not the null bin. -/
theorem trace_keep_one_counterexample :
    ∃ (p q : PVTrace Int) (fin : pv_frame Int),
      1 ≤ fin.len ∧ p.framecount < fin.count ∧ p.kperf fin 1 = some q ∧
      q.fout.bins = [{ amp := 1, freq := 10 }, { amp := 1, freq := 20 }] ∧
      q.fout.bins.countP (fun f => decide (f ≠ pv_bin.null)) = 2 :=
  ⟨({ framecount := 0, fout := { bins := [], count := 0 } } : PVTrace Int),
   ({ framecount := 1,
      fout := { bins := [{ amp := 1, freq := 10 }, { amp := 1, freq := 20 }],
                count := 1 } } : PVTrace Int),
   ({ bins := [{ amp := 1, freq := 10 }, { amp := 1, freq := 20 }], count := 1 } :
      pv_frame Int),
   by decide, by decide, by decide, rfl, by decide⟩

/-- C14 amended.  For a new frame with `len >= 1` bins the tracer with keep-count
1 takes the largest amplitude as threshold, passes every bin whose amplitude
equals that maximum unchanged and replaces every other bin, whose amplitude is
smaller, by the null bin; at least one bin is passed, and exactly one when a
single bin has the maximum amplitude. -/
theorem trace_keep_one {R : Type} [LinearOrderedCommRing R] (p : PVTrace R)
    (fin : pv_frame R) (hnew : p.framecount < fin.count) (hlen : 1 ≤ fin.len) :
    ∃ thr : R,
      (∃ f, f ∈ fin.bins ∧ f.amp = thr) ∧ (∀ f, f ∈ fin.bins → f.amp ≤ thr) ∧
      p.kperf fin 1 =
        some { framecount := fin.count,
               fout := { bins := fin.bins.map fun f =>
                           if f.amp = thr then f else pv_bin.null,
                         count := fin.count } } ∧
      1 ≤ fin.bins.countP (fun f => decide (f.amp = thr)) ∧
      (∀ f, f ∈ fin.bins → f.amp ≠ thr → f.amp < thr) := by
  have hlen' : 1 ≤ fin.bins.length := hlen
  obtain ⟨thr, hthr, htr⟩ := traceFrame_of_valid fin.bins 1 (le_refl 1) hlen'
  have hl : (fin.bins.map fun f => f.amp).length = fin.bins.length := List.length_map _ _
  rw [← hl] at hthr
  obtain ⟨hmem, hmax⟩ := nth_last_is_max _ thr (by rw [hl]; exact hlen') hthr
  obtain ⟨f0, hf0, hf0a⟩ := List.mem_map.1 hmem
  have hmax' : ∀ f, f ∈ fin.bins → f.amp ≤ thr := fun f hf =>
    hmax f.amp (List.mem_map.2 ⟨f, hf, rfl⟩)
  refine ⟨thr, ⟨f0, hf0, hf0a⟩, hmax', ?_, ?_, ?_⟩
  · unfold PVTrace.kperf
    rw [if_pos hnew]
    have h1 : ((1 : Nat) : Int) = 1 := rfl
    have hmap : (fin.bins.map fun f => if f.amp ≥ thr then f else pv_bin.null) =
        fin.bins.map fun f => if f.amp = thr then f else pv_bin.null := by
      apply List.map_congr_left
      intro f hf
      by_cases he : f.amp = thr
      · rw [if_pos he, if_pos (le_of_eq he.symm)]
      · rw [if_neg he, if_neg (fun hge : f.amp ≥ thr => he (le_antisymm (hmax' f hf) hge))]
    rw [← h1, htr, hmap]
    rfl
  · exact List.countP_pos_iff.2 ⟨f0, hf0, decide_eq_true hf0a⟩
  · intro f hf hne
    exact lt_of_le_of_ne (hmax' f hf) hne

/-- C14 amended on a frame of three bins with a single maximum. -/
theorem trace_keep_one_witness :
    ((0 : Nat) < 1 ∧ 1 ≤ 3) ∧
    PVTrace.kperf ({ framecount := 0, fout := { bins := [], count := 0 } } : PVTrace Int)
      { bins := [{ amp := 2, freq := 10 }, { amp := 8, freq := 20 },
                 { amp := 5, freq := 30 }],
        count := 1 } 1 =
      some { framecount := 1,
             fout := { bins := [{ amp := 0, freq := 0 }, { amp := 8, freq := 20 },
                                { amp := 0, freq := 0 }],
                       count := 1 } } ∧
    (∃ thr : Int,
      (∀ f, f ∈ ([{ amp := 2, freq := 10 }, { amp := 8, freq := 20 },
                  { amp := 5, freq := 30 }] : List (pv_bin Int)) → f.amp ≤ thr) ∧
      ∃ f, f ∈ ([{ amp := 2, freq := 10 }, { amp := 8, freq := 20 },
                 { amp := 5, freq := 30 }] : List (pv_bin Int)) ∧ f.amp = thr) :=
  ⟨⟨by decide, by decide⟩, by decide, by
    obtain ⟨thr, h1, h2, -, -, -⟩ := trace_keep_one
      ({ framecount := 0, fout := { bins := [], count := 0 } } : PVTrace Int)
      { bins := [{ amp := 2, freq := 10 }, { amp := 8, freq := 20 },
                 { amp := 5, freq := 30 }],
        count := 1 } (by decide) (by decide)
    exact ⟨thr, h2, h1⟩⟩

/-- C15, as stated, fails for a control value above the number of bins: on a
frame of 2 bins with `k = 3` the selection index `len - k` is `-1`, which is not
an index of the amplitude buffer, and the thresholding is undefined. -/
theorem trace_keep_above_counterexample :
    ∃ (p : PVTrace Int) (fin : pv_frame Int) (k : Int),
      p.framecount < fin.count ∧ k ≥ (fin.len : Int) ∧ (fin.len : Int) - k = -1 ∧
      ¬ (0 ≤ (fin.len : Int) - k ∧ (fin.len : Int) - k < (fin.len : Int)) ∧
      nthElement (fin.bins.map fun f => f.amp) ((fin.len : Int) - k) = none ∧
      p.kperf fin k = none :=
  ⟨({ framecount := 0, fout := { bins := [], count := 0 } } : PVTrace Int),
   ({ bins := [{ amp := 3, freq := 10 }, { amp := 5, freq := 20 }], count := 1 } :
      pv_frame Int),
   3, by decide, by decide, by decide, by decide, by decide, by decide⟩

/-- C15 amended.  For a new frame of `len >= 1` bins and the control value
`k = len` the selection index `len - k = 0` is an index of the amplitude buffer,
the threshold is the smallest amplitude of the frame and the output frame equals
the input frame; for every `k > len` the selection index `len - k` is negative,
not an index of the buffer, and the result is undefined. -/
theorem trace_keep_above {R : Type} [LinearOrderedCommRing R] (p : PVTrace R)
    (fin : pv_frame R) (k : Int) (hnew : p.framecount < fin.count) (hlen : 1 ≤ fin.len) :
    (k = (fin.len : Int) →
      ∃ thr, nthElement (fin.bins.map fun f => f.amp) ((fin.len : Int) - k) = some thr ∧
        (∃ f, f ∈ fin.bins ∧ f.amp = thr) ∧ (∀ f, f ∈ fin.bins → thr ≤ f.amp) ∧
        p.kperf fin k =
          some { framecount := fin.count,
                 fout := { bins := fin.bins, count := fin.count } }) ∧
    (k > (fin.len : Int) →
      (fin.len : Int) - k < 0 ∧
      nthElement (fin.bins.map fun f => f.amp) ((fin.len : Int) - k) = none ∧
      p.kperf fin k = none) := by
  have hlen' : 1 ≤ fin.bins.length := hlen
  constructor
  · intro hk
    subst hk
    obtain ⟨thr, h1, h2, h3, h4⟩ := traceFrame_full fin.bins hlen'
    refine ⟨thr, h1, h2, h3, ?_⟩
    unfold PVTrace.kperf
    rw [if_pos hnew]
    show (traceFrame fin.bins (fin.bins.length : Int)).map _ = _
    rw [h4]
    rfl
  · intro hk
    have hneg : (fin.len : Int) - k < 0 := by omega
    have hnone := nthElement_neg (fin.bins.map fun f => f.amp) _ hneg
    refine ⟨hneg, hnone, ?_⟩
    unfold PVTrace.kperf traceFrame
    rw [if_pos hnew]
    simp only []
    have hnone' : nthElement (fin.bins.map fun f => f.amp)
        ((fin.bins.length : Int) - k) = none := hnone
    rw [hnone']
    rfl

/-- C15 amended on a frame of three bins: with `k = 3` the frame passes
unchanged, with `k = 4` the result is undefined. -/
theorem trace_keep_above_witness :
    ((0 : Nat) < 1 ∧ 1 ≤ 3) ∧
    (PVTrace.kperf ({ framecount := 0, fout := { bins := [], count := 0 } } : PVTrace Int)
      { bins := [{ amp := 2, freq := 10 }, { amp := 8, freq := 20 },
                 { amp := 5, freq := 30 }],
        count := 1 } 4 = none) ∧
    (PVTrace.kperf ({ framecount := 0, fout := { bins := [], count := 0 } } : PVTrace Int)
      { bins := [{ amp := 2, freq := 10 }, { amp := 8, freq := 20 },
                 { amp := 5, freq := 30 }],
        count := 1 } 3 =
      some { framecount := 1,
             fout := { bins := [{ amp := 2, freq := 10 }, { amp := 8, freq := 20 },
                                { amp := 5, freq := 30 }],
                       count := 1 } }) :=
  ⟨⟨by decide, by decide⟩,
   ((trace_keep_above
      ({ framecount := 0, fout := { bins := [], count := 0 } } : PVTrace Int)
      { bins := [{ amp := 2, freq := 10 }, { amp := 8, freq := 20 },
                 { amp := 5, freq := 30 }],
        count := 1 } 4 (by decide) (by decide)).2 (by decide)).2.2,
   by decide⟩

/-- C16. Peak tracer identity at full keep-count: for a new frame of `len >= 1`
bins the tracer run with `k = len` puts out a frame equal to the input frame bin
for bin, amplitude and frequency, with the counter of the input frame. -/
theorem trace_keep_all {R : Type} [LinearOrderedCommRing R] (p : PVTrace R)
    (fin : pv_frame R) (hnew : p.framecount < fin.count) (hlen : 1 ≤ fin.len) :
    ∃ q, p.kperf fin (fin.len : Int) = some q ∧ q.fout = fin ∧
      q.framecount = fin.count ∧
      ∀ i, i < fin.len → q.fout.bins[i]? = fin.bins[i]? := by
  have hlen' : 1 ≤ fin.bins.length := hlen
  obtain ⟨thr, -, -, -, h4⟩ := traceFrame_full fin.bins hlen'
  refine ⟨{ framecount := fin.count, fout := { bins := fin.bins, count := fin.count } },
    ?_, rfl, rfl, fun i _ => rfl⟩
  unfold PVTrace.kperf
  rw [if_pos hnew]
  show (traceFrame fin.bins (fin.bins.length : Int)).map _ = _
  rw [h4]
  rfl

/-- C16 on a frame of three bins with `k = 3`. -/
theorem trace_keep_all_witness :
    ((0 : Nat) < 1 ∧ 1 ≤ 3) ∧
    ∃ q : PVTrace Int,
      PVTrace.kperf ({ framecount := 0, fout := { bins := [], count := 0 } } : PVTrace Int)
        { bins := [{ amp := 2, freq := 10 }, { amp := 0, freq := 20 },
                   { amp := 5, freq := 30 }],
          count := 1 } ((3 : Nat) : Int) = some q ∧
      q.fout = { bins := [{ amp := 2, freq := 10 }, { amp := 0, freq := 20 },
                          { amp := 5, freq := 30 }],
                 count := 1 } :=
  ⟨⟨by decide, by decide⟩, by
    obtain ⟨q, h1, h2, -, -⟩ := trace_keep_all
      ({ framecount := 0, fout := { bins := [], count := 0 } } : PVTrace Int)
      { bins := [{ amp := 2, freq := 10 }, { amp := 0, freq := 20 },
                 { amp := 5, freq := 30 }],
        count := 1 } (by decide) (by decide)
    exact ⟨q, h1, h2⟩⟩

end PvsOps
